import Mathlib

/-!
# Blueprinter: the resolution engine

A shallow embedding of `internal/parser` (the catalogue of objects and the
annotation queries) and of `internal/resolver` (binding construction, the
derivation fixpoint, public resolution and the assembly of `Data`).

Conventions of the embedding.

* `go/types` is external.  A `types.Type` is a handle (`GoType`), and the
  predicates of `go/types` that the code calls are the fields of a
  `TypeOracle`, about which nothing is assumed.
* A `types.Object` together with its doc comment is the record `Object`.
* Go pointers that are compared or used as map keys carry an address:
  `Iface.ptr`.  A pointer to a `PrivateFuncDecl` held in a `Derivation` is the
  position of that declaration in `r.decls`, which only ever grows at its end.
* A Go `map` is an association list in insertion order.  The order in which
  `range` visits `r.bindings` is not fixed by Go; it is a parameter
  `order : Nat → List (Iface × Func)` giving the visiting order of each round.
* A slice that may be `nil` and is tested against `nil` is an `Option (List _)`.
* `panic` is the result `none` of a function returning `Option`.
-/

set_option autoImplicit false

namespace Blueprinter

/-! ## Strings -/

/-- Substring test on characters: the unanchored match of a literal pattern. -/
def containsChars (pat : List Char) : List Char → Bool
  | [] => pat.isEmpty
  | c :: cs => pat.isPrefixOf (c :: cs) || containsChars pat cs

/-- The call `regexp.MatchString` for a pattern that is a literal text. -/
def matchLiteral (pat text : String) : Bool :=
  containsChars pat.data text.data

/-- The call `strings.Split(s, sep)` for a separator of one character. -/
def splitChars (sep : Char) : List Char → List (List Char)
  | [] => [[]]
  | c :: cs =>
    if c = sep then [] :: splitChars sep cs
    else
      match splitChars sep cs with
      | [] => [[c]]
      | p :: ps => (c :: p) :: ps

/-- White space in the sense of `unicode.IsSpace`. -/
def isSpace (c : Char) : Bool :=
  let n := c.toNat
  n = 9 || n = 10 || n = 11 || n = 12 || n = 13 || n = 32 || n = 0x85 || n = 0xA0 ||
  n = 0x1680 || (0x2000 ≤ n && n ≤ 0x200a) || n = 0x2028 || n = 0x2029 ||
  n = 0x202f || n = 0x205f || n = 0x3000

/-- The call `strings.TrimSpace`. -/
def trimSpace (s : List Char) : List Char :=
  ((s.dropWhile isSpace).reverse.dropWhile isSpace).reverse

/-- The call `strings.TrimPrefix(s, p)`. -/
def trimLeading (p s : List Char) : List Char :=
  if p.isPrefixOf s then s.drop p.length else s

/-- The call `strings.Replace(s, old, "_", -1)` for `old` of one character. -/
def replaceChar (old : Char) (s : List Char) : List Char :=
  s.map (fun c => if c = old then '_' else c)

/-! ## `internal/parser` -/

/-- A handle on a `types.Type`. -/
abbrev GoType := Nat

/-- The functions of `go/types` used by the code. -/
structure TypeOracle where
  /-- `types.Identical` -/
  identical : GoType → GoType → Bool
  /-- `types.AssignableTo` -/
  assignableTo : GoType → GoType → Bool
  /-- `types.Implements(t, i)`, with `i` the interface underlying the second type -/
  implements : GoType → GoType → Bool
  /-- `types.NewPointer` -/
  newPointer : GoType → GoType
  /-- `parser.IsEmpty` -/
  isEmpty : GoType → Bool
  /-- `parser.TypeNamePrefixedByImportPath`, that is `types.TypeString(t, nil)` -/
  typeNamePrefixedByImportPath : GoType → String
  /-- `parser.QualifiedTypeName` -/
  qualifiedTypeName : GoType → String

/-- What a `types.Object` is: a function with its signature, or a type name
with the shape of its underlying type. -/
inductive ObjectKind where
  | func (params results : List GoType)
  | struct (fields : List (String × GoType))
  | iface (empty : Bool)
  | other
  deriving DecidableEq, Repr

/-- The type `parser.Object`: a `types.Object` and its doc comment, where
`comment = none` is the nil comment group and the list holds `comment.List`. -/
structure Object where
  name : String
  importPath : String
  exported : Bool
  typ : GoType
  kind : ObjectKind
  comment : Option (List String)
  deriving DecidableEq, Repr

/-- The type `parser.Func`. -/
structure Func where
  obj : Object
  deriving DecidableEq, Repr

/-- The type `parser.Iface`, with the address of the wrapper. -/
structure Iface where
  ptr : Nat
  obj : Object
  deriving DecidableEq, Repr

/-- The type `parser.Struct`. -/
structure Struct where
  obj : Object
  deriving DecidableEq, Repr

/-- The type `parser.ObjectCache`. -/
structure ObjectCache where
  objects : List Object
  deriving DecidableEq, Repr

def Object.hasComment (o : Object) (pat : String) : Bool :=
  match o.comment with
  | none => false
  | some list => list.any (fun text => matchLiteral pat text)

def Object.IsExcluded (o : Object) : Bool :=
  o.hasComment "provider:exclude"

def Object.IsMarkedAsBindable (o : Object) : Bool :=
  o.hasComment "provider:include"

/-- The pattern `provider:resolve *` matches exactly the texts that contain
`provider:resolve`. -/
def Object.IsResolve (o : Object) : Bool :=
  match o.comment with
  | none => false
  | some list => list.any (fun text => matchLiteral "provider:resolve" text)

def Object.FullPkg (o : Object) : String :=
  String.mk (replaceChar '-' (replaceChar '/' (replaceChar '.' o.importPath.data)))

def Object.FullImportPath (o : Object) : String :=
  o.FullPkg ++ " \"" ++ o.importPath ++ "\""

/-- The body of the loop of `ResolvedPkgAndFuncName` on a matching comment. -/
def resolvedOfComment (importPath text : String) : Except String (String × String) :=
  let path := trimSpace (trimLeading "// provider:resolve".data text.data)
  match splitChars ' ' path with
  | [p] => .ok (importPath, String.mk p)
  | [p, q] => .ok (String.mk p, String.mk q)
  | _ => .error ("resolver comment format must be " ++
      "\x60provider:resolve path/to/package FuncName\x60 or " ++
      "\x60provider:resolve FuncName\x60, but: " ++ text)

def Object.ResolvedPkgAndFuncName (o : Object) : Except String (String × String) :=
  match o.comment with
  | none => .ok ("", "")
  | some list =>
    match list.find? (fun text => matchLiteral "provider:resolve" text) with
    | some text => resolvedOfComment o.importPath text
    | none => .ok ("", "")

def Object.Func (o : Object) : Option Func :=
  match o.kind with
  | .func _ _ => some ⟨o⟩
  | _ => none

def Object.Struct (o : Object) : Option Struct :=
  match o.kind with
  | .struct _ => some ⟨o⟩
  | _ => none

def Func.Params (f : Func) : List GoType :=
  match f.obj.kind with
  | .func params _ => params
  | _ => []

def Func.Results (f : Func) : List GoType :=
  match f.obj.kind with
  | .func _ results => results
  | _ => []

def Func.MustBeResolved (f : Func) : Bool :=
  f.obj.hasComment "provider:must_resolve"

def Func.IsConstructor (f : Func) : Bool :=
  f.Results.length == 1 && f.Params.length > 0

def Func.ShouldTryToResolve (f : Func) : Bool :=
  f.obj.exported && !f.obj.IsExcluded && f.IsConstructor

def Func.IsBindable (f : Func) : Bool :=
  if f.Results.length != 1 then false
  else if f.Params.length != 0 then true
  else if f.obj.IsMarkedAsBindable then true
  else false

/-- The call `iface.Interface().Empty()`. -/
def Iface.Empty (i : Iface) : Bool :=
  match i.obj.kind with
  | .iface empty => empty
  | _ => false

/-- The fields of `s.Type()`, as pairs of `Name()` and `Type()`. -/
def Struct.Fields (s : Struct) : List (String × GoType) :=
  match s.obj.kind with
  | .struct fields => fields
  | _ => []

def ObjectCache.Get (c : ObjectCache) (pkg name : String) : Option Object :=
  c.objects.find? (fun obj => obj.name == name && obj.importPath == pkg)

def ObjectCache.Implementations (O : TypeOracle) (c : ObjectCache) (iface : Iface) :
    List GoType :=
  c.objects.filterMap (fun obj =>
    match obj.Struct with
    | none => none
    | some _ =>
      if O.implements obj.typ iface.obj.typ then some obj.typ
      else if O.implements (O.newPointer obj.typ) iface.obj.typ then
        some (O.newPointer obj.typ)
      else none)

/-- The loop of `Ifaces`: the wrapper allocated for the object at position
`base + k` of the cache has address `base + k`. -/
def ifacesFrom : Nat → List Object → List Iface
  | _, [] => []
  | base, obj :: rest =>
    match obj.kind with
    | .iface _ => ⟨base, obj⟩ :: ifacesFrom (base + 1) rest
    | _ => ifacesFrom (base + 1) rest

def ObjectCache.Ifaces (c : ObjectCache) : List Iface :=
  ifacesFrom 0 c.objects

def ObjectCache.Funcs (c : ObjectCache) : List Func :=
  c.objects.filterMap Object.Func

/-! ## `internal/resolver`: declarations -/

/-- The type `FieldDecl`. -/
structure FieldDecl where
  Name : String
  typ : GoType
  deriving DecidableEq, Repr

/-- The interface `Derivation`: a pointer to a `FieldDecl`, or a pointer to the
`PrivateFuncDecl` stored at position `idx` of `r.decls`. -/
inductive Derivation where
  | field (f : FieldDecl)
  | func (idx : Nat)
  deriving DecidableEq, Repr

/-- The type `PublicFuncDecl`. -/
structure PublicFuncDecl where
  fn : Func
  library : String
  params : List Derivation
  deriving DecidableEq, Repr

/-- The type `PrivateFuncDecl`. -/
structure PrivateFuncDecl where
  iface : Iface
  fn : Func
  params : List Derivation
  library : String
  deriving DecidableEq, Repr

/-- The interface `FuncDecl`, implemented by the two declaration types. -/
inductive FuncDecl where
  | pub (d : PublicFuncDecl)
  | priv (d : PrivateFuncDecl)
  deriving DecidableEq, Repr

def PrivateFuncDecl.ReturnType (i : PrivateFuncDecl) : GoType :=
  i.iface.obj.typ

def PrivateFuncDecl.FuncName (i : PrivateFuncDecl) : String :=
  i.iface.obj.FullPkg ++ "_" ++ i.iface.obj.name

def PrivateFuncDecl.Pkg (i : PrivateFuncDecl) : String :=
  i.iface.obj.importPath

def PrivateFuncDecl.Imports (i : PrivateFuncDecl) : List String :=
  [i.iface.obj.FullImportPath, i.fn.obj.FullImportPath]

def PrivateFuncDecl.FuncReturn (i : PrivateFuncDecl) : String :=
  if i.iface.obj.importPath = i.library then i.iface.obj.name
  else i.iface.obj.FullPkg ++ "." ++ i.iface.obj.name

/-- The text that one parameter adds to a function body.  `decls` is the store
in which the pointers of `Derivation.func` are looked up. -/
def paramText (O : TypeOracle) (decls : List PrivateFuncDecl) : Derivation → String
  | .field p =>
    "\t\t// " ++ O.typeNamePrefixedByImportPath p.typ ++ "\n" ++ "\t\tf." ++ p.Name ++ ",\n"
  | .func idx =>
    match decls[idx]? with
    | some p =>
      "\t\t// " ++ O.typeNamePrefixedByImportPath p.ReturnType ++ "\n" ++
        "\t\tf." ++ p.FuncName ++ "(),\n"
    | none => ""

/-- The common text of `PublicFuncDecl.FuncBody` and `PrivateFuncDecl.FuncBody`. -/
def funcBody (O : TypeOracle) (decls : List PrivateFuncDecl) (fn : Func) (library : String)
    (params : List Derivation) : String :=
  "\treturn " ++ (if fn.obj.importPath ≠ library then fn.obj.FullPkg ++ "." else "") ++
    fn.obj.name ++ "(\n" ++ String.join (params.map (paramText O decls)) ++ "\t)"

def PrivateFuncDecl.FuncBody (O : TypeOracle) (decls : List PrivateFuncDecl)
    (p : PrivateFuncDecl) : String :=
  funcBody O decls p.fn p.library p.params

def PublicFuncDecl.FuncName (p : PublicFuncDecl) : String :=
  "Resolve" ++ p.fn.obj.name

def PublicFuncDecl.Pkg (p : PublicFuncDecl) : String :=
  p.fn.obj.importPath

/-- The expression `p.fn.Results().At(0)` indexes a tuple that the callers have
checked to hold one result. -/
def PublicFuncDecl.FuncReturn (O : TypeOracle) (p : PublicFuncDecl) : String :=
  O.qualifiedTypeName (p.fn.Results.headD 0)

def PublicFuncDecl.Imports (p : PublicFuncDecl) : List String :=
  [p.fn.obj.FullImportPath]

def PublicFuncDecl.FuncBody (O : TypeOracle) (decls : List PrivateFuncDecl)
    (p : PublicFuncDecl) : String :=
  funcBody O decls p.fn p.library p.params

def FuncDecl.FuncName : FuncDecl → String
  | .pub d => d.FuncName
  | .priv d => d.FuncName

def FuncDecl.Pkg : FuncDecl → String
  | .pub d => d.Pkg
  | .priv d => d.Pkg

def FuncDecl.Imports : FuncDecl → List String
  | .pub d => d.Imports
  | .priv d => d.Imports

def FuncDecl.FuncReturn (O : TypeOracle) : FuncDecl → String
  | .pub d => d.FuncReturn O
  | .priv d => d.FuncReturn

def FuncDecl.FuncBody (O : TypeOracle) (decls : List PrivateFuncDecl) : FuncDecl → String
  | .pub d => d.FuncBody O decls
  | .priv d => d.FuncBody O decls

/-! ## `internal/resolver`: the resolver -/

/-- The type `Resolver`. -/
structure Resolver where
  provider : Struct
  fields : List FieldDecl
  decls : List PrivateFuncDecl
  bindings : List (Iface × Func)
  cache : ObjectCache
  library : String
  deriving DecidableEq, Repr

def NewResolver (provider : Struct) (cache : ObjectCache) (library : String) : Resolver :=
  { provider := provider
    fields := provider.Fields.map (fun f => ⟨f.1, f.2⟩)
    decls := []
    bindings := []
    cache := cache
    library := library }

def Resolver.AddFunc (w : Resolver) (fn : PrivateFuncDecl) : Resolver :=
  { w with decls := w.decls ++ [fn] }

/-- The first loop of `findDerivation`. -/
def findField (O : TypeOracle) (t : GoType) : List FieldDecl → Option FieldDecl
  | [] => none
  | f :: rest => if O.assignableTo f.typ t then some f else findField O t rest

/-- The second loop of `findDerivation`; `base` is the position of the head of
the list in `r.decls`. -/
def findDecl (O : TypeOracle) (t : GoType) : Nat → List PrivateFuncDecl → Option Nat
  | _, [] => none
  | base, fn :: rest =>
    if O.identical fn.ReturnType t then some base else findDecl O t (base + 1) rest

def Resolver.findDerivation (O : TypeOracle) (w : Resolver) (t : GoType) :
    Except String Derivation :=
  if O.isEmpty t then
    .error ("the type " ++ O.typeNamePrefixedByImportPath t ++ " is empty")
  else
    match findField O t w.fields with
    | some f => .ok (.field f)
    | none =>
      match findDecl O t 0 w.decls with
      | some idx => .ok (.func idx)
      | none => .error ("no derivations found for " ++ O.typeNamePrefixedByImportPath t)

/-- The loop of `findDerivationsForParams`: the errors and the derivations
collected over the parameters, each in parameter order. -/
def derivationsLoop (O : TypeOracle) (r : Resolver) :
    List GoType → List String × List Derivation
  | [] => ([], [])
  | t :: rest =>
    let acc := derivationsLoop O r rest
    match r.findDerivation O t with
    | .error err => (err :: acc.1, acc.2)
    | .ok f => (acc.1, f :: acc.2)

def Resolver.findDerivationsForParams (O : TypeOracle) (r : Resolver) (fn : Func) :
    Except String (List Derivation) :=
  let acc := derivationsLoop O r fn.Params
  if acc.1.length > 0 then
    .error ("unable to derive parameters for the function " ++ fn.obj.importPath ++ "." ++
      fn.obj.name ++ "\n" ++ String.join (acc.1.map (fun e => "\t" ++ e ++ "\n")))
  else .ok acc.2

/-- The state of one round of the derivation loop: the resolver, the map
`derived` and the counter `numDerived`. -/
structure DeriveState where
  r : Resolver
  derived : List (Iface × PrivateFuncDecl)
  numDerived : Nat
  deriving DecidableEq, Repr

/-- The body of the inner loop of `deriveConstructorsForEachInterfaces`. -/
def deriveBody (O : TypeOracle) (st : DeriveState) (b : Iface × Func) : DeriveState :=
  if st.derived.any (fun e => e.1 = b.1) then st
  else
    match st.r.findDerivationsForParams O b.2 with
    | .error _ => st
    | .ok params =>
      let decl : PrivateFuncDecl :=
        { library := st.r.library, fn := b.2, iface := b.1, params := params }
      { r := st.r.AddFunc decl
        derived := st.derived ++ [(b.1, decl)]
        numDerived := st.numDerived + 1 }

/-- One round: the inner loop over the bindings, visited in the order `visit`. -/
def deriveRound (O : TypeOracle) (r : Resolver) (derived : List (Iface × PrivateFuncDecl))
    (visit : List (Iface × Func)) : DeriveState :=
  visit.foldl (deriveBody O) { r := r, derived := derived, numDerived := 0 }

/-- The outer loop of `deriveConstructorsForEachInterfaces`, from round `loop`
on.  `fuel` bounds the recursion; the entry point gives enough of it for the
guard `loop > 1000` to be reached first. -/
def deriveLoop (O : TypeOracle) (order : Nat → List (Iface × Func)) :
    Nat → Nat → Resolver → List (Iface × PrivateFuncDecl) → Option Resolver
  | 0, _, _, _ => none
  | fuel + 1, loop, r, derived =>
    if loop > 1000 then none
    else
      let st := deriveRound O r derived (order loop)
      if st.numDerived = 0 then some st.r
      else deriveLoop O order fuel (loop + 1) st.r st.derived

def Resolver.deriveConstructorsForEachInterfaces (O : TypeOracle)
    (order : Nat → List (Iface × Func)) (r : Resolver) : Option Resolver :=
  deriveLoop O order 1002 0 r []

/-- The assignment `m[k] = v` on a map. -/
def mapInsert {α β : Type} [DecidableEq α] (k : α) (v : β) : List (α × β) → List (α × β)
  | [] => [(k, v)]
  | e :: rest => if e.1 = k then (k, v) :: rest else e :: mapInsert k v rest

/-- The lookup `m[k]` on a map. -/
def mapGet {α β : Type} [DecidableEq α] (k : α) : List (α × β) → Option β
  | [] => none
  | e :: rest => if e.1 = k then some e.2 else mapGet k rest

/-- The lines appended to an ambiguity message, numbered from `i`, as written
by the format `"\t%d: %s\n"`. -/
def candidateLines : Nat → List String → List String
  | _, [] => []
  | i, s :: rest => ("\t" ++ toString i ++ ": " ++ s ++ "\n") :: candidateLines (i + 1) rest

def implementationHeader (iface : Iface) : String :=
  "Unable to determine an implementation for " ++ iface.obj.importPath ++ "." ++
    iface.obj.name ++ ": " ++ "more than one parser implement this interface.\n" ++
    "Use // provider:resolve to specify which constructor should be used, " ++
    "or // provider:exclude if you want to ignore certain constructors for this type.\n\n" ++
    "Possible implementations for this interface are:\n"

def constructorHeader (O : TypeOracle) (iface : Iface) (t : GoType) : String :=
  "Unable to determine constructors for " ++ iface.obj.importPath ++ "." ++
    iface.obj.name ++ " (which is resolved to " ++ O.qualifiedTypeName t ++ "): " ++
    "More than one constructors are found for this interface\n" ++
    "Use // provider:resolve to specify which constructor should be used, " ++
    "or // provider:exclude if you want to ignore certain constructors for this type.\n\n" ++
    "Possible constructors for this interface are:\n"

/-- The functions collected in `fns` for the implementing type `t`.  The
index `At(0)` is guarded by `IsBindable`. -/
def Resolver.bindableFuncs (O : TypeOracle) (r : Resolver) (t : GoType) : List Func :=
  r.cache.Funcs.filter (fun fn =>
    fn.IsBindable && !O.isEmpty t && O.identical (fn.Results.headD 0) t)

/-- How the body of the loop of `setupBindings` ends for one interface: by a
`continue` that records nothing, by an assignment to `r.bindings`, or by an
error appended to `errs`. -/
inductive BindOutcome where
  | skip
  | bind (fn : Func)
  | fail (err : String)
  deriving DecidableEq, Repr

/-- The branch of `setupBindings` for an interface with `provider:resolve`. -/
def Resolver.bindResolve (r : Resolver) (iface : Iface) : BindOutcome :=
  match iface.obj.ResolvedPkgAndFuncName with
  | .error err => .fail err
  | .ok (pkg, name) =>
    match r.cache.Get pkg name with
    | none => .fail (iface.obj.name ++ " does not found " ++ pkg ++ "." ++ name)
    | some obj =>
      match obj.Func with
      | none => .fail (pkg ++ "." ++ name ++ " is not a function: " ++ iface.obj.name)
      | some fn => .bind fn

/-- The branch of `setupBindings` for an interface without `provider:resolve`. -/
def Resolver.bindAuto (O : TypeOracle) (r : Resolver) (iface : Iface) : BindOutcome :=
  match r.cache.Implementations O iface with
  | [] => .skip
  | [t] =>
    match r.bindableFuncs O t with
    | [] => .skip
    | [fn] => .bind fn
    | fns => .fail (constructorHeader O iface t ++
        String.join (candidateLines 0 (fns.map (fun fn => O.qualifiedTypeName fn.obj.typ))))
  | typs => .fail (implementationHeader iface ++
      String.join (candidateLines 0 (typs.map O.qualifiedTypeName)))

def Resolver.bindIface (O : TypeOracle) (r : Resolver) (iface : Iface) : BindOutcome :=
  if iface.obj.IsExcluded then .skip
  else if iface.Empty then .skip
  else if !iface.obj.exported then .skip
  else if iface.obj.IsResolve then r.bindResolve iface
  else r.bindAuto O iface

/-- The body of the loop of `setupBindings`, on the pair of `r.bindings` and `errs`. -/
def Resolver.setupBody (O : TypeOracle) (r : Resolver)
    (st : List (Iface × Func) × List String) (iface : Iface) :
    List (Iface × Func) × List String :=
  match r.bindIface O iface with
  | .skip => st
  | .bind fn => (mapInsert iface fn st.1, st.2)
  | .fail err => (st.1, st.2 ++ [err])

/-- The method `setupBindings`: the resolver with its new `bindings`, and the
returned slice, `none` being `nil`. -/
def Resolver.setupBindings (O : TypeOracle) (r : Resolver) :
    Resolver × Option (List String) :=
  let st := r.cache.Ifaces.foldl (r.setupBody O) ([], [])
  ({ r with bindings := st.1 }, if st.2.length = 0 then none else some st.2)

/-- How the body of the loop of `resolveEachConstructorsPresumingDerivationIsDone`
ends for one function: by a `continue` that records nothing, by a declaration
appended to `resolved`, or by an error appended to `errs`. -/
inductive ResolveOutcome where
  | skip
  | decl (d : PublicFuncDecl)
  | fail (err : String)
  deriving DecidableEq, Repr

def Resolver.resolveFunc (O : TypeOracle) (r : Resolver) (fn : Func) : ResolveOutcome :=
  if fn.obj.importPath = r.library then .skip
  else if !fn.ShouldTryToResolve then .skip
  else
    match r.findDerivationsForParams O fn with
    | .error err =>
      if fn.MustBeResolved then
        .fail ("unable to resolve " ++ fn.obj.importPath ++ "." ++ fn.obj.name ++
          ", which is marked as \x60must_resolve\x60: " ++ err)
      else .skip
    | .ok params => .decl { fn := fn, library := r.library, params := params }

/-- The body of the loop of `resolveEachConstructorsPresumingDerivationIsDone`,
on the pair of `resolved` and `errs`. -/
def Resolver.resolveBody (O : TypeOracle) (r : Resolver)
    (st : List PublicFuncDecl × List String) (fn : Func) :
    List PublicFuncDecl × List String :=
  match r.resolveFunc O fn with
  | .skip => st
  | .decl d => (st.1 ++ [d], st.2)
  | .fail err => (st.1, st.2 ++ [err])

def Resolver.resolveEachConstructorsPresumingDerivationIsDone (O : TypeOracle)
    (r : Resolver) : Option (List PublicFuncDecl) × Option (List String) :=
  let st := r.cache.Funcs.foldl (r.resolveBody O) ([], [])
  if st.2.length > 0 then (none, some st.2) else (some st.1, none)

/-- The length of a slice that may be `nil`. -/
def sliceLen {α : Type} : Option (List α) → Nat
  | none => 0
  | some l => l.length

/-- The elements of a slice that may be `nil`. -/
def sliceElems {α : Type} : Option (List α) → List α
  | none => []
  | some l => l

/-- The method `Resolver.Resolve`: the resolver after the call and the two
returned slices; `none` when the derivation loop panics. -/
def Resolver.Resolve (O : TypeOracle) (order : Nat → List (Iface × Func)) (r : Resolver) :
    Option (Resolver × Option (List FuncDecl) × Option (List String)) :=
  let s := r.setupBindings O
  if sliceLen s.2 > 0 then some (s.1, none, s.2)
  else
    match s.1.deriveConstructorsForEachInterfaces O order with
    | none => none
    | some r2 =>
      let resolved := r2.decls.map FuncDecl.priv
      let p := r2.resolveEachConstructorsPresumingDerivationIsDone O
      if sliceLen p.2 > 0 then some (r2, none, p.2)
      else some (r2, some (resolved ++ (sliceElems p.1).map FuncDecl.pub), none)

/-- The error that an interface adds to the slice returned by `setupBindings`. -/
def BindOutcome.error? : BindOutcome → Option String
  | .fail err => some err
  | _ => none

/-- The function that `setupBindings` assigns to an interface. -/
def BindOutcome.func? : BindOutcome → Option Func
  | .bind fn => some fn
  | _ => none

/-- The error that a function adds to the slice returned by
`resolveEachConstructorsPresumingDerivationIsDone`. -/
def ResolveOutcome.error? : ResolveOutcome → Option String
  | .fail err => some err
  | _ => none

/-- The declaration that a function adds to `resolved`. -/
def ResolveOutcome.decl? : ResolveOutcome → Option PublicFuncDecl
  | .decl d => some d
  | _ => none

/-- Whether `findDerivation` returns a derivation for the type `t`. -/
def Resolver.derivable (O : TypeOracle) (r : Resolver) (t : GoType) : Bool :=
  match r.findDerivation O t with
  | .ok _ => true
  | .error _ => false

/-- A function whose failure to resolve is an error: it is outside the library
package, is tried, is marked `must_resolve`, and has a parameter without
derivation. -/
def Resolver.unresolvedRequired (O : TypeOracle) (r : Resolver) (fn : Func) : Bool :=
  decide (fn.obj.importPath ≠ r.library) && fn.ShouldTryToResolve && fn.MustBeResolved &&
    fn.Params.any (fun t => !r.derivable O t)

/-- A function that gets a public declaration: it is exported, not excluded,
has a parameter and a single result, is outside the library package, and
each of its parameters has a derivation. -/
def Resolver.publiclyResolved (O : TypeOracle) (r : Resolver) (fn : Func) : Bool :=
  fn.obj.exported && !fn.obj.IsExcluded && decide (0 < fn.Params.length) &&
    decide (fn.Results.length = 1) && decide (fn.obj.importPath ≠ r.library) &&
    fn.Params.all (fun t => r.derivable O t)

/-! ## `internal/resolver`: the assembly of `Data` -/

/-- The type `FuncData`. -/
structure FuncData where
  ImportPaths : List String
  Pkg : String
  Receiver : String
  FuncName : String
  FuncReturn : String
  FuncImpl : String
  deriving DecidableEq, Repr

/-- The type `Data`. -/
structure Data where
  PublicDecls : List (String × List FuncData)
  PrivateDecls : List (String × List FuncData)
  Imports : List String
  Package : String
  deriving DecidableEq, Repr

def loadProviderImpl (cache : ObjectCache) (library name : String) : Except String Struct :=
  match cache.Get library name with
  | none => .error (library ++ "." ++ name ++ " does not exist.")
  | some obj =>
    match obj.Struct with
    | none => .error (library ++ "." ++ name ++ " is not struct type")
    | some impl => .ok impl

/-- The statement `m[k] = append(m[k], d)`, the key being created when absent. -/
def groupAppend (k : String) (d : FuncData) :
    List (String × List FuncData) → List (String × List FuncData)
  | [] => [(k, [d])]
  | e :: rest => if e.1 = k then (e.1, e.2 ++ [d]) :: rest else e :: groupAppend k d rest

def mkFuncData (O : TypeOracle) (store : List PrivateFuncDecl) (target : String)
    (decl : FuncDecl) : FuncData :=
  { ImportPaths := decl.Imports
    Pkg := decl.Pkg
    Receiver := "f *" ++ target
    FuncName := decl.FuncName
    FuncReturn := decl.FuncReturn O
    FuncImpl := decl.FuncBody O store }

/-- The body of the grouping loop of `Resolve`, on the pair of `privates` and
`publics`. -/
def groupBody (O : TypeOracle) (store : List PrivateFuncDecl) (target : String)
    (st : List (String × List FuncData) × List (String × List FuncData)) (decl : FuncDecl) :
    List (String × List FuncData) × List (String × List FuncData) :=
  match decl with
  | .pub _ => (st.1, groupAppend decl.Pkg (mkFuncData O store target decl) st.2)
  | .priv _ => (groupAppend decl.Pkg (mkFuncData O store target decl) st.1, st.2)

/-- Insertion of `a` in front of the first element that is not less than it. -/
def insertStable {α : Type} (less : α → α → Bool) (a : α) : List α → List α
  | [] => [a]
  | b :: l => if less b a then b :: insertStable less a l else a :: b :: l

/-- The call `sort.SliceStable`: the stable sort for `less`. -/
def sortStable {α : Type} (less : α → α → Bool) : List α → List α
  | [] => []
  | a :: l => insertStable less a (sortStable less l)

/-- The order `<` of Go on strings, which compares them byte by byte; on
UTF-8 texts this is the lexicographic order of the code points. -/
def lessChars : List Char → List Char → Bool
  | [], [] => false
  | [], _ :: _ => true
  | _ :: _, [] => false
  | a :: x, b :: y => decide (a.toNat < b.toNat) || (decide (a = b) && lessChars x y)

def stringLess (x y : String) : Bool :=
  lessChars x.data y.data

def sortGroups (m : List (String × List FuncData)) : List (String × List FuncData) :=
  m.map (fun e => (e.1, sortStable (fun x y => stringLess x.FuncName y.FuncName) e.2))

/-- The keys of `importMap`, each once.  Go visits them in no fixed order; they
are sorted right after. -/
def importKeys (decls : List FuncDecl) : List String :=
  ((decls.map FuncDecl.Imports).flatten.filter (fun path => path ≠ "")).dedup

/-- The function `Resolve`.  The three components are the returned `*Data`,
`error` and `[]error`; the result is `none` when the run panics. -/
def Resolve (O : TypeOracle) (order : Nat → List (Iface × Func)) (cache : ObjectCache)
    (target library : String) : Option (Option Data × Option String × Option (List String)) :=
  match loadProviderImpl cache library target with
  | .error err => some (none, some err, none)
  | .ok providerImpl =>
    match (NewResolver providerImpl cache library).Resolve O order with
    | none => none
    | some (_, _, some errs) => some (none, none, some errs)
    | some (resolver, decls, none) =>
      let st := (sliceElems decls).foldl (groupBody O resolver.decls target) ([], [])
      let imports := sortStable stringLess (importKeys (sliceElems decls))
      match (splitChars '/' library.data).getLast? with
      | none => none
      | some last =>
        some (some { Package := String.mk last
                     Imports := imports
                     PrivateDecls := sortGroups st.1
                     PublicDecls := sortGroups st.2 }, none, none)

/-! ## A small catalogue

The package `app/repo` declares the interface `A`, the alias `B` of `A` (so
both objects have the one type `1`), the struct `S` that implements it and the
constructor `NewS(cfg Config) S`; the package `app/svc` declares the
constructor `NewService(a A) Service`; the target struct `Container` of the
package `app/container` has the single field `cfg Config`. -/

def demoOracle : TypeOracle :=
  { identical := fun a b => a == b
    assignableTo := fun a b => a == b
    implements := fun t i => t == 3 && i == 1
    newPointer := fun t => t + 100
    isEmpty := fun _ => false
    typeNamePrefixedByImportPath := fun t => if t = 1 then "app/repo.A" else "T"
    qualifiedTypeName := fun t => if t = 1 then "app_repo.A" else "T" }

def demoContainer : Object :=
  ⟨"Container", "app/container", true, 40, .struct [("cfg", 10)], none⟩

def demoA : Object := ⟨"A", "app/repo", true, 1, .iface false, none⟩

def demoB : Object := ⟨"B", "app/repo", true, 1, .iface false, none⟩

def demoS : Object := ⟨"S", "app/repo", true, 3, .struct [], none⟩

def demoNewS : Object := ⟨"NewS", "app/repo", true, 20, .func [10] [3], none⟩

def demoNewService : Object := ⟨"NewService", "app/svc", true, 21, .func [1] [30], none⟩

def demoCache : ObjectCache :=
  ⟨[demoContainer, demoA, demoB, demoS, demoNewS, demoNewService]⟩

/-- The resolver of the small catalogue once its bindings are set up: `A` and
`B` are both bound to `NewS`. -/
def demoResolver : Resolver :=
  ((NewResolver ⟨demoContainer⟩ demoCache "app/container").setupBindings demoOracle).1

/-- The visiting order that takes the bindings as they were inserted. -/
def demoOrder : Nat → List (Iface × Func) :=
  fun _ => [(⟨1, demoA⟩, ⟨demoNewS⟩), (⟨2, demoB⟩, ⟨demoNewS⟩)]

/-- The visiting order that takes the bindings the other way round. -/
def demoOrderRev : Nat → List (Iface × Func) :=
  fun _ => [(⟨2, demoB⟩, ⟨demoNewS⟩), (⟨1, demoA⟩, ⟨demoNewS⟩)]

/-- The resolver of the small catalogue after the derivation loop. -/
def demoDerived : Resolver :=
  { demoResolver with
    decls := [⟨⟨1, demoA⟩, ⟨demoNewS⟩, [.field ⟨"cfg", 10⟩], "app/container"⟩,
              ⟨⟨2, demoB⟩, ⟨demoNewS⟩, [.field ⟨"cfg", 10⟩], "app/container"⟩] }

/-! ## A chain of two bindings

The interface `Y` is bound to `NewY(x X) ImplY` and the interface `X` to
`NewX(cfg Config) ImplX`; the only field is `cfg Config`.  The binding of `Y`
comes first in the map, so `Y` is derived one round after `X`. -/

def chainX : Object := ⟨"X", "app/repo", true, 1, .iface false, none⟩

def chainY : Object := ⟨"Y", "app/repo", true, 2, .iface false, none⟩

def chainNewX : Object := ⟨"NewX", "app/repo", true, 21, .func [10] [3], none⟩

def chainNewY : Object := ⟨"NewY", "app/repo", true, 22, .func [1] [4], none⟩

def chainResolver : Resolver :=
  { provider := ⟨demoContainer⟩
    fields := [⟨"cfg", 10⟩]
    decls := []
    bindings := [(⟨1, chainY⟩, ⟨chainNewY⟩), (⟨0, chainX⟩, ⟨chainNewX⟩)]
    cache := ⟨[chainX, chainY, chainNewX, chainNewY]⟩
    library := "app/container" }

/-- The resolver of the chain after the derivation loop. -/
def chainDerived : Resolver :=
  { chainResolver with
    decls := [⟨⟨0, chainX⟩, ⟨chainNewX⟩, [.field ⟨"cfg", 10⟩], "app/container"⟩,
              ⟨⟨1, chainY⟩, ⟨chainNewY⟩, [.func 0], "app/container"⟩] }

/-! ## Catalogues for the binding rules -/

/-- An oracle for which the struct types `3` and `5` both implement the
interface type `1`. -/
def ambOracle : TypeOracle :=
  { demoOracle with implements := fun t i => (t == 3 || t == 5) && i == 1 }

def ambS2 : Object := ⟨"S2", "app/repo", true, 5, .struct [], none⟩

/-- The interface `A` with the two implementations `S` and `S2`. -/
def ambCache : ObjectCache := ⟨[demoA, demoS, ambS2, demoNewS]⟩

def ambResolver : Resolver :=
  { provider := ⟨demoContainer⟩, fields := [], decls := [], bindings := [],
    cache := ambCache, library := "app/container" }

/-- The interface `A` annotated to be resolved by the function `NewS`. -/
def overrideA : Object :=
  ⟨"A", "app/repo", true, 1, .iface false, some ["// provider:resolve NewS"]⟩

def overrideCache : ObjectCache := ⟨[overrideA, demoS, ambS2, demoNewS]⟩

def overrideResolver : Resolver :=
  { provider := ⟨demoContainer⟩, fields := [], decls := [], bindings := [],
    cache := overrideCache, library := "app/container" }

/-- An excluded interface that also carries a resolve comment with three tokens. -/
def excludedA : Object :=
  ⟨"A", "app/repo", true, 1, .iface false,
    some ["// provider:exclude", "// provider:resolve a b c"]⟩

def excludedCache : ObjectCache := ⟨[excludedA, demoS, ambS2, demoNewS]⟩

def excludedResolver : Resolver :=
  { provider := ⟨demoContainer⟩, fields := [], decls := [], bindings := [],
    cache := excludedCache, library := "app/container" }

/-- The `Data` of the small catalogue when `A` is visited before `B`. -/
def demoData : Data :=
  { PublicDecls :=
      [("app/repo",
          [{ ImportPaths := ["app_repo \"app/repo\""], Pkg := "app/repo",
             Receiver := "f *Container", FuncName := "ResolveNewS", FuncReturn := "T",
             FuncImpl := "\treturn app_repo.NewS(\n\t\t// T\n\t\tf.cfg,\n\t)" }]),
       ("app/svc",
          [{ ImportPaths := ["app_svc \"app/svc\""], Pkg := "app/svc",
             Receiver := "f *Container", FuncName := "ResolveNewService", FuncReturn := "T",
             FuncImpl :=
               "\treturn app_svc.NewService(\n\t\t// app/repo.A\n\t\tf.app_repo_A(),\n\t)" }])]
    PrivateDecls :=
      [("app/repo",
          [{ ImportPaths := ["app_repo \"app/repo\"", "app_repo \"app/repo\""],
             Pkg := "app/repo", Receiver := "f *Container", FuncName := "app_repo_A",
             FuncReturn := "app_repo.A",
             FuncImpl := "\treturn app_repo.NewS(\n\t\t// T\n\t\tf.cfg,\n\t)" },
           { ImportPaths := ["app_repo \"app/repo\"", "app_repo \"app/repo\""],
             Pkg := "app/repo", Receiver := "f *Container", FuncName := "app_repo_B",
             FuncReturn := "app_repo.B",
             FuncImpl := "\treturn app_repo.NewS(\n\t\t// T\n\t\tf.cfg,\n\t)" }])]
    Imports := ["app_repo \"app/repo\"", "app_svc \"app/svc\""]
    Package := "container" }

/-- The `Data` of the small catalogue when `B` is visited before `A`: the body
of `ResolveNewService` calls the declaration of `B` instead of that of `A`. -/
def demoDataRev : Data :=
  { demoData with
    PublicDecls :=
      [("app/repo",
          [{ ImportPaths := ["app_repo \"app/repo\""], Pkg := "app/repo",
             Receiver := "f *Container", FuncName := "ResolveNewS", FuncReturn := "T",
             FuncImpl := "\treturn app_repo.NewS(\n\t\t// T\n\t\tf.cfg,\n\t)" }]),
       ("app/svc",
          [{ ImportPaths := ["app_svc \"app/svc\""], Pkg := "app/svc",
             Receiver := "f *Container", FuncName := "ResolveNewService", FuncReturn := "T",
             FuncImpl :=
               "\treturn app_svc.NewService(\n\t\t// app/repo.A\n\t\tf.app_repo_B(),\n\t)" }])] }

/-- The function `NewService` marked `must_resolve`, in a catalogue without
the constructor that would let its parameter be derived. -/
def requiredNewService : Object :=
  ⟨"NewService", "app/svc", true, 21, .func [1] [30], some ["// provider:must_resolve"]⟩

def requiredResolver : Resolver :=
  { provider := ⟨demoContainer⟩, fields := [⟨"cfg", 10⟩], decls := [], bindings := [],
    cache := ⟨[demoContainer, demoA, requiredNewService]⟩, library := "app/container" }

/-! ## Catalogues for the candidate constructors -/

/-- A second constructor `AltNewS(cfg Config) S`. -/
def altNewS : Object := ⟨"AltNewS", "app/repo", true, 23, .func [10] [3], none⟩

/-- The same constructor, annotated `provider:exclude`. -/
def excludedNewS : Object :=
  ⟨"AltNewS", "app/repo", true, 23, .func [10] [3], some ["// provider:exclude"]⟩

/-- The constructor `MakeS() S`, without parameter and without comment. -/
def zeroNewS : Object := ⟨"MakeS", "app/repo", true, 24, .func [] [3], none⟩

/-- The constructor `MakeS() S`, annotated `provider:include`. -/
def includedNewS : Object :=
  ⟨"MakeS", "app/repo", true, 24, .func [] [3], some ["// provider:include"]⟩

/-- The function `NewPair(cfg Config) (S, error)`, with two results. -/
def pairNewS : Object := ⟨"NewPair", "app/repo", true, 25, .func [10] [3, 99], none⟩

/-- The interface `A` annotated to be resolved by `NewPair`. -/
def pairA : Object :=
  ⟨"A", "app/repo", true, 1, .iface false, some ["// provider:resolve NewPair"]⟩

def catalogueResolver (objects : List Object) : Resolver :=
  { provider := ⟨demoContainer⟩, fields := [⟨"cfg", 10⟩], decls := [], bindings := [],
    cache := ⟨objects⟩, library := "app/container" }

/-! ## The derivation loop without its guard -/

/-- The outer loop of `deriveConstructorsForEachInterfaces` with the guard
`loop > 1000` left out, from round `loop` on: the resolver at the first round
that derives nothing, and the number of rounds entered up to it.  The result
is `none` when `fuel` rounds did not reach such a round. -/
def deriveLoopFree (O : TypeOracle) (order : Nat → List (Iface × Func)) :
    Nat → Nat → Resolver → List (Iface × PrivateFuncDecl) → Option (Resolver × Nat)
  | 0, _, _, _ => none
  | fuel + 1, loop, r, derived =>
    let st := deriveRound O r derived (order loop)
    if st.numDerived = 0 then some (st.r, loop + 1)
    else deriveLoopFree O order fuel (loop + 1) st.r st.derived

/-! ## A long chain of bindings

Interface `i` has the type `i + 1` and is bound to a function whose single
parameter has the type `i`; the only field has the type `0`.  So interface `i`
can be derived once interface `i - 1` is.  The bindings are listed from the
last interface to the first. -/

def longIface (i : Nat) : Iface :=
  ⟨i, ⟨"I" ++ toString i, "app/repo", true, i + 1, .iface false, none⟩⟩

def longFunc (i : Nat) : Func :=
  ⟨⟨"New" ++ toString i, "app/repo", true, 0, .func [i] [0], none⟩⟩

def longBindings : Nat → List (Iface × Func)
  | 0 => []
  | n + 1 => (longIface n, longFunc n) :: longBindings n

def longResolver (n : Nat) : Resolver :=
  { provider := ⟨demoContainer⟩, fields := [⟨"cfg", 0⟩], decls := [],
    bindings := longBindings n, cache := ⟨[]⟩, library := "app/container" }

/-- The derivation of the parameter of the function bound to interface `i`. -/
def longDerivation : Nat → Derivation
  | 0 => .field ⟨"cfg", 0⟩
  | i + 1 => .func i

def longDecl (i : Nat) : PrivateFuncDecl :=
  ⟨longIface i, longFunc i, [longDerivation i], "app/container"⟩

/-- The declarations of the interfaces `0` to `k - 1`, in this order. -/
def longDecls : Nat → List PrivateFuncDecl
  | 0 => []
  | k + 1 => longDecls k ++ [longDecl k]

/-- The map `derived` once the interfaces `0` to `k - 1` are derived. -/
def longDerived : Nat → List (Iface × PrivateFuncDecl)
  | 0 => []
  | k + 1 => longDerived k ++ [(longIface k, longDecl k)]

/-- The resolver of the chain of length `n` once the interfaces `0` to `k - 1`
are derived. -/
def longState (n k : Nat) : Resolver :=
  { longResolver n with decls := longDecls k }

/-! ## Predicates used to state the claims on the output -/

/-- The case `*PublicFuncDecl` of the type switch of `Resolve`. -/
def FuncDecl.isPublic : FuncDecl → Bool
  | .pub _ => true
  | .priv _ => false

/-- The groups of a map of `Data` are well formed: the keys are pairwise
distinct, no group is empty, and every `FuncData` has the key of its group as
`Pkg`. -/
def GroupsOk (m : List (String × List FuncData)) : Prop :=
  (m.map (fun g => g.1)).Nodup ∧ ∀ g ∈ m, g.2 ≠ [] ∧ ∀ x ∈ g.2, x.Pkg = g.1

/-! ## Interfaces with a resolve comment -/

/-- The interface `A` with two spaces between the two tokens of its comment. -/
def spacedA : Object :=
  ⟨"A", "app/repo", true, 1, .iface false, some ["// provider:resolve app/repo  NewS"]⟩

/-- The interface `A` with no space between the comment marker and the directive. -/
def tightA : Object :=
  ⟨"A", "app/repo", true, 1, .iface false, some ["//provider:resolve NewS"]⟩

/-- The interface `A` with nothing after the directive. -/
def bareA : Object :=
  ⟨"A", "app/repo", true, 1, .iface false, some ["// provider:resolve"]⟩

/-- The interface `A` with the package and the function of its comment. -/
def qualifiedA : Object :=
  ⟨"A", "app/repo", true, 1, .iface false, some ["// provider:resolve  app/repo NewS "]⟩

/-! ## Closure of a set of interfaces under derivation -/

/-- A set of interfaces is closed under derivation as the resolver performs it:
it holds the interface of every binding whose constructor has only parameters
of a type that is not the empty interface and that a field is assignable to or
that is identical to the type of an interface of the set. -/
def ClosedUnderDerivation (O : TypeOracle) (fields : List FieldDecl)
    (bindings : List (Iface × Func)) (S : Iface → Prop) : Prop :=
  ∀ b ∈ bindings,
    (∀ t ∈ b.2.Params, O.isEmpty t = false ∧
      ((∃ f ∈ fields, O.assignableTo f.typ t = true) ∨
        ∃ j, S j ∧ O.identical j.obj.typ t = true)) → S b.1

/-- The closure rule without the test on the empty interface: every parameter
is assignable from a field or identical to the type of an interface of the set. -/
def ClosedUnderAssignability (O : TypeOracle) (fields : List FieldDecl)
    (bindings : List (Iface × Func)) (S : Iface → Prop) : Prop :=
  ∀ b ∈ bindings,
    (∀ t ∈ b.2.Params, (∃ f ∈ fields, O.assignableTo f.typ t = true) ∨
        ∃ j, S j ∧ O.identical j.obj.typ t = true) → S b.1

/-- The interfaces that have a declaration. -/
def Resolver.derivedIfaces (r : Resolver) (i : Iface) : Prop :=
  ∃ d ∈ r.decls, d.iface = i

/-- An oracle in which the type 50 is the empty interface: every type is
assignable to it. -/
def anyOracle : TypeOracle :=
  { demoOracle with
    assignableTo := fun a b => a == b || b == 50
    isEmpty := fun t => t == 50 }

/-- A constructor of the implementation of `A` that takes an `any`. -/
def anyNewS : Object :=
  ⟨"NewS", "app/repo", true, 4, .func [50] [3], none⟩

/-- The interface `A` bound to the constructor taking an `any`. -/
def anyResolver : Resolver :=
  { provider := ⟨demoContainer⟩
    fields := [⟨"cfg", 10⟩]
    decls := []
    bindings := [(⟨0, demoA⟩, ⟨anyNewS⟩)]
    cache := ⟨[demoA, anyNewS]⟩
    library := "app/container" }

/-! ## Two constructors of the same name

The packages `app/svc` and `app/other` each declare a constructor `NewClient`
that takes the configuration held by the target struct. -/

def svcNewClient : Object := ⟨"NewClient", "app/svc", true, 26, .func [10] [30], none⟩

def otherNewClient : Object := ⟨"NewClient", "app/other", true, 27, .func [10] [31], none⟩

def sameNameCache : ObjectCache := ⟨[demoContainer, svcNewClient, otherNewClient]⟩

/-- The key of an object in the catalogue: its import path and its name. -/
def Object.key (o : Object) : String × String :=
  (o.importPath, o.name)

/-! ## Invariants of the derivation loop -/

/-- Where a derivation held by the declaration at position `k` of `decls` comes
from, for a parameter of type `t`: a field of the resolver assignable to `t`,
or the declaration at an earlier position whose return type is identical to `t`. -/
def DerivationFrom (O : TypeOracle) (fields : List FieldDecl) (decls : List PrivateFuncDecl)
    (k : Nat) (t : GoType) (p : Derivation) : Prop :=
  (∃ f, p = .field f ∧ f ∈ fields ∧ O.assignableTo f.typ t = true) ∨
  (∃ j g, p = .func j ∧ j < k ∧ decls[j]? = some g ∧ O.identical g.ReturnType t = true)

/-- The invariant of `deriveConstructorsForEachInterfaces` called on the
resolver `r0` with no declaration yet: what holds of the resolver `r` and of
the map `derived` between two iterations of the inner loop. -/
structure DeriveInv (O : TypeOracle) (r0 r : Resolver)
    (derived : List (Iface × PrivateFuncDecl)) : Prop where
  fields_eq : r.fields = r0.fields
  bindings_eq : r.bindings = r0.bindings
  cache_eq : r.cache = r0.cache
  library_eq : r.library = r0.library
  provider_eq : r.provider = r0.provider
  keys : r.decls.map (fun d => d.iface) = derived.map (fun e => e.1)
  nodup : (derived.map (fun e => e.1)).Nodup
  bound : ∀ d ∈ r.decls, (d.iface, d.fn) ∈ r0.bindings ∧ d.library = r0.library
  params : ∀ (k : Nat) (d : PrivateFuncDecl), r.decls[k]? = some d →
    List.Forall₂ (DerivationFrom O r.fields r.decls k) d.fn.Params d.params

/-! ## Lemmas: the derivation lookup -/

theorem findField_eq_none (O : TypeOracle) (t : GoType) (l : List FieldDecl) :
    findField O t l = none ↔ ∀ f ∈ l, O.assignableTo f.typ t = false := by
  induction l with
  | nil => simp [findField]
  | cons a l ih =>
    by_cases h : O.assignableTo a.typ t = true
    · simp [findField, h]
    · simp [findField, h, ih]

theorem findField_eq_some (O : TypeOracle) (t : GoType) (l : List FieldDecl) (f : FieldDecl) :
    findField O t l = some f ↔
      ∃ i : Nat, l[i]? = some f ∧ O.assignableTo f.typ t = true ∧
        ∀ j : Nat, j < i → ∀ g : FieldDecl, l[j]? = some g → O.assignableTo g.typ t = false := by
  induction l with
  | nil => simp [findField]
  | cons a l ih =>
    by_cases h : O.assignableTo a.typ t = true
    · have hdef : findField O t (a :: l) = some a := by simp [findField, h]
      rw [hdef]
      constructor
      · intro haf
        have haf : a = f := by simpa using haf
        subst haf
        exact ⟨0, by simp, h, fun j hj => absurd hj (Nat.not_lt_zero j)⟩
      · rintro ⟨i, hi, _, hfirst⟩
        cases i with
        | zero =>
          have : a = f := by simpa using hi
          rw [this]
        | succ i =>
          have := hfirst 0 (Nat.succ_pos i) a (by simp)
          rw [h] at this
          exact absurd this (by decide)
    · have h0 : O.assignableTo a.typ t = false := by simpa using h
      have hdef : findField O t (a :: l) = findField O t l := by simp [findField, h0]
      rw [hdef, ih]
      constructor
      · rintro ⟨i, hi, hf, hfirst⟩
        refine ⟨i + 1, by simpa using hi, hf, ?_⟩
        intro j hj g hg
        cases j with
        | zero =>
          have : a = g := by simpa using hg
          rw [← this]; exact h0
        | succ j => exact hfirst j (Nat.lt_of_succ_lt_succ hj) g (by simpa using hg)
      · rintro ⟨i, hi, hf, hfirst⟩
        cases i with
        | zero =>
          have : a = f := by simpa using hi
          rw [this] at h0
          rw [h0] at hf
          exact absurd hf (by decide)
        | succ i =>
          refine ⟨i, by simpa using hi, hf, ?_⟩
          intro j hj g hg
          exact hfirst (j + 1) (Nat.succ_lt_succ hj) g (by simpa using hg)

theorem findDecl_eq_none (O : TypeOracle) (t : GoType) (base : Nat) (l : List PrivateFuncDecl) :
    findDecl O t base l = none ↔ ∀ d ∈ l, O.identical d.ReturnType t = false := by
  induction l generalizing base with
  | nil => simp [findDecl]
  | cons a l ih =>
    by_cases h : O.identical a.ReturnType t = true
    · simp [findDecl, h]
    · simp [findDecl, h, ih]

theorem findDecl_eq_some (O : TypeOracle) (t : GoType) (base : Nat) (l : List PrivateFuncDecl)
    (idx : Nat) :
    findDecl O t base l = some idx ↔
      ∃ (k : Nat) (d : PrivateFuncDecl), idx = base + k ∧ l[k]? = some d ∧
        O.identical d.ReturnType t = true ∧
        ∀ j : Nat, j < k → ∀ g : PrivateFuncDecl, l[j]? = some g →
          O.identical g.ReturnType t = false := by
  induction l generalizing base with
  | nil => simp [findDecl]
  | cons a l ih =>
    by_cases h : O.identical a.ReturnType t = true
    · have hdef : findDecl O t base (a :: l) = some base := by simp [findDecl, h]
      rw [hdef]
      constructor
      · intro hb
        have hb : base = idx := by simpa using hb
        subst hb
        exact ⟨0, a, rfl, by simp, h, fun j hj => absurd hj (Nat.not_lt_zero j)⟩
      · rintro ⟨k, d, hk, _, _, hfirst⟩
        cases k with
        | zero => rw [hk]; rfl
        | succ k =>
          have := hfirst 0 (Nat.succ_pos k) a (by simp)
          rw [h] at this
          exact absurd this (by decide)
    · have h0 : O.identical a.ReturnType t = false := by simpa using h
      have hdef : findDecl O t base (a :: l) = findDecl O t (base + 1) l := by
        simp [findDecl, h0]
      rw [hdef, ih]
      constructor
      · rintro ⟨k, d, hk, hd, hid, hfirst⟩
        refine ⟨k + 1, d, by omega, by simpa using hd, hid, ?_⟩
        intro j hj g hg
        cases j with
        | zero =>
          have : a = g := by simpa using hg
          rw [← this]; exact h0
        | succ j => exact hfirst j (Nat.lt_of_succ_lt_succ hj) g (by simpa using hg)
      · rintro ⟨k, d, hk, hd, hid, hfirst⟩
        cases k with
        | zero =>
          have : a = d := by simpa using hd
          rw [this] at h0
          rw [h0] at hid
          exact absurd hid (by decide)
        | succ k =>
          refine ⟨k, d, by omega, by simpa using hd, hid, ?_⟩
          intro j hj g hg
          exact hfirst (j + 1) (Nat.succ_lt_succ hj) g (by simpa using hg)

theorem findDerivation_congr (O : TypeOracle) (r r' : Resolver) (hf : r'.fields = r.fields)
    (hd : r'.decls = r.decls) (t : GoType) :
    r'.findDerivation O t = r.findDerivation O t := by
  simp [Resolver.findDerivation, hf, hd]

theorem findDerivation_ok_field (O : TypeOracle) (w : Resolver) (t : GoType) (f : FieldDecl)
    (h : w.findDerivation O t = .ok (.field f)) :
    O.isEmpty t = false ∧ findField O t w.fields = some f := by
  unfold Resolver.findDerivation at h
  cases he : O.isEmpty t with
  | true => simp [he] at h
  | false =>
    cases hf : findField O t w.fields with
    | some g =>
      simp [he, hf] at h
      exact ⟨rfl, by rw [h]⟩
    | none =>
      cases hd : findDecl O t 0 w.decls with
      | some idx => simp [he, hf, hd] at h
      | none => simp [he, hf, hd] at h

theorem findDerivation_ok_func (O : TypeOracle) (w : Resolver) (t : GoType) (idx : Nat)
    (h : w.findDerivation O t = .ok (.func idx)) :
    O.isEmpty t = false ∧ findField O t w.fields = none ∧
      findDecl O t 0 w.decls = some idx := by
  unfold Resolver.findDerivation at h
  cases he : O.isEmpty t with
  | true => simp [he] at h
  | false =>
    cases hf : findField O t w.fields with
    | some g => simp [he, hf] at h
    | none =>
      cases hd : findDecl O t 0 w.decls with
      | some j =>
        simp [he, hf, hd] at h
        exact ⟨rfl, rfl, by rw [h]⟩
      | none => simp [he, hf, hd] at h

theorem findDerivation_error (O : TypeOracle) (w : Resolver) (t : GoType) (e : String)
    (h : w.findDerivation O t = .error e) :
    O.isEmpty t = true ∨ (findField O t w.fields = none ∧ findDecl O t 0 w.decls = none) := by
  unfold Resolver.findDerivation at h
  cases he : O.isEmpty t with
  | true => exact Or.inl rfl
  | false =>
    right
    cases hf : findField O t w.fields with
    | some g => simp [he, hf] at h
    | none =>
      cases hd : findDecl O t 0 w.decls with
      | some j => simp [he, hf, hd] at h
      | none => exact ⟨rfl, rfl⟩

/-! ## Lemmas: the derivations of the parameters of a function -/

theorem derivationsLoop_errs_nil (O : TypeOracle) (r : Resolver) (ts : List GoType) :
    (derivationsLoop O r ts).1 = [] ↔ ∀ t ∈ ts, ∃ p, r.findDerivation O t = .ok p := by
  induction ts with
  | nil => simp [derivationsLoop]
  | cons t ts ih =>
    cases h : r.findDerivation O t with
    | error e => simp [derivationsLoop, h]
    | ok p => simp [derivationsLoop, h, ih]

theorem derivationsLoop_forall₂ (O : TypeOracle) (r : Resolver) (ts : List GoType)
    (hnil : (derivationsLoop O r ts).1 = []) :
    List.Forall₂ (fun t p => r.findDerivation O t = .ok p) ts (derivationsLoop O r ts).2 := by
  induction ts with
  | nil => simp [derivationsLoop]
  | cons t ts ih =>
    cases h : r.findDerivation O t with
    | error e => simp [derivationsLoop, h] at hnil
    | ok p =>
      simp only [derivationsLoop, h] at hnil ⊢
      exact List.Forall₂.cons h (ih hnil)

theorem derivationsLoop_congr (O : TypeOracle) (r r' : Resolver) (hf : r'.fields = r.fields)
    (hd : r'.decls = r.decls) (ts : List GoType) :
    derivationsLoop O r' ts = derivationsLoop O r ts := by
  induction ts with
  | nil => rfl
  | cons t ts ih => simp [derivationsLoop, ih, findDerivation_congr O r r' hf hd]

theorem findDerivationsForParams_ok (O : TypeOracle) (r : Resolver) (fn : Func)
    (ps : List Derivation) :
    r.findDerivationsForParams O fn = .ok ps ↔
      (derivationsLoop O r fn.Params).1 = [] ∧ (derivationsLoop O r fn.Params).2 = ps := by
  unfold Resolver.findDerivationsForParams
  cases h : (derivationsLoop O r fn.Params).1 with
  | nil => simp [h]
  | cons e es => simp [h]

theorem findDerivationsForParams_error (O : TypeOracle) (r : Resolver) (fn : Func) :
    (∃ e, r.findDerivationsForParams O fn = .error e) ↔
      (derivationsLoop O r fn.Params).1 ≠ [] := by
  unfold Resolver.findDerivationsForParams
  cases h : (derivationsLoop O r fn.Params).1 with
  | nil => simp [h]
  | cons e es => simp [h]

theorem findDerivationsForParams_congr (O : TypeOracle) (r r' : Resolver)
    (hf : r'.fields = r.fields) (hd : r'.decls = r.decls) (fn : Func) :
    r'.findDerivationsForParams O fn = r.findDerivationsForParams O fn := by
  simp [Resolver.findDerivationsForParams, derivationsLoop_congr O r r' hf hd]

/-- A function resolves when each of its parameters has a derivation, and
then the derivations are those of the parameters, in order. -/
theorem findDerivationsForParams_ok_iff (O : TypeOracle) (r : Resolver) (fn : Func) :
    (∃ ps, r.findDerivationsForParams O fn = .ok ps) ↔
      ∀ t ∈ fn.Params, ∃ p, r.findDerivation O t = .ok p := by
  rw [← derivationsLoop_errs_nil]
  constructor
  · rintro ⟨ps, h⟩
    exact ((findDerivationsForParams_ok O r fn ps).1 h).1
  · intro h
    exact ⟨_, (findDerivationsForParams_ok O r fn _).2 ⟨h, rfl⟩⟩

theorem findDerivationsForParams_forall₂ (O : TypeOracle) (r : Resolver) (fn : Func)
    (ps : List Derivation) (h : r.findDerivationsForParams O fn = .ok ps) :
    List.Forall₂ (fun t p => r.findDerivation O t = .ok p) fn.Params ps := by
  obtain ⟨hnil, hps⟩ := (findDerivationsForParams_ok O r fn ps).1 h
  rw [← hps]
  exact derivationsLoop_forall₂ O r fn.Params hnil

/-! ## Lemmas: the derivation loop -/

theorem deriveBody_cases (O : TypeOracle) (st : DeriveState) (b : Iface × Func) :
    (st.derived.any (fun e => e.1 = b.1) = true ∧ deriveBody O st b = st) ∨
    (st.derived.any (fun e => e.1 = b.1) = false ∧
      (∃ e, st.r.findDerivationsForParams O b.2 = .error e) ∧ deriveBody O st b = st) ∨
    (st.derived.any (fun e => e.1 = b.1) = false ∧
      ∃ params, st.r.findDerivationsForParams O b.2 = .ok params ∧
        deriveBody O st b =
          { r := st.r.AddFunc
              { library := st.r.library, fn := b.2, iface := b.1, params := params }
            derived := st.derived ++
              [(b.1, { library := st.r.library, fn := b.2, iface := b.1, params := params })]
            numDerived := st.numDerived + 1 }) := by
  unfold deriveBody
  cases hany : st.derived.any (fun e => decide (e.1 = b.1)) with
  | true => left; simp
  | false =>
    right
    cases hfind : st.r.findDerivationsForParams O b.2 with
    | error e => left; simp
    | ok params => right; simp

theorem derivationFrom_of_ok (O : TypeOracle) (r : Resolver) (t : GoType) (p : Derivation)
    (h : r.findDerivation O t = .ok p) :
    DerivationFrom O r.fields (r.decls) r.decls.length t p := by
  cases p with
  | field f =>
    left
    obtain ⟨_, hf⟩ := findDerivation_ok_field O r t f h
    obtain ⟨i, hi, hassign, _⟩ := (findField_eq_some O t r.fields f).1 hf
    exact ⟨f, rfl, List.getElem?_mem hi, hassign⟩
  | func idx =>
    right
    obtain ⟨_, _, hd⟩ := findDerivation_ok_func O r t idx h
    obtain ⟨k, g, hk, hg, hid, _⟩ := (findDecl_eq_some O t 0 r.decls idx).1 hd
    have hk : idx = k := by omega
    subst hk
    have hlt : idx < r.decls.length := by
      by_contra hge
      rw [List.getElem?_eq_none (by omega)] at hg
      exact absurd hg (by simp)
    exact ⟨idx, g, rfl, hlt, hg, hid⟩

theorem derivationFrom_append (O : TypeOracle) (fields : List FieldDecl)
    (decls : List PrivateFuncDecl) (extra : List PrivateFuncDecl) (k : Nat) (t : GoType)
    (p : Derivation) (hk : k ≤ decls.length) (h : DerivationFrom O fields decls k t p) :
    DerivationFrom O fields (decls ++ extra) k t p := by
  rcases h with ⟨f, hp, hf, ha⟩ | ⟨j, g, hp, hj, hg, hid⟩
  · exact Or.inl ⟨f, hp, hf, ha⟩
  · refine Or.inr ⟨j, g, hp, hj, ?_, hid⟩
    rw [List.getElem?_append_left (by omega)]
    exact hg

theorem not_mem_keys_of_any_false (derived : List (Iface × PrivateFuncDecl)) (k : Iface)
    (h : derived.any (fun e => e.1 = k) = false) : k ∉ derived.map (fun e => e.1) := by
  intro hmem
  obtain ⟨e, he, hk⟩ := List.mem_map.1 hmem
  have := List.any_eq_false.1 h e he
  simp [hk] at this

theorem mem_keys_of_any_true (derived : List (Iface × PrivateFuncDecl)) (k : Iface)
    (h : derived.any (fun e => e.1 = k) = true) : k ∈ derived.map (fun e => e.1) := by
  obtain ⟨e, he, hk⟩ := List.any_eq_true.1 h
  have hk : e.1 = k := by simpa using hk
  exact List.mem_map.2 ⟨e, he, hk⟩

theorem deriveBody_inv (O : TypeOracle) (r0 : Resolver) (st : DeriveState) (b : Iface × Func)
    (hb : b ∈ r0.bindings) (inv : DeriveInv O r0 st.r st.derived) :
    DeriveInv O r0 (deriveBody O st b).r (deriveBody O st b).derived := by
  rcases deriveBody_cases O st b with ⟨_, h⟩ | ⟨_, _, h⟩ | ⟨hany, params, hfind, h⟩
  · rw [h]; exact inv
  · rw [h]; exact inv
  · rw [h]
    refine
      { fields_eq := inv.fields_eq
        bindings_eq := inv.bindings_eq
        cache_eq := inv.cache_eq
        library_eq := inv.library_eq
        provider_eq := inv.provider_eq
        keys := ?_
        nodup := ?_
        bound := ?_
        params := ?_ }
    · simp [Resolver.AddFunc, inv.keys]
    · rw [List.map_append]
      refine List.nodup_append.2 ⟨inv.nodup, by simp, ?_⟩
      intro x hx hx'
      have hx' : x = b.1 := by simpa using hx'
      subst hx'
      exact not_mem_keys_of_any_false st.derived _ hany hx
    · intro d hd
      have hd : d ∈ st.r.decls ∨
          d = { library := st.r.library, fn := b.2, iface := b.1, params := params } := by
        simpa [Resolver.AddFunc] using hd
      rcases hd with hd | hd
      · exact inv.bound d hd
      · subst hd
        exact ⟨hb, inv.library_eq⟩
    · intro k d hk
      have hdecls : (st.r.AddFunc
          { library := st.r.library, fn := b.2, iface := b.1, params := params }).decls =
          st.r.decls ++
            [{ library := st.r.library, fn := b.2, iface := b.1, params := params }] := rfl
      have hfields : (st.r.AddFunc
          { library := st.r.library, fn := b.2, iface := b.1, params := params }).fields =
          st.r.fields := rfl
      rw [hdecls] at hk ⊢
      rw [hfields]
      by_cases hlt : k < st.r.decls.length
      · rw [List.getElem?_append_left hlt] at hk
        exact (inv.params k d hk).imp
          (fun {t p} h => derivationFrom_append O _ _ _ k t p (Nat.le_of_lt hlt) h)
      · have hge : st.r.decls.length ≤ k := Nat.le_of_not_lt hlt
        rw [List.getElem?_append_right hge] at hk
        have hk0 : k - st.r.decls.length = 0 := by
          by_contra hne
          rw [List.getElem?_eq_none (by simp; omega)] at hk
          exact absurd hk (by simp)
        rw [hk0] at hk
        have hd : d = { library := st.r.library, fn := b.2, iface := b.1, params := params } := by
          simpa using hk.symm
        have hkeq : k = st.r.decls.length := by omega
        subst hd
        rw [hkeq]
        exact (findDerivationsForParams_forall₂ O st.r b.2 params hfind).imp
          (fun {t p} h => derivationFrom_append O _ _ _ _ t p (Nat.le_refl _)
            (derivationFrom_of_ok O st.r t p h))

theorem foldl_deriveBody_inv (O : TypeOracle) (r0 : Resolver) (visit : List (Iface × Func))
    (hvisit : ∀ b ∈ visit, b ∈ r0.bindings) (st : DeriveState)
    (inv : DeriveInv O r0 st.r st.derived) :
    DeriveInv O r0 (visit.foldl (deriveBody O) st).r (visit.foldl (deriveBody O) st).derived := by
  induction visit generalizing st with
  | nil => exact inv
  | cons b rest ih =>
    rw [List.foldl_cons]
    exact ih (fun x hx => hvisit x (List.mem_cons_of_mem _ hx)) _
      (deriveBody_inv O r0 st b (hvisit b (List.mem_cons_self _ _)) inv)

theorem deriveBody_numDerived_le (O : TypeOracle) (st : DeriveState) (b : Iface × Func) :
    st.numDerived ≤ (deriveBody O st b).numDerived := by
  rcases deriveBody_cases O st b with ⟨_, h⟩ | ⟨_, _, h⟩ | ⟨_, params, _, h⟩ <;> rw [h]
  exact Nat.le_succ _

theorem foldl_deriveBody_numDerived_le (O : TypeOracle) (visit : List (Iface × Func))
    (st : DeriveState) : st.numDerived ≤ (visit.foldl (deriveBody O) st).numDerived := by
  induction visit generalizing st with
  | nil => exact Nat.le_refl _
  | cons b rest ih =>
    rw [List.foldl_cons]
    exact Nat.le_trans (deriveBody_numDerived_le O st b) (ih _)

/-- A round that counts no new derivation changes nothing, and each binding it
visits is already derived or has a parameter without derivation. -/
theorem foldl_deriveBody_unchanged (O : TypeOracle) (visit : List (Iface × Func))
    (st : DeriveState)
    (h : (visit.foldl (deriveBody O) st).numDerived = st.numDerived) :
    visit.foldl (deriveBody O) st = st ∧
      ∀ b ∈ visit, st.derived.any (fun e => e.1 = b.1) = true ∨
        ∃ e, st.r.findDerivationsForParams O b.2 = .error e := by
  induction visit generalizing st with
  | nil => exact ⟨rfl, fun b hb => absurd hb (List.not_mem_nil b)⟩
  | cons b rest ih =>
    rw [List.foldl_cons] at h ⊢
    have hle := foldl_deriveBody_numDerived_le O rest (deriveBody O st b)
    have hle0 := deriveBody_numDerived_le O st b
    have hstep : deriveBody O st b = st ∧
        (st.derived.any (fun e => e.1 = b.1) = true ∨
          ∃ e, st.r.findDerivationsForParams O b.2 = .error e) := by
      rcases deriveBody_cases O st b with ⟨hany, hb⟩ | ⟨_, herr, hb⟩ | ⟨_, params, _, hb⟩
      · exact ⟨hb, Or.inl hany⟩
      · exact ⟨hb, Or.inr herr⟩
      · rw [hb] at hle h
        simp only at hle
        omega
    rw [hstep.1] at h ⊢
    obtain ⟨heq, hall⟩ := ih st h
    refine ⟨heq, ?_⟩
    intro x hx
    rcases List.mem_cons.1 hx with hx | hx
    · rw [hx]; exact hstep.2
    · exact hall x hx

theorem deriveBody_length (O : TypeOracle) (st : DeriveState) (b : Iface × Func) :
    (deriveBody O st b).derived.length + st.numDerived =
      st.derived.length + (deriveBody O st b).numDerived := by
  rcases deriveBody_cases O st b with ⟨_, h⟩ | ⟨_, _, h⟩ | ⟨_, params, _, h⟩ <;> rw [h]
  simp only [List.length_append, List.length_singleton]
  omega

theorem foldl_deriveBody_length (O : TypeOracle) (visit : List (Iface × Func))
    (st : DeriveState) :
    (visit.foldl (deriveBody O) st).derived.length + st.numDerived =
      st.derived.length + (visit.foldl (deriveBody O) st).numDerived := by
  induction visit generalizing st with
  | nil => rfl
  | cons b rest ih =>
    rw [List.foldl_cons]
    have h1 := ih (deriveBody O st b)
    have h2 := deriveBody_length O st b
    omega

theorem deriveInv_fresh (O : TypeOracle) (r : Resolver) (hfresh : r.decls = []) :
    DeriveInv O r r [] :=
  { fields_eq := rfl
    bindings_eq := rfl
    cache_eq := rfl
    library_eq := rfl
    provider_eq := rfl
    keys := by simp [hfresh]
    nodup := by simp
    bound := by simp [hfresh]
    params := by simp [hfresh] }

theorem deriveInv_length_le (O : TypeOracle) (r0 r : Resolver)
    (derived : List (Iface × PrivateFuncDecl)) (inv : DeriveInv O r0 r derived) :
    derived.length ≤ r0.bindings.length := by
  have hsub : derived.map (fun e => e.1) ⊆ r0.bindings.map (fun b => b.1) := by
    intro k hk
    rw [← inv.keys] at hk
    obtain ⟨d, hd, hdk⟩ := List.mem_map.1 hk
    exact List.mem_map.2 ⟨(d.iface, d.fn), (inv.bound d hd).1, hdk⟩
  have := (inv.nodup.subperm hsub).length_le
  simpa using this

/-- What holds when the loop returns: the invariant, and a last round, over
the visiting order of some round, in which every binding was already derived
or could not be derived from the final declarations. -/
theorem deriveLoop_some (O : TypeOracle) (order : Nat → List (Iface × Func)) (r0 : Resolver)
    (hvisit : ∀ n, ∀ b ∈ order n, b ∈ r0.bindings) :
    ∀ (fuel loop : Nat) (r : Resolver) (derived : List (Iface × PrivateFuncDecl))
      (r' : Resolver), DeriveInv O r0 r derived →
      deriveLoop O order fuel loop r derived = some r' →
      ∃ derived' n, DeriveInv O r0 r' derived' ∧
        ∀ b ∈ order n, derived'.any (fun e => e.1 = b.1) = true ∨
          ∃ e, r'.findDerivationsForParams O b.2 = .error e := by
  intro fuel
  induction fuel with
  | zero => intro loop r derived r' _ h; simp [deriveLoop] at h
  | succ fuel ih =>
    intro loop r derived r' inv h
    unfold deriveLoop at h
    by_cases hloop : loop > 1000
    · simp [hloop] at h
    · simp only [hloop, if_false] at h
      by_cases hzero : (deriveRound O r derived (order loop)).numDerived = 0
      · simp only [hzero, if_true, Option.some.injEq] at h
        have hun := foldl_deriveBody_unchanged O (order loop)
          { r := r, derived := derived, numDerived := 0 } hzero
        have hr : r' = r := by
          rw [← h]
          show ((order loop).foldl (deriveBody O) _).r = r
          rw [hun.1]
        rw [hr]
        exact ⟨derived, loop, inv, hun.2⟩
      · simp only [hzero, if_false] at h
        exact ih (loop + 1) _ _ r'
          (foldl_deriveBody_inv O r0 (order loop) (hvisit loop)
            { r := r, derived := derived, numDerived := 0 } inv) h

/-- The loop returns when the rounds still allowed by the guard outnumber the
bindings that are not derived yet. -/
theorem deriveLoop_returns (O : TypeOracle) (order : Nat → List (Iface × Func)) (r0 : Resolver)
    (hvisit : ∀ n, ∀ b ∈ order n, b ∈ r0.bindings) :
    ∀ (fuel loop : Nat) (r : Resolver) (derived : List (Iface × PrivateFuncDecl)),
      DeriveInv O r0 r derived →
      loop + (r0.bindings.length - derived.length) ≤ 1000 →
      r0.bindings.length - derived.length < fuel →
      ∃ r', deriveLoop O order fuel loop r derived = some r' := by
  intro fuel
  induction fuel with
  | zero => intro loop r derived _ _ h; exact absurd h (Nat.not_lt_zero _)
  | succ fuel ih =>
    intro loop r derived inv hloop hfuel
    unfold deriveLoop
    have hle : ¬ loop > 1000 := by omega
    simp only [hle, if_false]
    by_cases hzero : (deriveRound O r derived (order loop)).numDerived = 0
    · exact ⟨(deriveRound O r derived (order loop)).r, by simp only [hzero, if_true]⟩
    · simp only [hzero, if_false]
      have inv' := foldl_deriveBody_inv O r0 (order loop) (hvisit loop)
        { r := r, derived := derived, numDerived := 0 } inv
      have hlen := foldl_deriveBody_length O (order loop)
        { r := r, derived := derived, numDerived := 0 }
      have hbound := deriveInv_length_le O r0 _ _ inv'
      have hzero' : ((order loop).foldl (deriveBody O)
          { r := r, derived := derived, numDerived := 0 }).numDerived ≠ 0 := hzero
      simp only at hlen
      exact ih (loop + 1) _ _ inv' (by unfold deriveRound; omega) (by unfold deriveRound; omega)

theorem mapGet_of_mem {α β : Type} [DecidableEq α] (l : List (α × β)) (k : α) (v : β)
    (hnodup : (l.map (fun e => e.1)).Nodup) (hmem : (k, v) ∈ l) : mapGet k l = some v := by
  induction l with
  | nil => exact absurd hmem (List.not_mem_nil _)
  | cons e rest ih =>
    rw [List.map_cons, List.nodup_cons] at hnodup
    unfold mapGet
    rcases List.mem_cons.1 hmem with h | h
    · rw [← h]; simp
    · have hne : e.1 ≠ k := by
        intro heq
        exact hnodup.1 (List.mem_map.2 ⟨(k, v), h, heq.symm⟩)
      simp only [hne, if_false]
      exact ih hnodup.2 h

/-! ## Lemmas: the construction of the bindings -/

theorem ifacesFrom_ptr_ge (objs : List Object) (base : Nat) :
    ∀ i ∈ ifacesFrom base objs, base ≤ i.ptr := by
  induction objs generalizing base with
  | nil => intro i hi; simp [ifacesFrom] at hi
  | cons obj rest ih =>
    intro i hi
    unfold ifacesFrom at hi
    cases hkind : obj.kind with
    | iface e =>
      simp only [hkind] at hi
      rcases List.mem_cons.1 hi with h | h
      · rw [h]
      · exact Nat.le_of_succ_le (ih (base + 1) i h)
    | func ps rs => simp only [hkind] at hi; exact Nat.le_of_succ_le (ih (base + 1) i hi)
    | struct fs => simp only [hkind] at hi; exact Nat.le_of_succ_le (ih (base + 1) i hi)
    | other => simp only [hkind] at hi; exact Nat.le_of_succ_le (ih (base + 1) i hi)

theorem ifacesFrom_nodup (objs : List Object) (base : Nat) : (ifacesFrom base objs).Nodup := by
  induction objs generalizing base with
  | nil => simp [ifacesFrom]
  | cons obj rest ih =>
    unfold ifacesFrom
    cases hkind : obj.kind with
    | iface e =>
      simp only
      refine List.nodup_cons.2 ⟨?_, ih (base + 1)⟩
      intro hmem
      have := ifacesFrom_ptr_ge rest (base + 1) _ hmem
      simp at this
    | func ps rs => exact ih (base + 1)
    | struct fs => exact ih (base + 1)
    | other => exact ih (base + 1)

theorem ifaces_nodup (c : ObjectCache) : c.Ifaces.Nodup :=
  ifacesFrom_nodup c.objects 0

theorem mapGet_mapInsert_self {α β : Type} [DecidableEq α] (k : α) (v : β) (m : List (α × β)) :
    mapGet k (mapInsert k v m) = some v := by
  induction m with
  | nil => simp [mapInsert, mapGet]
  | cons e rest ih =>
    unfold mapInsert
    by_cases h : e.1 = k
    · simp [h, mapGet]
    · simp [h, mapGet, ih]

theorem mapGet_mapInsert_ne {α β : Type} [DecidableEq α] (k k' : α) (v : β) (m : List (α × β))
    (hne : k' ≠ k) : mapGet k (mapInsert k' v m) = mapGet k m := by
  induction m with
  | nil => simp [mapInsert, mapGet, hne]
  | cons e rest ih =>
    unfold mapInsert
    by_cases h : e.1 = k'
    · have hek : e.1 ≠ k := by rw [h]; exact hne
      simp [h, mapGet, hne, hek]
    · rw [if_neg h]
      by_cases hk : e.1 = k
      · simp [mapGet, hk]
      · simp [mapGet, hk, ih]

theorem mapGet_eq_none {α β : Type} [DecidableEq α] (k : α) (m : List (α × β)) :
    mapGet k m = none ↔ ∀ v, (k, v) ∉ m := by
  induction m with
  | nil => simp [mapGet]
  | cons e rest ih =>
    unfold mapGet
    by_cases h : e.1 = k
    · simp only [h, if_true]
      constructor
      · intro hn; exact absurd hn (by simp)
      · intro hall
        exact absurd (List.mem_cons_self _ _) (h ▸ hall e.2)
    · simp only [h, if_false, ih]
      constructor
      · intro hall v hmem
        rcases List.mem_cons.1 hmem with hm | hm
        · exact h (by rw [← hm])
        · exact hall v hm
      · intro hall v hmem
        exact hall v (List.mem_cons_of_mem _ hmem)

theorem setupBody_get_ne (O : TypeOracle) (r : Resolver)
    (st : List (Iface × Func) × List String) (i k : Iface) (hne : i ≠ k) :
    mapGet k (r.setupBody O st i).1 = mapGet k st.1 := by
  unfold Resolver.setupBody
  cases r.bindIface O i with
  | skip => rfl
  | bind fn => exact mapGet_mapInsert_ne k i fn st.1 hne
  | fail err => rfl

theorem setupBody_get_self (O : TypeOracle) (r : Resolver)
    (st : List (Iface × Func) × List String) (k : Iface) :
    mapGet k (r.setupBody O st k).1 =
      match (r.bindIface O k).func? with
      | some fn => some fn
      | none => mapGet k st.1 := by
  unfold Resolver.setupBody
  cases r.bindIface O k with
  | skip => rfl
  | bind fn => exact mapGet_mapInsert_self k fn st.1
  | fail err => rfl

theorem foldl_setupBody_get_not_mem (O : TypeOracle) (r : Resolver) (l : List Iface)
    (st : List (Iface × Func) × List String) (k : Iface) (hk : k ∉ l) :
    mapGet k (l.foldl (r.setupBody O) st).1 = mapGet k st.1 := by
  induction l generalizing st with
  | nil => rfl
  | cons i rest ih =>
    rw [List.foldl_cons, ih _ (fun h => hk (List.mem_cons_of_mem _ h))]
    exact setupBody_get_ne O r st i k (fun h => hk (h ▸ List.mem_cons_self _ _))

theorem foldl_setupBody_get_mem (O : TypeOracle) (r : Resolver) (l : List Iface)
    (st : List (Iface × Func) × List String) (k : Iface) (hnodup : l.Nodup) (hk : k ∈ l) :
    mapGet k (l.foldl (r.setupBody O) st).1 =
      match (r.bindIface O k).func? with
      | some fn => some fn
      | none => mapGet k st.1 := by
  induction l generalizing st with
  | nil => exact absurd hk (List.not_mem_nil k)
  | cons i rest ih =>
    rw [List.nodup_cons] at hnodup
    rw [List.foldl_cons]
    rcases List.mem_cons.1 hk with h | h
    · subst h
      rw [foldl_setupBody_get_not_mem O r rest _ k hnodup.1]
      exact setupBody_get_self O r st k
    · have hne : i ≠ k := fun heq => hnodup.1 (heq ▸ h)
      rw [ih _ hnodup.2 h, setupBody_get_ne O r st i k hne]

theorem foldl_setupBody_errs (O : TypeOracle) (r : Resolver) (l : List Iface)
    (st : List (Iface × Func) × List String) :
    (l.foldl (r.setupBody O) st).2 =
      st.2 ++ l.filterMap (fun i => (r.bindIface O i).error?) := by
  induction l generalizing st with
  | nil => simp
  | cons i rest ih =>
    rw [List.foldl_cons, ih]
    unfold Resolver.setupBody
    cases h : r.bindIface O i with
    | skip => simp [List.filterMap_cons, h, BindOutcome.error?]
    | bind fn => simp [List.filterMap_cons, h, BindOutcome.error?]
    | fail err => simp [List.filterMap_cons, h, BindOutcome.error?]

/-- The binding of an interface after `setupBindings`: the function that the
loop body assigns to it when it is in the catalogue, and none otherwise. -/
theorem setupBindings_get (O : TypeOracle) (r : Resolver) (k : Iface) :
    mapGet k (r.setupBindings O).1.bindings =
      if k ∈ r.cache.Ifaces then (r.bindIface O k).func? else none := by
  show mapGet k (r.cache.Ifaces.foldl (r.setupBody O) ([], [])).1 = _
  by_cases hk : k ∈ r.cache.Ifaces
  · rw [foldl_setupBody_get_mem O r _ _ k (ifaces_nodup r.cache) hk, if_pos hk]
    cases (r.bindIface O k).func? <;> rfl
  · rw [foldl_setupBody_get_not_mem O r _ _ k hk, if_neg hk]
    rfl

/-- The errors returned by `setupBindings`: the errors of the interfaces of the
catalogue, in catalogue order. -/
theorem setupBindings_errs (O : TypeOracle) (r : Resolver) :
    sliceElems (r.setupBindings O).2 =
      r.cache.Ifaces.filterMap (fun i => (r.bindIface O i).error?) := by
  have h := foldl_setupBody_errs O r r.cache.Ifaces ([], [])
  simp only [List.nil_append] at h
  unfold Resolver.setupBindings
  simp only
  rw [h]
  cases hl : r.cache.Ifaces.filterMap (fun i => (r.bindIface O i).error?) with
  | nil => simp [sliceElems]
  | cons e es => simp [sliceElems]

theorem candidateLines_length (i : Nat) (l : List String) :
    (candidateLines i l).length = l.length := by
  induction l generalizing i with
  | nil => rfl
  | cons s rest ih => simp [candidateLines, ih]

theorem candidateLines_getElem? (i : Nat) (l : List String) (k : Nat) (s : String)
    (h : l[k]? = some s) :
    (candidateLines i l)[k]? = some ("\t" ++ toString (i + k) ++ ": " ++ s ++ "\n") := by
  induction l generalizing i k with
  | nil => simp at h
  | cons a rest ih =>
    cases k with
    | zero =>
      have : a = s := by simpa using h
      simp [candidateLines, this]
    | succ k =>
      have h : rest[k]? = some s := by simpa using h
      have := ih (i + 1) k h
      simp only [candidateLines, List.getElem?_cons_succ]
      rw [this]
      have : i + 1 + k = i + (k + 1) := by omega
      rw [this]

theorem bindIface_skip (O : TypeOracle) (r : Resolver) (iface : Iface)
    (hskip : iface.obj.IsExcluded = true ∨ iface.Empty = true ∨ iface.obj.exported = false) :
    r.bindIface O iface = .skip := by
  unfold Resolver.bindIface
  rcases hskip with h | h | h
  · simp [h]
  · simp [h]
  · simp [h]

theorem bindIface_resolve (O : TypeOracle) (r : Resolver) (iface : Iface)
    (hex : iface.obj.IsExcluded = false) (hne : iface.Empty = false)
    (hexp : iface.obj.exported = true) (hres : iface.obj.IsResolve = true) :
    r.bindIface O iface = r.bindResolve iface := by
  simp [Resolver.bindIface, hex, hne, hexp, hres]

theorem bindIface_auto (O : TypeOracle) (r : Resolver) (iface : Iface)
    (hex : iface.obj.IsExcluded = false) (hne : iface.Empty = false)
    (hexp : iface.obj.exported = true) (hres : iface.obj.IsResolve = false) :
    r.bindIface O iface = r.bindAuto O iface := by
  simp [Resolver.bindIface, hex, hne, hexp, hres]

theorem filterMap_filter_ne {α β : Type} [DecidableEq α] (f : α → Option β) (a : α)
    (l : List α) (ha : f a = none) :
    l.filterMap f = (l.filter (fun x => decide (x ≠ a))).filterMap f := by
  induction l with
  | nil => rfl
  | cons x rest ih =>
    by_cases hx : x = a
    · subst hx
      simp [List.filterMap_cons, ha, ih]
    · simp [List.filterMap_cons, List.filter_cons, hx, ih]

/-! ## Lemmas: the public resolution -/

theorem derivable_eq_true (O : TypeOracle) (r : Resolver) (t : GoType) :
    r.derivable O t = true ↔ ∃ p, r.findDerivation O t = .ok p := by
  unfold Resolver.derivable
  cases r.findDerivation O t with
  | error e => simp
  | ok p => simp

theorem all_derivable_iff (O : TypeOracle) (r : Resolver) (fn : Func) :
    fn.Params.all (fun t => r.derivable O t) = true ↔
      ∃ ps, r.findDerivationsForParams O fn = .ok ps := by
  rw [findDerivationsForParams_ok_iff, List.all_eq_true]
  constructor
  · intro h t ht
    exact (derivable_eq_true O r t).1 (h t ht)
  · intro h t ht
    exact (derivable_eq_true O r t).2 (h t ht)

theorem findDerivationsForParams_total (O : TypeOracle) (r : Resolver) (fn : Func) :
    (∃ ps, r.findDerivationsForParams O fn = .ok ps) ∨
      (∃ e, r.findDerivationsForParams O fn = .error e) := by
  cases r.findDerivationsForParams O fn with
  | error e => exact Or.inr ⟨e, rfl⟩
  | ok ps => exact Or.inl ⟨ps, rfl⟩

theorem any_not_derivable_iff (O : TypeOracle) (r : Resolver) (fn : Func) :
    fn.Params.any (fun t => !r.derivable O t) = true ↔
      ∃ e, r.findDerivationsForParams O fn = .error e := by
  constructor
  · intro h
    rcases findDerivationsForParams_total O r fn with hok | herr
    · have hall := (all_derivable_iff O r fn).2 hok
      obtain ⟨t, ht, hnot⟩ := List.any_eq_true.1 h
      have := List.all_eq_true.1 hall t ht
      simp [this] at hnot
    · exact herr
  · rintro ⟨e, he⟩
    by_contra hany
    have hall : fn.Params.all (fun t => r.derivable O t) = true := by
      rw [List.all_eq_true]
      intro t ht
      by_contra hd
      exact hany (List.any_eq_true.2 ⟨t, ht, by simp [hd]⟩)
    obtain ⟨ps, hps⟩ := (all_derivable_iff O r fn).1 hall
    rw [hps] at he
    exact absurd he (by simp)

theorem foldl_resolveBody (O : TypeOracle) (r : Resolver) (l : List Func)
    (st : List PublicFuncDecl × List String) :
    l.foldl (r.resolveBody O) st =
      (st.1 ++ l.filterMap (fun fn => (r.resolveFunc O fn).decl?),
        st.2 ++ l.filterMap (fun fn => (r.resolveFunc O fn).error?)) := by
  induction l generalizing st with
  | nil => simp
  | cons fn rest ih =>
    rw [List.foldl_cons, ih]
    unfold Resolver.resolveBody
    cases h : r.resolveFunc O fn with
    | skip => simp [List.filterMap_cons, h, ResolveOutcome.decl?, ResolveOutcome.error?]
    | decl d => simp [List.filterMap_cons, h, ResolveOutcome.decl?, ResolveOutcome.error?]
    | fail err => simp [List.filterMap_cons, h, ResolveOutcome.decl?, ResolveOutcome.error?]

/-- The result of the public resolution, from the outcomes of the functions
of the catalogue. -/
theorem resolveEach_eq (O : TypeOracle) (r : Resolver) :
    r.resolveEachConstructorsPresumingDerivationIsDone O =
      if (r.cache.Funcs.filterMap (fun fn => (r.resolveFunc O fn).error?)).length > 0 then
        (none, some (r.cache.Funcs.filterMap (fun fn => (r.resolveFunc O fn).error?)))
      else (some (r.cache.Funcs.filterMap (fun fn => (r.resolveFunc O fn).decl?)), none) := by
  unfold Resolver.resolveEachConstructorsPresumingDerivationIsDone
  simp only [foldl_resolveBody, List.nil_append]

theorem resolveFunc_error_of_required (O : TypeOracle) (r : Resolver) (fn : Func)
    (h : r.unresolvedRequired O fn = true) :
    ∃ err, r.findDerivationsForParams O fn = .error err ∧
      (r.resolveFunc O fn).error? =
        some ("unable to resolve " ++ fn.obj.importPath ++ "." ++ fn.obj.name ++
          ", which is marked as \x60must_resolve\x60: " ++ err) := by
  unfold Resolver.unresolvedRequired at h
  simp only [Bool.and_eq_true, decide_eq_true_eq] at h
  obtain ⟨⟨⟨hlib, htry⟩, hmust⟩, hany⟩ := h
  obtain ⟨err, herr⟩ := (any_not_derivable_iff O r fn).1 hany
  refine ⟨err, herr, ?_⟩
  simp [Resolver.resolveFunc, hlib, htry, hmust, herr, ResolveOutcome.error?]

theorem resolveFunc_no_error (O : TypeOracle) (r : Resolver) (fn : Func)
    (h : r.unresolvedRequired O fn = false) : (r.resolveFunc O fn).error? = none := by
  unfold Resolver.resolveFunc
  by_cases hlib : fn.obj.importPath = r.library
  · simp [hlib, ResolveOutcome.error?]
  · by_cases htry : fn.ShouldTryToResolve = true
    · cases hfind : r.findDerivationsForParams O fn with
      | ok ps => simp [hlib, htry, ResolveOutcome.error?]
      | error err =>
        by_cases hmust : fn.MustBeResolved = true
        · have hany := (any_not_derivable_iff O r fn).2 ⟨err, hfind⟩
          simp [Resolver.unresolvedRequired, hlib, htry, hmust, hany] at h
        · simp [hlib, htry, hmust, ResolveOutcome.error?]
    · simp [hlib, htry, ResolveOutcome.error?]

theorem resolveFunc_decl_of_resolved (O : TypeOracle) (r : Resolver) (fn : Func)
    (h : r.publiclyResolved O fn = true) :
    ∃ ps, r.findDerivationsForParams O fn = .ok ps ∧
      (r.resolveFunc O fn).decl? = some { fn := fn, library := r.library, params := ps } := by
  unfold Resolver.publiclyResolved at h
  simp only [Bool.and_eq_true, decide_eq_true_eq, Bool.not_eq_true'] at h
  obtain ⟨⟨⟨⟨⟨hexp, hex⟩, hpar⟩, hres⟩, hlib⟩, hall⟩ := h
  obtain ⟨ps, hps⟩ := (all_derivable_iff O r fn).1 hall
  refine ⟨ps, hps, ?_⟩
  have htry : fn.ShouldTryToResolve = true := by
    simp [Func.ShouldTryToResolve, Func.IsConstructor, hexp, hex, hpar, hres]
  simp [Resolver.resolveFunc, hlib, htry, hps, ResolveOutcome.decl?]

theorem resolveFunc_no_decl (O : TypeOracle) (r : Resolver) (fn : Func)
    (h : r.publiclyResolved O fn = false) : (r.resolveFunc O fn).decl? = none := by
  unfold Resolver.resolveFunc
  by_cases hlib : fn.obj.importPath = r.library
  · simp [hlib, ResolveOutcome.decl?]
  · by_cases htry : fn.ShouldTryToResolve = true
    · cases hfind : r.findDerivationsForParams O fn with
      | ok ps =>
        have hall := (all_derivable_iff O r fn).2 ⟨ps, hfind⟩
        have htry' := htry
        simp only [Func.ShouldTryToResolve, Func.IsConstructor, Bool.and_eq_true,
          Bool.not_eq_true', beq_iff_eq, decide_eq_true_eq] at htry'
        obtain ⟨⟨hexp, hex⟩, hres, hpar⟩ := htry'
        simp [Resolver.publiclyResolved, hlib, hexp, hex, hres, hpar, hall] at h
      | error err =>
        by_cases hmust : fn.MustBeResolved = true
        · simp [hlib, htry, hmust, ResolveOutcome.decl?]
        · simp [hlib, htry, hmust, ResolveOutcome.decl?]
    · simp [hlib, htry, ResolveOutcome.decl?]

theorem forall₂_filter_filterMap {α β : Type} (p : α → Bool) (f : α → Option β)
    (R : α → β → Prop) (l : List α)
    (hyes : ∀ x, p x = true → ∃ y, f x = some y ∧ R x y)
    (hno : ∀ x, p x = false → f x = none) :
    List.Forall₂ R (l.filter p) (l.filterMap f) := by
  induction l with
  | nil => simp
  | cons x rest ih =>
    cases hp : p x with
    | true =>
      obtain ⟨y, hy, hR⟩ := hyes x hp
      rw [List.filter_cons_of_pos hp, List.filterMap_cons_some hy]
      exact List.Forall₂.cons hR ih
    | false =>
      rw [List.filter_cons_of_neg (by simp [hp]), List.filterMap_cons_none (hno x hp)]
      exact ih

theorem unresolvedRequired_iff (O : TypeOracle) (r : Resolver) (fn : Func) :
    r.unresolvedRequired O fn = true ↔
      fn.obj.importPath ≠ r.library ∧ fn.ShouldTryToResolve = true ∧
        fn.MustBeResolved = true ∧ ∃ t ∈ fn.Params, ∃ e, r.findDerivation O t = .error e := by
  have hany : fn.Params.any (fun t => !r.derivable O t) = true ↔
      ∃ t ∈ fn.Params, ∃ e, r.findDerivation O t = .error e := by
    rw [List.any_eq_true]
    constructor
    · rintro ⟨t, ht, hd⟩
      refine ⟨t, ht, ?_⟩
      unfold Resolver.derivable at hd
      cases hf : r.findDerivation O t with
      | error e => exact ⟨e, rfl⟩
      | ok p => simp [hf] at hd
    · rintro ⟨t, ht, e, he⟩
      exact ⟨t, ht, by simp [Resolver.derivable, he]⟩
  unfold Resolver.unresolvedRequired
  simp only [Bool.and_eq_true, decide_eq_true_eq, hany, and_assoc]

theorem publiclyResolved_iff (O : TypeOracle) (r : Resolver) (fn : Func) :
    r.publiclyResolved O fn = true ↔
      fn.obj.exported = true ∧ fn.obj.IsExcluded = false ∧ 0 < fn.Params.length ∧
        fn.Results.length = 1 ∧ fn.obj.importPath ≠ r.library ∧
        ∀ t ∈ fn.Params, ∃ p, r.findDerivation O t = .ok p := by
  have hall : fn.Params.all (fun t => r.derivable O t) = true ↔
      ∀ t ∈ fn.Params, ∃ p, r.findDerivation O t = .ok p := by
    rw [all_derivable_iff, findDerivationsForParams_ok_iff]
  unfold Resolver.publiclyResolved
  simp only [Bool.and_eq_true, decide_eq_true_eq, Bool.not_eq_true', hall, and_assoc]

theorem resolveEach_errs (O : TypeOracle) (r : Resolver) :
    sliceElems (r.resolveEachConstructorsPresumingDerivationIsDone O).2 =
      r.cache.Funcs.filterMap (fun fn => (r.resolveFunc O fn).error?) := by
  rw [resolveEach_eq]
  cases h : r.cache.Funcs.filterMap (fun fn => (r.resolveFunc O fn).error?) with
  | nil => simp [sliceElems]
  | cons e es => simp [sliceElems]

theorem sliceLen_eq_length {α : Type} (s : Option (List α)) :
    sliceLen s = (sliceElems s).length := by
  cases s <;> rfl

theorem forall₂_exists_left {α β : Type} {R : α → β → Prop} {l₁ : List α} {l₂ : List β}
    (h : List.Forall₂ R l₁ l₂) {b : β} (hb : b ∈ l₂) : ∃ a, a ∈ l₁ ∧ R a b := by
  induction h with
  | nil => exact absurd hb (List.not_mem_nil b)
  | cons hab _ ih =>
    rcases List.mem_cons.1 hb with hb | hb
    · exact ⟨_, List.mem_cons_self _ _, hb ▸ hab⟩
    · obtain ⟨a, ha, hR⟩ := ih hb
      exact ⟨a, List.mem_cons_of_mem _ ha, hR⟩

/-! ## The claims -/

/-- C1 (fixpoint completeness).  Started on a resolver without declarations,
with each round visiting all the bindings in some order, the derivation loop
returns whenever there are at most 1000 bindings; and when it returns, the
fields and the bindings are unchanged and every binding whose function has
all its parameters derivable from the final fields and declarations has a
declaration for its interface. -/
theorem derive_fixpoint_complete (O : TypeOracle) (order : Nat → List (Iface × Func))
    (r : Resolver) (hfresh : r.decls = []) (hperm : ∀ n, (order n).Perm r.bindings) :
    (r.bindings.length ≤ 1000 →
      ∃ r', r.deriveConstructorsForEachInterfaces O order = some r') ∧
    ∀ r', r.deriveConstructorsForEachInterfaces O order = some r' →
      r'.fields = r.fields ∧ r'.bindings = r.bindings ∧
      ∀ (iface : Iface) (fn : Func), (iface, fn) ∈ r.bindings →
        (∃ ps, r'.findDerivationsForParams O fn = .ok ps) →
        ∃ d ∈ r'.decls, d.iface = iface := by
  have hvisit : ∀ n, ∀ b ∈ order n, b ∈ r.bindings := fun n b hb => (hperm n).subset hb
  constructor
  · intro hlen
    exact deriveLoop_returns O order r hvisit 1002 0 r [] (deriveInv_fresh O r hfresh)
      (by simp; omega) (by simp; omega)
  · intro r' hret
    obtain ⟨derived', n, inv, hlast⟩ :=
      deriveLoop_some O order r hvisit 1002 0 r [] r' (deriveInv_fresh O r hfresh) hret
    refine ⟨inv.fields_eq, inv.bindings_eq, ?_⟩
    intro iface fn hmem ⟨ps, hps⟩
    rcases hlast (iface, fn) ((hperm n).symm.subset hmem) with hany | ⟨e, herr⟩
    · have hkey := mem_keys_of_any_true derived' iface hany
      rw [← inv.keys] at hkey
      obtain ⟨d, hd, hdk⟩ := List.mem_map.1 hkey
      exact ⟨d, hd, hdk⟩
    · rw [hps] at herr
      exact absurd herr (by simp)

theorem derive_fixpoint_complete_witness :
    demoResolver.decls = [] ∧
    demoResolver.deriveConstructorsForEachInterfaces demoOracle demoOrder = some demoDerived ∧
    ∃ d ∈ demoDerived.decls, d.iface = ⟨2, demoB⟩ :=
  ⟨by decide, by decide,
    (derive_fixpoint_complete demoOracle demoOrder demoResolver (by decide)
      (fun _ => List.Perm.refl _)).2 demoDerived (by decide) |>.2.2 ⟨2, demoB⟩ ⟨demoNewS⟩
      (by decide)
      ⟨[.field ⟨"cfg", 10⟩], rfl⟩⟩

/-- C2 (uniqueness).  For a bindings map (its keys are pairwise distinct) and a
resolver without declarations, when the derivation loop returns no two
declarations have the same interface, and every declaration is for a key of
the bindings map and wraps the function bound to that key. -/
theorem derive_unique (O : TypeOracle) (order : Nat → List (Iface × Func)) (r : Resolver)
    (hfresh : r.decls = []) (hperm : ∀ n, (order n).Perm r.bindings)
    (hmap : (r.bindings.map (fun b => b.1)).Nodup) (r' : Resolver)
    (hret : r.deriveConstructorsForEachInterfaces O order = some r') :
    (r'.decls.map (fun d => d.iface)).Nodup ∧
    ∀ d ∈ r'.decls, mapGet d.iface r.bindings = some d.fn := by
  have hvisit : ∀ n, ∀ b ∈ order n, b ∈ r.bindings := fun n b hb => (hperm n).subset hb
  obtain ⟨derived', n, inv, _⟩ :=
    deriveLoop_some O order r hvisit 1002 0 r [] r' (deriveInv_fresh O r hfresh) hret
  refine ⟨by rw [inv.keys]; exact inv.nodup, ?_⟩
  intro d hd
  exact mapGet_of_mem r.bindings d.iface d.fn hmap (inv.bound d hd).1

theorem derive_unique_witness :
    demoResolver.deriveConstructorsForEachInterfaces demoOracle demoOrderRev ≠ none ∧
    ((demoResolver.deriveConstructorsForEachInterfaces demoOracle demoOrderRev).getD
      demoResolver).decls.length = 2 ∧
    (((demoResolver.deriveConstructorsForEachInterfaces demoOracle demoOrderRev).getD
      demoResolver).decls.map (fun d => d.iface)).Nodup :=
  ⟨by decide, by decide,
    (derive_unique demoOracle demoOrderRev demoResolver (by decide)
      (fun _ => List.Perm.swap _ _ []) (by decide) _ (by decide)).1⟩

/-- C3 (no forward reference, no partial derivation).  When the derivation loop
returns on a resolver that had no declaration, the declaration at position `k`
holds one derivation for each parameter of its function, in parameter order;
the derivation of a parameter of type `t` is a field of the resolver that is
assignable to `t`, or points to the declaration at a position `j < k` whose
return type is identical to `t`.  So no declaration points to itself. -/
theorem derive_no_forward_reference (O : TypeOracle) (order : Nat → List (Iface × Func))
    (r : Resolver) (hfresh : r.decls = []) (hperm : ∀ n, (order n).Perm r.bindings)
    (r' : Resolver) (hret : r.deriveConstructorsForEachInterfaces O order = some r')
    (k : Nat) (d : PrivateFuncDecl) (hk : r'.decls[k]? = some d) :
    d.params.length = d.fn.Params.length ∧
    List.Forall₂
      (fun t p =>
        (∃ f, p = Derivation.field f ∧ f ∈ r.fields ∧ O.assignableTo f.typ t = true) ∨
        (∃ j g, p = Derivation.func j ∧ j < k ∧ r'.decls[j]? = some g ∧
          O.identical g.ReturnType t = true))
      d.fn.Params d.params ∧
    Derivation.func k ∉ d.params := by
  have hvisit : ∀ n, ∀ b ∈ order n, b ∈ r.bindings := fun n b hb => (hperm n).subset hb
  obtain ⟨derived', n, inv, _⟩ :=
    deriveLoop_some O order r hvisit 1002 0 r [] r' (deriveInv_fresh O r hfresh) hret
  have hall := inv.params k d hk
  rw [inv.fields_eq] at hall
  refine ⟨hall.length_eq.symm, hall, ?_⟩
  intro hmem
  obtain ⟨t, _, ht⟩ := forall₂_exists_left hall hmem
  rcases ht with ⟨f, hf, _⟩ | ⟨j, g, hj, hlt, _⟩
  · exact absurd hf (by simp)
  · have : k = j := by simpa using hj
    omega

theorem derive_no_forward_reference_witness :
    chainResolver.deriveConstructorsForEachInterfaces demoOracle
      (fun _ => chainResolver.bindings) = some chainDerived ∧
    chainDerived.decls[1]? = some ⟨⟨1, chainY⟩, ⟨chainNewY⟩, [.func 0], "app/container"⟩ ∧
    Derivation.func 1 ∉ [Derivation.func 0] :=
  ⟨by decide, by decide,
    (derive_no_forward_reference demoOracle (fun _ => chainResolver.bindings) chainResolver
      (by decide) (fun _ => List.Perm.refl _) chainDerived (by decide) 1
      ⟨⟨1, chainY⟩, ⟨chainNewY⟩, [.func 0], "app/container"⟩ (by decide)).2.2⟩

/-- C9 (derivation lookup precedence).  For a type `t` that is not empty,
`findDerivation` returns the field `f` exactly when `f` is the first field, in
declaration order, whose type is assignable to `t`, whatever the declarations
are; it returns the declaration at position `idx` exactly when no field is
assignable to `t` and that declaration is the first one whose return type is
identical to `t`; and it fails exactly when no field is assignable to `t` and
no declaration has a return type identical to `t`.  So a declaration whose
return type is not identical to `t` is never returned. -/
theorem findDerivation_precedence (O : TypeOracle) (w : Resolver) (t : GoType)
    (hne : O.isEmpty t = false) :
    (∀ f : FieldDecl, w.findDerivation O t = .ok (.field f) ↔
      ∃ i : Nat, w.fields[i]? = some f ∧ O.assignableTo f.typ t = true ∧
        ∀ j : Nat, j < i → ∀ g : FieldDecl, w.fields[j]? = some g →
          O.assignableTo g.typ t = false) ∧
    (∀ idx : Nat, w.findDerivation O t = .ok (.func idx) ↔
      (∀ f ∈ w.fields, O.assignableTo f.typ t = false) ∧
      ∃ d : PrivateFuncDecl, w.decls[idx]? = some d ∧ O.identical d.ReturnType t = true ∧
        ∀ j : Nat, j < idx → ∀ g : PrivateFuncDecl, w.decls[j]? = some g →
          O.identical g.ReturnType t = false) ∧
    ((∃ e, w.findDerivation O t = .error e) ↔
      (∀ f ∈ w.fields, O.assignableTo f.typ t = false) ∧
      ∀ d ∈ w.decls, O.identical d.ReturnType t = false) := by
  refine ⟨?_, ?_, ?_⟩
  · intro f
    rw [← findField_eq_some]
    constructor
    · intro h
      exact (findDerivation_ok_field O w t f h).2
    · intro h
      simp [Resolver.findDerivation, hne, h]
  · intro idx
    rw [← findField_eq_none]
    constructor
    · intro h
      obtain ⟨_, hf, hd⟩ := findDerivation_ok_func O w t idx h
      obtain ⟨k, d, hk, hdk, hid, hfirst⟩ := (findDecl_eq_some O t 0 w.decls idx).1 hd
      have hk : idx = k := by omega
      subst hk
      exact ⟨hf, d, hdk, hid, hfirst⟩
    · rintro ⟨hf, d, hdk, hid, hfirst⟩
      have hd : findDecl O t 0 w.decls = some idx :=
        (findDecl_eq_some O t 0 w.decls idx).2 ⟨idx, d, by omega, hdk, hid, hfirst⟩
      simp [Resolver.findDerivation, hne, hf, hd]
  · rw [← findField_eq_none, ← findDecl_eq_none O t 0]
    constructor
    · rintro ⟨e, h⟩
      rcases findDerivation_error O w t e h with hemp | hboth
      · rw [hne] at hemp
        exact absurd hemp (by decide)
      · exact hboth
    · rintro ⟨hf, hd⟩
      exact ⟨"no derivations found for " ++ O.typeNamePrefixedByImportPath t,
        by simp [Resolver.findDerivation, hne, hf, hd]⟩

theorem findDerivation_precedence_witness :
    demoOracle.isEmpty 1 = false ∧
    chainDerived.findDerivation demoOracle 1 = .ok (.func 0) :=
  ⟨by decide,
    ((findDerivation_precedence demoOracle chainDerived 1 (by decide)).2.1 0).2
      ⟨by decide, ⟨⟨0, chainX⟩, ⟨chainNewX⟩, [.field ⟨"cfg", 10⟩], "app/container"⟩,
        by decide, by decide, by decide⟩⟩

/-- C5 (ambiguous implementation).  For an interface of the catalogue that is
exported, has methods, is not excluded and has no resolve comment, when
`Implementations` returns two types or more `setupBindings` leaves the
interface without binding and returns an error made of the header naming the
interface followed by one line for each type of `Implementations`, in their
order: line `i` is the number `i` and the qualified name of type `i`. -/
theorem setupBindings_ambiguous_implementation (O : TypeOracle) (r : Resolver) (iface : Iface)
    (hmem : iface ∈ r.cache.Ifaces) (hex : iface.obj.IsExcluded = false)
    (hne : iface.Empty = false) (hexp : iface.obj.exported = true)
    (hres : iface.obj.IsResolve = false)
    (hamb : 2 ≤ (r.cache.Implementations O iface).length) :
    mapGet iface (r.setupBindings O).1.bindings = none ∧
    ∃ lines : List String,
      (implementationHeader iface ++ String.join lines) ∈ sliceElems (r.setupBindings O).2 ∧
      lines.length = (r.cache.Implementations O iface).length ∧
      ∀ (i : Nat) (t : GoType), (r.cache.Implementations O iface)[i]? = some t →
        lines[i]? = some ("\t" ++ toString i ++ ": " ++ O.qualifiedTypeName t ++ "\n") := by
  have hout : r.bindIface O iface = .fail (implementationHeader iface ++ String.join
      (candidateLines 0 ((r.cache.Implementations O iface).map O.qualifiedTypeName))) := by
    rw [bindIface_auto O r iface hex hne hexp hres]
    unfold Resolver.bindAuto
    cases himpl : r.cache.Implementations O iface with
    | nil => rw [himpl] at hamb; simp at hamb
    | cons a rest =>
      cases rest with
      | nil => rw [himpl] at hamb; simp at hamb
      | cons b rest => rfl
  refine ⟨?_, candidateLines 0 ((r.cache.Implementations O iface).map O.qualifiedTypeName),
    ?_, ?_, ?_⟩
  · rw [setupBindings_get, if_pos hmem, hout]
    rfl
  · rw [setupBindings_errs]
    exact List.mem_filterMap.2 ⟨iface, hmem, by rw [hout]; rfl⟩
  · rw [candidateLines_length, List.length_map]
  · intro i t ht
    have := candidateLines_getElem? 0 ((r.cache.Implementations O iface).map O.qualifiedTypeName)
      i (O.qualifiedTypeName t) (by rw [List.getElem?_map, ht]; rfl)
    rw [Nat.zero_add] at this
    exact this

theorem setupBindings_ambiguous_implementation_witness :
    (ambCache.Implementations ambOracle ⟨0, demoA⟩) = [3, 5] ∧
    mapGet ⟨0, demoA⟩ (ambResolver.setupBindings ambOracle).1.bindings = none :=
  ⟨by decide,
    (setupBindings_ambiguous_implementation ambOracle ambResolver ⟨0, demoA⟩ (by decide)
      (by decide) (by decide) (by decide) (by decide) (by decide)).1⟩

/-- C6 (override precedence).  For an interface of the catalogue that is
exported, has methods, is not excluded and whose resolve comment parses to
`(pkg, name)`: its binding is the function found by `cache.Get(pkg, name)`, if
one is found and is a function, and it has no binding otherwise; it adds an
error exactly when nothing is found or the object found is not a function;
the returned errors are those of the interfaces of the catalogue, one at most
for each; and the outcome does not depend on the type oracle, which is all
that decides the implementing types and the candidate constructors. -/
theorem setupBindings_resolve_override (O : TypeOracle) (r : Resolver) (iface : Iface)
    (pkg name : String) (hmem : iface ∈ r.cache.Ifaces) (hex : iface.obj.IsExcluded = false)
    (hne : iface.Empty = false) (hexp : iface.obj.exported = true)
    (hres : iface.obj.IsResolve = true)
    (hparse : iface.obj.ResolvedPkgAndFuncName = .ok (pkg, name)) :
    mapGet iface (r.setupBindings O).1.bindings = (r.cache.Get pkg name).bind Object.Func ∧
    (r.bindIface O iface).error? =
      (match r.cache.Get pkg name with
        | none => some (iface.obj.name ++ " does not found " ++ pkg ++ "." ++ name)
        | some obj =>
          match obj.Func with
          | none => some (pkg ++ "." ++ name ++ " is not a function: " ++ iface.obj.name)
          | some _ => none) ∧
    sliceElems (r.setupBindings O).2 =
      r.cache.Ifaces.filterMap (fun i => (r.bindIface O i).error?) ∧
    ∀ O' : TypeOracle, r.bindIface O' iface = r.bindIface O iface ∧
      mapGet iface (r.setupBindings O').1.bindings =
        mapGet iface (r.setupBindings O).1.bindings := by
  have hout : ∀ O' : TypeOracle, r.bindIface O' iface = r.bindResolve iface :=
    fun O' => bindIface_resolve O' r iface hex hne hexp hres
  refine ⟨?_, ?_, setupBindings_errs O r, ?_⟩
  · rw [setupBindings_get, if_pos hmem, hout O]
    cases hget : r.cache.Get pkg name with
    | none => simp [Resolver.bindResolve, hparse, hget, BindOutcome.func?]
    | some obj =>
      cases hfn : obj.Func with
      | none => simp [Resolver.bindResolve, hparse, hget, hfn, BindOutcome.func?]
      | some fn => simp [Resolver.bindResolve, hparse, hget, hfn, BindOutcome.func?]
  · rw [hout O]
    cases hget : r.cache.Get pkg name with
    | none => simp [Resolver.bindResolve, hparse, hget, BindOutcome.error?]
    | some obj =>
      cases hfn : obj.Func with
      | none => simp [Resolver.bindResolve, hparse, hget, hfn, BindOutcome.error?]
      | some fn => simp [Resolver.bindResolve, hparse, hget, hfn, BindOutcome.error?]
  · intro O'
    refine ⟨by rw [hout O', hout O], ?_⟩
    simp only [setupBindings_get, if_pos hmem, hout]

theorem setupBindings_resolve_override_witness :
    (overrideCache.Implementations ambOracle ⟨0, overrideA⟩) = [3, 5] ∧
    mapGet ⟨0, overrideA⟩ (overrideResolver.setupBindings ambOracle).1.bindings =
      some ⟨demoNewS⟩ :=
  ⟨by decide,
    (setupBindings_resolve_override ambOracle overrideResolver ⟨0, overrideA⟩ "app/repo" "NewS"
      (by decide) (by decide) (by decide) (by decide) (by decide) rfl).1⟩

/-- C10 (binding skip rules).  An interface that is excluded, or has no
method, or is not exported has no binding after `setupBindings`, and the
returned errors are exactly the errors of the other interfaces of the
catalogue; this holds whatever the other comments of the interface are and
whatever the oracle says of its implementations. -/
theorem setupBindings_skips (O : TypeOracle) (r : Resolver) (iface : Iface)
    (hskip : iface.obj.IsExcluded = true ∨ iface.Empty = true ∨ iface.obj.exported = false) :
    mapGet iface (r.setupBindings O).1.bindings = none ∧
    (∀ fn : Func, (iface, fn) ∉ (r.setupBindings O).1.bindings) ∧
    sliceElems (r.setupBindings O).2 =
      (r.cache.Ifaces.filter (fun i => decide (i ≠ iface))).filterMap
        (fun i => (r.bindIface O i).error?) := by
  have hout := bindIface_skip O r iface hskip
  have hget : mapGet iface (r.setupBindings O).1.bindings = none := by
    rw [setupBindings_get, hout]
    simp [BindOutcome.func?]
  refine ⟨hget, (mapGet_eq_none iface _).1 hget, ?_⟩
  rw [setupBindings_errs]
  exact filterMap_filter_ne _ iface _ (by rw [hout]; rfl)

theorem setupBindings_skips_witness :
    excludedA.IsResolve = true ∧
    (excludedCache.Implementations ambOracle ⟨0, excludedA⟩) = [3, 5] ∧
    sliceElems (excludedResolver.setupBindings ambOracle).2 =
      (excludedCache.Ifaces.filter (fun i => decide (i ≠ ⟨0, excludedA⟩))).filterMap
        (fun i => (excludedResolver.bindIface ambOracle i).error?) :=
  ⟨by decide, by decide,
    (setupBindings_skips ambOracle excludedResolver ⟨0, excludedA⟩
      (Or.inl (by decide))).2.2⟩

/-- C7 (must-resolve strictness).  The public resolution returns a non-empty
error list exactly when some function of the catalogue lies outside the
library package, satisfies `ShouldTryToResolve` and `MustBeResolved`, and has
a parameter for which `findDerivation` fails; the returned errors are, in
catalogue order, one for each such function, each wrapping the error of
`findDerivationsForParams`; when the list is not empty no declaration is
returned; and a function without `must_resolve` adds no error. -/
theorem resolveEach_must_resolve (O : TypeOracle) (r : Resolver) :
    (0 < sliceLen (r.resolveEachConstructorsPresumingDerivationIsDone O).2 ↔
      ∃ fn ∈ r.cache.Funcs, fn.obj.importPath ≠ r.library ∧ fn.ShouldTryToResolve = true ∧
        fn.MustBeResolved = true ∧
        ∃ t ∈ fn.Params, ∃ e, r.findDerivation O t = .error e) ∧
    List.Forall₂
      (fun fn e => ∃ err, r.findDerivationsForParams O fn = .error err ∧
        e = "unable to resolve " ++ fn.obj.importPath ++ "." ++ fn.obj.name ++
          ", which is marked as \x60must_resolve\x60: " ++ err)
      (r.cache.Funcs.filter (r.unresolvedRequired O))
      (sliceElems (r.resolveEachConstructorsPresumingDerivationIsDone O).2) ∧
    (0 < sliceLen (r.resolveEachConstructorsPresumingDerivationIsDone O).2 →
      (r.resolveEachConstructorsPresumingDerivationIsDone O).1 = none) ∧
    (∀ fn : Func, fn.MustBeResolved = false → (r.resolveFunc O fn).error? = none) := by
  have hall : List.Forall₂
      (fun fn e => ∃ err, r.findDerivationsForParams O fn = .error err ∧
        e = "unable to resolve " ++ fn.obj.importPath ++ "." ++ fn.obj.name ++
          ", which is marked as \x60must_resolve\x60: " ++ err)
      (r.cache.Funcs.filter (r.unresolvedRequired O))
      (sliceElems (r.resolveEachConstructorsPresumingDerivationIsDone O).2) := by
    rw [resolveEach_errs]
    apply forall₂_filter_filterMap
    · intro fn hfn
      obtain ⟨err, herr, hout⟩ := resolveFunc_error_of_required O r fn hfn
      exact ⟨_, hout, err, herr, rfl⟩
    · intro fn hfn
      exact resolveFunc_no_error O r fn hfn
  refine ⟨?_, hall, ?_, ?_⟩
  · rw [sliceLen_eq_length, ← hall.length_eq, List.length_pos]
    constructor
    · intro hne
      obtain ⟨fn, hfn⟩ := List.exists_mem_of_ne_nil _ hne
      obtain ⟨hmem, hreq⟩ := List.mem_filter.1 hfn
      exact ⟨fn, hmem, (unresolvedRequired_iff O r fn).1 hreq⟩
    · rintro ⟨fn, hmem, hreq⟩
      exact List.ne_nil_of_mem
        (List.mem_filter.2 ⟨hmem, (unresolvedRequired_iff O r fn).2 hreq⟩)
  · intro hpos
    rw [sliceLen_eq_length, resolveEach_errs] at hpos
    rw [resolveEach_eq, if_pos hpos]
  · intro fn hmust
    apply resolveFunc_no_error
    simp [Resolver.unresolvedRequired, hmust]

/-- The public resolution on a catalogue whose only constructor is marked
`must_resolve` and has a parameter without derivation: one error, and no
declaration. -/
theorem resolveEach_required_example :
    requiredResolver.unresolvedRequired demoOracle ⟨requiredNewService⟩ = true ∧
    sliceLen (requiredResolver.resolveEachConstructorsPresumingDerivationIsDone demoOracle).2
      = 1 ∧
    (requiredResolver.resolveEachConstructorsPresumingDerivationIsDone demoOracle).1 = none :=
  ⟨by decide, by decide, by decide⟩

/-- C8 (public declaration set).  When the public resolution returns no error,
it returns the declarations of the functions of the catalogue that are
exported, not excluded, have a parameter and a single result, lie outside the
library package and have a derivation for each parameter: one declaration
for each such function, in catalogue order, wrapping that function, whose
derivations are the results of `findDerivation` on the parameter types, in
parameter order.  No other function gets a declaration. -/
theorem resolveEach_public_decls (O : TypeOracle) (r : Resolver)
    (hok : sliceLen (r.resolveEachConstructorsPresumingDerivationIsDone O).2 = 0) :
    (∀ fn : Func, r.publiclyResolved O fn = true ↔
      fn.obj.exported = true ∧ fn.obj.IsExcluded = false ∧ 0 < fn.Params.length ∧
        fn.Results.length = 1 ∧ fn.obj.importPath ≠ r.library ∧
        ∀ t ∈ fn.Params, ∃ p, r.findDerivation O t = .ok p) ∧
    ∃ decls : List PublicFuncDecl,
      (r.resolveEachConstructorsPresumingDerivationIsDone O).1 = some decls ∧
      List.Forall₂
        (fun fn d => d.fn = fn ∧ d.library = r.library ∧
          List.Forall₂ (fun t p => r.findDerivation O t = .ok p) fn.Params d.params)
        (r.cache.Funcs.filter (r.publiclyResolved O)) decls := by
  refine ⟨publiclyResolved_iff O r, ?_⟩
  rw [sliceLen_eq_length, resolveEach_errs] at hok
  have hnot : ¬ (r.cache.Funcs.filterMap (fun fn => (r.resolveFunc O fn).error?)).length > 0 := by
    omega
  refine ⟨r.cache.Funcs.filterMap (fun fn => (r.resolveFunc O fn).decl?), ?_, ?_⟩
  · rw [resolveEach_eq, if_neg hnot]
  · apply forall₂_filter_filterMap
    · intro fn hfn
      obtain ⟨ps, hps, hout⟩ := resolveFunc_decl_of_resolved O r fn hfn
      exact ⟨_, hout, rfl, rfl, findDerivationsForParams_forall₂ O r fn ps hps⟩
    · intro fn hfn
      exact resolveFunc_no_decl O r fn hfn

theorem resolveEach_public_decls_witness :
    sliceLen (demoDerived.resolveEachConstructorsPresumingDerivationIsDone demoOracle).2 = 0 ∧
    demoDerived.cache.Funcs.filter (demoDerived.publiclyResolved demoOracle) =
      [⟨demoNewS⟩, ⟨demoNewService⟩] ∧
    ∃ decls : List PublicFuncDecl,
      (demoDerived.resolveEachConstructorsPresumingDerivationIsDone demoOracle).1 =
        some decls ∧
      List.Forall₂
        (fun fn d => d.fn = fn ∧ d.library = demoDerived.library ∧
          List.Forall₂ (fun t p => demoDerived.findDerivation demoOracle t = .ok p)
            fn.Params d.params)
        (demoDerived.cache.Funcs.filter (demoDerived.publiclyResolved demoOracle)) decls :=
  ⟨by decide, by decide,
    (resolveEach_public_decls demoOracle demoDerived (by decide)).2⟩

/-- C4 (determinism), evaluated on the small catalogue.  The two visiting
orders are orders of the same bindings map, `Resolve` succeeds for both, and
the two `Data` differ: the body of `ResolveNewService` calls `app_repo_A` for
one order and `app_repo_B` for the other. -/
theorem resolve_depends_on_visiting_order :
    (∀ n, (demoOrder n).Perm demoResolver.bindings) ∧
    (∀ n, (demoOrderRev n).Perm demoResolver.bindings) ∧
    Resolve demoOracle demoOrder demoCache "Container" "app/container" =
      some (some demoData, none, none) ∧
    Resolve demoOracle demoOrderRev demoCache "Container" "app/container" =
      some (some demoDataRev, none, none) ∧
    demoData ≠ demoDataRev :=
  ⟨fun _ => List.Perm.refl _, fun _ => List.Perm.swap _ _ [], by decide, by decide, by decide⟩

/-! ## Lemmas: the outcomes of the binding loop -/

theorem bindAuto_none (O : TypeOracle) (r : Resolver) (iface : Iface)
    (h : r.cache.Implementations O iface = []) : r.bindAuto O iface = .skip := by
  simp [Resolver.bindAuto, h]

theorem bindAuto_many (O : TypeOracle) (r : Resolver) (iface : Iface)
    (h : 2 ≤ (r.cache.Implementations O iface).length) :
    r.bindAuto O iface = .fail (implementationHeader iface ++ String.join
      (candidateLines 0 ((r.cache.Implementations O iface).map O.qualifiedTypeName))) := by
  unfold Resolver.bindAuto
  cases himpl : r.cache.Implementations O iface with
  | nil => rw [himpl] at h; simp at h
  | cons a rest =>
    cases rest with
    | nil => rw [himpl] at h; simp at h
    | cons b rest => rfl

theorem bindAuto_one_none (O : TypeOracle) (r : Resolver) (iface : Iface) (t : GoType)
    (h : r.cache.Implementations O iface = [t]) (hfns : r.bindableFuncs O t = []) :
    r.bindAuto O iface = .skip := by
  simp [Resolver.bindAuto, h, hfns]

theorem bindAuto_one_single (O : TypeOracle) (r : Resolver) (iface : Iface) (t : GoType)
    (fn : Func) (h : r.cache.Implementations O iface = [t])
    (hfns : r.bindableFuncs O t = [fn]) : r.bindAuto O iface = .bind fn := by
  simp [Resolver.bindAuto, h, hfns]

theorem bindAuto_one_many (O : TypeOracle) (r : Resolver) (iface : Iface) (t : GoType)
    (h : r.cache.Implementations O iface = [t]) (hfns : 2 ≤ (r.bindableFuncs O t).length) :
    r.bindAuto O iface = .fail (constructorHeader O iface t ++ String.join
      (candidateLines 0 ((r.bindableFuncs O t).map (fun fn => O.qualifiedTypeName fn.obj.typ)))) := by
  unfold Resolver.bindAuto
  rw [h]
  cases hb : r.bindableFuncs O t with
  | nil => rw [hb] at hfns; simp at hfns
  | cons a rest =>
    cases rest with
    | nil => rw [hb] at hfns; simp at hfns
    | cons b rest => simp only [hb]

/-- The outcomes of the automatic matching, by the number of implementations
and of candidate functions. -/
theorem bindAuto_cases (O : TypeOracle) (r : Resolver) (iface : Iface) :
    (r.cache.Implementations O iface = [] ∧ r.bindAuto O iface = .skip) ∨
    (2 ≤ (r.cache.Implementations O iface).length ∧ ∃ e, r.bindAuto O iface = .fail e) ∨
    (∃ t, r.cache.Implementations O iface = [t] ∧
      ((r.bindableFuncs O t = [] ∧ r.bindAuto O iface = .skip) ∨
       (∃ fn, r.bindableFuncs O t = [fn] ∧ r.bindAuto O iface = .bind fn) ∨
       (2 ≤ (r.bindableFuncs O t).length ∧ ∃ e, r.bindAuto O iface = .fail e))) := by
  cases himpl : r.cache.Implementations O iface with
  | nil => exact Or.inl ⟨rfl, bindAuto_none O r iface himpl⟩
  | cons t rest =>
    cases rest with
    | cons b rest =>
      refine Or.inr (Or.inl ⟨by simp, _, bindAuto_many O r iface (by rw [himpl]; simp)⟩)
    | nil =>
      refine Or.inr (Or.inr ⟨t, rfl, ?_⟩)
      cases hb : r.bindableFuncs O t with
      | nil => exact Or.inl ⟨rfl, bindAuto_one_none O r iface t himpl hb⟩
      | cons fn rest =>
        cases rest with
        | nil => exact Or.inr (Or.inl ⟨fn, rfl, bindAuto_one_single O r iface t fn himpl hb⟩)
        | cons b rest =>
          exact Or.inr (Or.inr ⟨by simp, _,
            bindAuto_one_many O r iface t himpl (by rw [hb]; simp)⟩)

/-- The outcomes of the branch for `provider:resolve`. -/
theorem bindResolve_cases (r : Resolver) (iface : Iface) :
    (∃ e, iface.obj.ResolvedPkgAndFuncName = .error e ∧ r.bindResolve iface = .fail e) ∨
    (∃ pkg name, iface.obj.ResolvedPkgAndFuncName = .ok (pkg, name) ∧
      ((r.cache.Get pkg name = none ∧ ∃ e, r.bindResolve iface = .fail e) ∨
       (∃ obj, r.cache.Get pkg name = some obj ∧ obj.Func = none ∧
          ∃ e, r.bindResolve iface = .fail e) ∨
       (∃ obj fn, r.cache.Get pkg name = some obj ∧ obj.Func = some fn ∧
          r.bindResolve iface = .bind fn))) := by
  cases hparse : iface.obj.ResolvedPkgAndFuncName with
  | error e => exact Or.inl ⟨e, rfl, by simp [Resolver.bindResolve, hparse]⟩
  | ok pn =>
    obtain ⟨pkg, name⟩ := pn
    refine Or.inr ⟨pkg, name, rfl, ?_⟩
    cases hget : r.cache.Get pkg name with
    | none => exact Or.inl ⟨rfl, by simp [Resolver.bindResolve, hparse, hget]⟩
    | some obj =>
      cases hfn : obj.Func with
      | none =>
        exact Or.inr (Or.inl ⟨obj, rfl, hfn, by simp [Resolver.bindResolve, hparse, hget, hfn]⟩)
      | some fn =>
        exact Or.inr (Or.inr ⟨obj, fn, rfl, hfn, by simp [Resolver.bindResolve, hparse, hget, hfn]⟩)

theorem bindIface_eligible_of_ne_skip (O : TypeOracle) (r : Resolver) (iface : Iface)
    (h : r.bindIface O iface ≠ .skip) :
    iface.obj.IsExcluded = false ∧ iface.Empty = false ∧ iface.obj.exported = true := by
  refine ⟨?_, ?_, ?_⟩
  · by_contra hc
    exact h (bindIface_skip O r iface (Or.inl (by simpa using hc)))
  · by_contra hc
    exact h (bindIface_skip O r iface (Or.inr (Or.inl (by simpa using hc))))
  · by_contra hc
    exact h (bindIface_skip O r iface (Or.inr (Or.inr (by simpa using hc))))

theorem bindIface_error_iff (O : TypeOracle) (r : Resolver) (i : Iface) :
    (∃ e, (r.bindIface O i).error? = some e) ↔
      i.obj.IsExcluded = false ∧ i.Empty = false ∧ i.obj.exported = true ∧
      ((i.obj.IsResolve = true ∧
          ((∃ e, i.obj.ResolvedPkgAndFuncName = .error e) ∨
           ∃ pkg name, i.obj.ResolvedPkgAndFuncName = .ok (pkg, name) ∧
             (r.cache.Get pkg name = none ∨
              ∃ obj, r.cache.Get pkg name = some obj ∧ obj.Func = none))) ∨
       (i.obj.IsResolve = false ∧
          (2 ≤ (r.cache.Implementations O i).length ∨
           ∃ t, r.cache.Implementations O i = [t] ∧ 2 ≤ (r.bindableFuncs O t).length))) := by
  constructor
  · rintro ⟨e, he⟩
    have hne : r.bindIface O i ≠ .skip := by
      intro hs
      rw [hs] at he
      simp [BindOutcome.error?] at he
    obtain ⟨hex, hemp, hexp⟩ := bindIface_eligible_of_ne_skip O r i hne
    refine ⟨hex, hemp, hexp, ?_⟩
    cases hres : i.obj.IsResolve with
    | true =>
      left
      refine ⟨rfl, ?_⟩
      rw [bindIface_resolve O r i hex hemp hexp hres] at he
      rcases bindResolve_cases r i with ⟨e', hp, _⟩ | ⟨pkg, name, hp, hcase⟩
      · exact Or.inl ⟨e', hp⟩
      · right
        refine ⟨pkg, name, hp, ?_⟩
        rcases hcase with ⟨hg, _⟩ | ⟨obj, hg, hf, _⟩ | ⟨obj, fn, _, _, hb⟩
        · exact Or.inl hg
        · exact Or.inr ⟨obj, hg, hf⟩
        · rw [hb] at he
          simp [BindOutcome.error?] at he
    | false =>
      right
      refine ⟨rfl, ?_⟩
      rw [bindIface_auto O r i hex hemp hexp hres] at he
      rcases bindAuto_cases O r i with ⟨_, hb⟩ | ⟨hmany, _⟩ | ⟨t, ht, hcase⟩
      · rw [hb] at he
        simp [BindOutcome.error?] at he
      · exact Or.inl hmany
      · right
        refine ⟨t, ht, ?_⟩
        rcases hcase with ⟨_, hb⟩ | ⟨fn, _, hb⟩ | ⟨hmany, _⟩
        · rw [hb] at he
          simp [BindOutcome.error?] at he
        · rw [hb] at he
          simp [BindOutcome.error?] at he
        · exact hmany
  · rintro ⟨hex, hemp, hexp, hcase⟩
    rcases hcase with ⟨hres, hcase⟩ | ⟨hres, hcase⟩
    · rw [bindIface_resolve O r i hex hemp hexp hres]
      rcases bindResolve_cases r i with ⟨e', _, hb⟩ | ⟨pkg, name, hp, hc⟩
      · exact ⟨e', by rw [hb]; rfl⟩
      · rcases hc with ⟨_, e', hb⟩ | ⟨_, _, _, e', hb⟩ | ⟨obj, fn, hg, hf, _⟩
        · exact ⟨e', by rw [hb]; rfl⟩
        · exact ⟨e', by rw [hb]; rfl⟩
        · rcases hcase with ⟨e', he'⟩ | ⟨pkg', name', hp', hc'⟩
          · rw [hp] at he'
            exact absurd he' (by simp)
          · rw [hp] at hp'
            have hpn : pkg = pkg' ∧ name = name' := by simpa using hp'
            rw [← hpn.1, ← hpn.2] at hc'
            rcases hc' with hn | ⟨obj', hg', hf'⟩
            · rw [hg] at hn
              exact absurd hn (by simp)
            · rw [hg] at hg'
              have : obj = obj' := by simpa using hg'
              rw [← this, hf] at hf'
              exact absurd hf' (by simp)
    · rw [bindIface_auto O r i hex hemp hexp hres]
      rcases hcase with hmany | ⟨t, ht, hmany⟩
      · exact ⟨_, by rw [bindAuto_many O r i hmany]; rfl⟩
      · exact ⟨_, by rw [bindAuto_one_many O r i t ht hmany]; rfl⟩

theorem mem_keys_mapInsert {α β : Type} [DecidableEq α] (k : α) (v : β) (m : List (α × β))
    (x : α) (hx : x ∈ (mapInsert k v m).map (fun e => e.1)) :
    x = k ∨ x ∈ m.map (fun e => e.1) := by
  induction m with
  | nil => left; simpa [mapInsert] using hx
  | cons e rest ih =>
    unfold mapInsert at hx
    by_cases h : e.1 = k
    · rw [if_pos h] at hx
      rcases List.mem_cons.1 hx with hx | hx
      · exact Or.inl hx
      · exact Or.inr (List.mem_cons_of_mem _ hx)
    · rw [if_neg h] at hx
      rcases List.mem_cons.1 hx with hx | hx
      · right; rw [hx]; exact List.mem_cons_self _ _
      · rcases ih hx with hk | hm
        · exact Or.inl hk
        · exact Or.inr (List.mem_cons_of_mem _ hm)

theorem mapInsert_keys_nodup {α β : Type} [DecidableEq α] (k : α) (v : β) (m : List (α × β))
    (h : (m.map (fun e => e.1)).Nodup) : ((mapInsert k v m).map (fun e => e.1)).Nodup := by
  induction m with
  | nil => simp [mapInsert]
  | cons e rest ih =>
    rw [List.map_cons, List.nodup_cons] at h
    unfold mapInsert
    by_cases hk : e.1 = k
    · rw [if_pos hk, List.map_cons, List.nodup_cons]
      exact ⟨hk ▸ h.1, h.2⟩
    · rw [if_neg hk, List.map_cons, List.nodup_cons]
      refine ⟨?_, ih h.2⟩
      intro hmem
      rcases mem_keys_mapInsert k v rest e.1 hmem with hx | hx
      · exact hk hx
      · exact h.1 hx

theorem foldl_setupBody_keys_nodup (O : TypeOracle) (r : Resolver) (l : List Iface)
    (st : List (Iface × Func) × List String) (h : (st.1.map (fun e => e.1)).Nodup) :
    ((l.foldl (r.setupBody O) st).1.map (fun e => e.1)).Nodup := by
  induction l generalizing st with
  | nil => exact h
  | cons i rest ih =>
    rw [List.foldl_cons]
    apply ih
    unfold Resolver.setupBody
    cases r.bindIface O i with
    | skip => exact h
    | bind fn => exact mapInsert_keys_nodup i fn st.1 h
    | fail err => exact h

theorem bindableFuncs_eq (O : TypeOracle) (r : Resolver) (t : GoType)
    (ht : O.isEmpty t = false) :
    r.bindableFuncs O t =
      r.cache.Funcs.filter (fun f => f.IsBindable && O.identical (f.Results.headD 0) t) := by
  simp [Resolver.bindableFuncs, ht]

theorem bindableFuncs_of_empty (O : TypeOracle) (r : Resolver) (t : GoType)
    (ht : O.isEmpty t = true) : r.bindableFuncs O t = [] := by
  simp [Resolver.bindableFuncs, ht]

theorem isBindable_iff (fn : Func) :
    fn.IsBindable = true ↔
      fn.Results.length = 1 ∧ (fn.Params ≠ [] ∨ fn.obj.IsMarkedAsBindable = true) := by
  unfold Func.IsBindable
  by_cases hres : fn.Results.length = 1
  · by_cases hpar : fn.Params = []
    · simp [hres, hpar]
    · have : fn.Params.length ≠ 0 := fun h => hpar (List.length_eq_zero.1 h)
      simp [hres, hpar, this]
  · simp [hres]

/-! ## The claims on the construction of the bindings -/

/-- C11 (binding errors are accumulated).  The errors returned by
`setupBindings` are the errors of the interfaces of the catalogue, one at most
for each, in catalogue order; the result is `nil` exactly when no interface
has an error; every interface of the catalogue gets the binding that the loop
body decides for it, whatever happened to the interfaces before it; and an
interface has an error exactly when it is eligible and its resolve comment is
malformed, or names nothing, or names an object that is not a function, or,
without resolve comment, it has two implementations or more, or a single one
with two candidate functions or more. -/
theorem setupBindings_errors_accumulate (O : TypeOracle) (r : Resolver) :
    sliceElems (r.setupBindings O).2 =
      r.cache.Ifaces.filterMap (fun i => (r.bindIface O i).error?) ∧
    ((r.setupBindings O).2 = none ↔
      ∀ i ∈ r.cache.Ifaces, (r.bindIface O i).error? = none) ∧
    (∀ i ∈ r.cache.Ifaces,
      mapGet i (r.setupBindings O).1.bindings = (r.bindIface O i).func?) ∧
    (∀ i : Iface, (∃ e, (r.bindIface O i).error? = some e) ↔
      i.obj.IsExcluded = false ∧ i.Empty = false ∧ i.obj.exported = true ∧
      ((i.obj.IsResolve = true ∧
          ((∃ e, i.obj.ResolvedPkgAndFuncName = .error e) ∨
           ∃ pkg name, i.obj.ResolvedPkgAndFuncName = .ok (pkg, name) ∧
             (r.cache.Get pkg name = none ∨
              ∃ obj, r.cache.Get pkg name = some obj ∧ obj.Func = none))) ∨
       (i.obj.IsResolve = false ∧
          (2 ≤ (r.cache.Implementations O i).length ∨
           ∃ t, r.cache.Implementations O i = [t] ∧
             2 ≤ (r.bindableFuncs O t).length)))) := by
  refine ⟨setupBindings_errs O r, ?_, ?_, bindIface_error_iff O r⟩
  · have herrs := setupBindings_errs O r
    constructor
    · intro hnil i hi
      rw [hnil] at herrs
      cases he : (r.bindIface O i).error? with
      | none => rfl
      | some e =>
        have : e ∈ r.cache.Ifaces.filterMap (fun i => (r.bindIface O i).error?) :=
          List.mem_filterMap.2 ⟨i, hi, he⟩
        rw [← herrs] at this
        simp [sliceElems] at this
    · intro hall
      have hnil : r.cache.Ifaces.filterMap (fun i => (r.bindIface O i).error?) = [] := by
        rw [List.filterMap_eq_nil_iff]
        exact hall
      have h := foldl_setupBody_errs O r r.cache.Ifaces ([], [])
      simp only [List.nil_append, hnil] at h
      unfold Resolver.setupBindings
      simp [h]
  · intro i hi
    rw [setupBindings_get, if_pos hi]

/-- The run of `setupBindings` on a catalogue whose first interface is
ambiguous and whose second interface has one implementation and one
constructor: one error, and the second interface is bound. -/
theorem setupBindings_accumulate_example :
    sliceLen ((catalogueResolver [demoA, overrideA, demoS, ambS2, demoNewS]).setupBindings
      ambOracle).2 = 1 ∧
    mapGet ⟨1, overrideA⟩
      ((catalogueResolver [demoA, overrideA, demoS, ambS2, demoNewS]).setupBindings
        ambOracle).1.bindings = some ⟨demoNewS⟩ :=
  ⟨by decide, by decide⟩

/-- C12 (binding invariant).  After `setupBindings` the keys of the bindings map
are pairwise distinct; and an interface without resolve comment that is bound
to `fn` has exactly one implementing type `T`, the functions of the catalogue
that are bindable with a result type identical to `T` are `fn` and no other,
and `T` is not an empty type. -/
theorem setupBindings_binding_invariant (O : TypeOracle) (r : Resolver) (iface : Iface)
    (fn : Func) (hbound : mapGet iface (r.setupBindings O).1.bindings = some fn)
    (hres : iface.obj.IsResolve = false) :
    ((r.setupBindings O).1.bindings.map (fun b => b.1)).Nodup ∧
    ∃ T, r.cache.Implementations O iface = [T] ∧ O.isEmpty T = false ∧
      r.cache.Funcs.filter
        (fun f => f.IsBindable && O.identical (f.Results.headD 0) T) = [fn] := by
  refine ⟨foldl_setupBody_keys_nodup O r r.cache.Ifaces ([], []) (by simp), ?_⟩
  rw [setupBindings_get] at hbound
  by_cases hmem : iface ∈ r.cache.Ifaces
  · rw [if_pos hmem] at hbound
    have hne : r.bindIface O iface ≠ .skip := by
      intro hs
      rw [hs] at hbound
      simp [BindOutcome.func?] at hbound
    obtain ⟨hex, hemp, hexp⟩ := bindIface_eligible_of_ne_skip O r iface hne
    rw [bindIface_auto O r iface hex hemp hexp hres] at hbound
    rcases bindAuto_cases O r iface with ⟨_, hb⟩ | ⟨_, e, hb⟩ | ⟨T, hT, hcase⟩
    · rw [hb] at hbound; simp [BindOutcome.func?] at hbound
    · rw [hb] at hbound; simp [BindOutcome.func?] at hbound
    · rcases hcase with ⟨_, hb⟩ | ⟨fn', hfns, hb⟩ | ⟨_, e, hb⟩
      · rw [hb] at hbound; simp [BindOutcome.func?] at hbound
      · rw [hb] at hbound
        have hfn : fn' = fn := by simpa [BindOutcome.func?] using hbound
        subst hfn
        have hempty : O.isEmpty T = false := by
          cases he : O.isEmpty T with
          | false => rfl
          | true =>
            rw [bindableFuncs_of_empty O r T he] at hfns
            exact absurd hfns (by simp)
        exact ⟨T, hT, hempty, by rw [← bindableFuncs_eq O r T hempty]; exact hfns⟩
      · rw [hb] at hbound; simp [BindOutcome.func?] at hbound
  · rw [if_neg hmem] at hbound
    exact absurd hbound (by simp)

theorem setupBindings_binding_invariant_witness :
    mapGet ⟨1, demoA⟩ (demoResolver.setupBindings demoOracle).1.bindings = some ⟨demoNewS⟩ ∧
    ∃ T, demoCache.Implementations demoOracle ⟨1, demoA⟩ = [T] ∧
      demoOracle.isEmpty T = false ∧
      demoCache.Funcs.filter
        (fun f => f.IsBindable && demoOracle.identical (f.Results.headD 0) T) = [⟨demoNewS⟩] :=
  ⟨by decide,
    (setupBindings_binding_invariant demoOracle demoResolver ⟨1, demoA⟩ ⟨demoNewS⟩
      (by decide) (by decide)).2⟩

/-- C13 (ambiguous constructor).  For an eligible interface of the catalogue
without resolve comment whose single implementing type `T` is not an empty
type (no struct type and no pointer is one for `parser.IsEmpty`), the
candidate functions are the bindable functions of the catalogue whose result
type is identical to `T`.  With two candidates or more the interface gets no
binding and `setupBindings` returns an error made of the header naming the
interface and `T`, followed by one numbered line for each candidate, in
catalogue order; with no candidate the interface gets no binding and no
error. -/
theorem setupBindings_ambiguous_constructor (O : TypeOracle) (r : Resolver) (iface : Iface)
    (T : GoType) (hmem : iface ∈ r.cache.Ifaces) (hex : iface.obj.IsExcluded = false)
    (hne : iface.Empty = false) (hexp : iface.obj.exported = true)
    (hres : iface.obj.IsResolve = false) (himpl : r.cache.Implementations O iface = [T])
    (hT : O.isEmpty T = false) :
    r.bindableFuncs O T =
      r.cache.Funcs.filter (fun f => f.IsBindable && O.identical (f.Results.headD 0) T) ∧
    (2 ≤ (r.bindableFuncs O T).length →
      mapGet iface (r.setupBindings O).1.bindings = none ∧
      ∃ lines : List String,
        (constructorHeader O iface T ++ String.join lines) ∈
          sliceElems (r.setupBindings O).2 ∧
        lines.length = (r.bindableFuncs O T).length ∧
        ∀ (i : Nat) (fn : Func), (r.bindableFuncs O T)[i]? = some fn →
          lines[i]? =
            some ("\t" ++ toString i ++ ": " ++ O.qualifiedTypeName fn.obj.typ ++ "\n")) ∧
    (r.bindableFuncs O T = [] →
      mapGet iface (r.setupBindings O).1.bindings = none ∧ r.bindIface O iface = .skip) := by
  refine ⟨bindableFuncs_eq O r T hT, ?_, ?_⟩
  · intro hmany
    have hout := bindAuto_one_many O r iface T himpl hmany
    rw [← bindIface_auto O r iface hex hne hexp hres] at hout
    refine ⟨?_, candidateLines 0
      ((r.bindableFuncs O T).map (fun fn => O.qualifiedTypeName fn.obj.typ)), ?_, ?_, ?_⟩
    · rw [setupBindings_get, if_pos hmem, hout]
      rfl
    · rw [setupBindings_errs]
      exact List.mem_filterMap.2 ⟨iface, hmem, by rw [hout]; rfl⟩
    · rw [candidateLines_length, List.length_map]
    · intro i fn hfn
      have := candidateLines_getElem? 0
        ((r.bindableFuncs O T).map (fun fn => O.qualifiedTypeName fn.obj.typ)) i
        (O.qualifiedTypeName fn.obj.typ) (by rw [List.getElem?_map, hfn]; rfl)
      rw [Nat.zero_add] at this
      exact this
  · intro hnone
    have hout := bindAuto_one_none O r iface T himpl hnone
    rw [← bindIface_auto O r iface hex hne hexp hres] at hout
    refine ⟨?_, hout⟩
    rw [setupBindings_get, if_pos hmem, hout]
    rfl

theorem setupBindings_ambiguous_constructor_witness :
    (catalogueResolver [demoA, demoS, demoNewS, altNewS]).bindableFuncs demoOracle 3 =
      [⟨demoNewS⟩, ⟨altNewS⟩] ∧
    mapGet ⟨0, demoA⟩
      ((catalogueResolver [demoA, demoS, demoNewS, altNewS]).setupBindings
        demoOracle).1.bindings = none :=
  ⟨by decide,
    ((setupBindings_ambiguous_constructor demoOracle
      (catalogueResolver [demoA, demoS, demoNewS, altNewS]) ⟨0, demoA⟩ 3 (by decide)
      (by decide) (by decide) (by decide) (by decide) (by decide) (by decide)).2.1
      (by decide)).1⟩

/-- C14 (single result), evaluated on a catalogue where the interface `A` has
the comment `provider:resolve NewPair` and `NewPair` has two results:
`setupBindings` binds `A` to `NewPair`, and `Resolver.Resolve` returns a
private declaration that wraps it. -/
theorem override_binds_function_with_two_results :
    mapGet ⟨0, pairA⟩
      ((catalogueResolver [pairA, demoS, pairNewS]).setupBindings demoOracle).1.bindings =
        some ⟨pairNewS⟩ ∧
    (⟨pairNewS⟩ : Func).Results.length = 2 ∧
    ((catalogueResolver [pairA, demoS, pairNewS]).Resolve demoOracle
        (fun _ => [(⟨0, pairA⟩, ⟨pairNewS⟩)])).map (fun x => x.2) =
      some (some [FuncDecl.priv
        ⟨⟨0, pairA⟩, ⟨pairNewS⟩, [.field ⟨"cfg", 10⟩], "app/container"⟩], none) :=
  ⟨by decide, by decide, by decide⟩

set_option maxRecDepth 100000 in
/-- C15 (exclusion of constructors), evaluated on a catalogue where `S`, the
only implementation of `A`, has the two constructors `NewS` and `AltNewS`
and `AltNewS` is annotated `provider:exclude`: the excluded function is
collected as a candidate, `A` gets no binding, and the error of the ambiguous
constructor is returned, with a line for each of the two functions. -/
theorem excluded_constructor_is_candidate :
    excludedNewS.IsExcluded = true ∧
    (catalogueResolver [demoA, demoS, demoNewS, excludedNewS]).bindableFuncs demoOracle 3 =
      [⟨demoNewS⟩, ⟨excludedNewS⟩] ∧
    mapGet ⟨0, demoA⟩
      ((catalogueResolver [demoA, demoS, demoNewS, excludedNewS]).setupBindings
        demoOracle).1.bindings = none ∧
    sliceElems ((catalogueResolver [demoA, demoS, demoNewS, excludedNewS]).setupBindings
        demoOracle).2 =
      [constructorHeader demoOracle ⟨0, demoA⟩ 3 ++ "\t0: T\n" ++ "\t1: T\n"] :=
  ⟨by decide, by decide, by decide, by decide⟩

/-- C16 (bindable functions) fails for a function without parameter: on the
catalogue of `A`, its implementation `S` and `MakeS() S`, the function has
one result, identical to `S`, and no parameter, yet it is not a candidate and
`A` gets no binding. -/
theorem zero_param_function_not_candidate :
    (⟨zeroNewS⟩ : Func) ∈ (catalogueResolver [demoA, demoS, zeroNewS]).cache.Funcs ∧
    (⟨zeroNewS⟩ : Func).Results = [3] ∧ demoOracle.identical 3 3 = true ∧
    (⟨zeroNewS⟩ : Func).Params = [] ∧
    (catalogueResolver [demoA, demoS, zeroNewS]).cache.Implementations demoOracle
      ⟨0, demoA⟩ = [3] ∧
    (⟨zeroNewS⟩ : Func) ∉
      (catalogueResolver [demoA, demoS, zeroNewS]).bindableFuncs demoOracle 3 ∧
    mapGet ⟨0, demoA⟩
      ((catalogueResolver [demoA, demoS, zeroNewS]).setupBindings demoOracle).1.bindings =
        none :=
  ⟨by decide, by decide, by decide, by decide, by decide, by decide, by decide⟩

/-- C16, amended.  For an implementing type `T` that is not an empty type, a
function is a candidate of the automatic matching exactly when it is a
function of the catalogue with a single result, identical to `T`, and it has
a parameter or is annotated `provider:include`.  So a function without
parameter is a candidate only when it is annotated `provider:include`, and a
function with no result or several results is never a candidate. -/
theorem bindableFuncs_candidates (O : TypeOracle) (r : Resolver) (T : GoType) (fn : Func)
    (hT : O.isEmpty T = false) :
    (fn ∈ r.bindableFuncs O T ↔
      fn ∈ r.cache.Funcs ∧ (∃ res, fn.Results = [res] ∧ O.identical res T = true) ∧
        (fn.Params ≠ [] ∨ fn.obj.IsMarkedAsBindable = true)) ∧
    (fn.Params = [] → fn.obj.IsMarkedAsBindable = false → fn ∉ r.bindableFuncs O T) ∧
    (fn.Results.length ≠ 1 → fn ∉ r.bindableFuncs O T) := by
  have hiff : fn ∈ r.bindableFuncs O T ↔
      fn ∈ r.cache.Funcs ∧ (∃ res, fn.Results = [res] ∧ O.identical res T = true) ∧
        (fn.Params ≠ [] ∨ fn.obj.IsMarkedAsBindable = true) := by
    rw [bindableFuncs_eq O r T hT, List.mem_filter, Bool.and_eq_true, isBindable_iff]
    constructor
    · rintro ⟨hmem, ⟨hlen, hpar⟩, hid⟩
      obtain ⟨res, hres⟩ := List.length_eq_one.1 hlen
      refine ⟨hmem, ⟨res, hres, ?_⟩, hpar⟩
      rw [hres] at hid
      exact hid
    · rintro ⟨hmem, ⟨res, hres, hid⟩, hpar⟩
      refine ⟨hmem, ⟨by rw [hres]; rfl, hpar⟩, ?_⟩
      rw [hres]
      exact hid
  refine ⟨hiff, ?_, ?_⟩
  · intro hpar hinc hmem
    rcases (hiff.1 hmem).2.2 with h | h
    · exact h hpar
    · rw [hinc] at h
      exact absurd h (by decide)
  · intro hlen hmem
    obtain ⟨res, hres, _⟩ := (hiff.1 hmem).2.1
    rw [hres] at hlen
    exact hlen rfl

theorem bindableFuncs_candidates_witness :
    demoOracle.isEmpty 3 = false ∧
    (⟨includedNewS⟩ : Func).Params = [] ∧
    (⟨includedNewS⟩ : Func) ∈
      (catalogueResolver [demoA, demoS, includedNewS]).bindableFuncs demoOracle 3 :=
  ⟨by decide, by decide,
    ((bindableFuncs_candidates demoOracle (catalogueResolver [demoA, demoS, includedNewS]) 3
      ⟨includedNewS⟩ (by decide)).1).2
      ⟨by decide, ⟨3, by decide, by decide⟩, Or.inr (by decide)⟩⟩

/-! ## Lemmas: the number of rounds -/

theorem deriveInv_decls_length (O : TypeOracle) (r0 r : Resolver)
    (derived : List (Iface × PrivateFuncDecl)) (inv : DeriveInv O r0 r derived) :
    r.decls.length = derived.length := by
  have := congrArg List.length inv.keys
  simpa using this

/-- The loop without guard, started between two rounds of a run on `r0`:
with more fuel than bindings left to derive it stops, at a round `k - 1`
that derives nothing; every round before it adds a declaration; and the
guarded loop returns the same resolver when `k ≤ 1001` and panics otherwise. -/
theorem deriveLoopFree_spec (O : TypeOracle) (order : Nat → List (Iface × Func))
    (r0 : Resolver) (hvisit : ∀ n, ∀ b ∈ order n, b ∈ r0.bindings) :
    ∀ (fuel loop : Nat) (r : Resolver) (derived : List (Iface × PrivateFuncDecl)),
      DeriveInv O r0 r derived → r0.bindings.length - derived.length < fuel →
      ∃ (r' : Resolver) (k : Nat), deriveLoopFree O order fuel loop r derived = some (r', k) ∧
        loop < k ∧ k + derived.length ≤ loop + 1 + r'.decls.length ∧
        r'.decls.length ≤ r0.bindings.length ∧
        (r'.decls.map (fun d => d.iface)).Nodup ∧
        (∃ derived', deriveRound O r' derived' (order (k - 1)) =
          { r := r', derived := derived', numDerived := 0 }) ∧
        ∀ fuel' : Nat, 1002 ≤ fuel' + loop →
          deriveLoop O order fuel' loop r derived = if k ≤ 1001 then some r' else none := by
  intro fuel
  induction fuel with
  | zero => intro loop r derived _ h; exact absurd h (Nat.not_lt_zero _)
  | succ fuel ih =>
    intro loop r derived inv hfuel
    have inv' := foldl_deriveBody_inv O r0 (order loop) (hvisit loop)
      { r := r, derived := derived, numDerived := 0 } inv
    have hlen := foldl_deriveBody_length O (order loop)
      { r := r, derived := derived, numDerived := 0 }
    have hbound := deriveInv_length_le O r0 _ _ inv'
    have hround : deriveRound O r derived (order loop) =
        (order loop).foldl (deriveBody O) { r := r, derived := derived, numDerived := 0 } := rfl
    simp only at hlen
    unfold deriveLoopFree
    by_cases hzero : (deriveRound O r derived (order loop)).numDerived = 0
    · have hun := foldl_deriveBody_unchanged O (order loop)
        { r := r, derived := derived, numDerived := 0 } hzero
      have hst : deriveRound O r derived (order loop) =
          { r := r, derived := derived, numDerived := 0 } := by rw [hround, hun.1]
      refine ⟨r, loop + 1, by simp [hst], Nat.lt_succ_self _, ?_, ?_, ?_, ?_, ?_⟩
      · rw [deriveInv_decls_length O r0 r derived inv]
      · rw [deriveInv_decls_length O r0 r derived inv]
        exact deriveInv_length_le O r0 r derived inv
      · rw [inv.keys]; exact inv.nodup
      · exact ⟨derived, by simpa using hst⟩
      · intro fuel' hf
        cases fuel' with
        | zero =>
          have : ¬ loop + 1 ≤ 1001 := by omega
          simp [deriveLoop, this]
        | succ fuel' =>
          unfold deriveLoop
          by_cases hcap : loop > 1000
          · have : ¬ loop + 1 ≤ 1001 := by omega
            simp [hcap, this]
          · have : loop + 1 ≤ 1001 := by omega
            simp [hcap, this, hst]
    · have hzero' : ((order loop).foldl (deriveBody O)
          { r := r, derived := derived, numDerived := 0 }).numDerived ≠ 0 := hzero
      obtain ⟨r', k, hret, hk, hcount, hle, hnodup, hlast, hcapped⟩ :=
        ih (loop + 1) _ _ inv' (by omega)
      refine ⟨r', k, by simp only [hzero, if_false]; exact hret, by omega, by omega, hle,
        hnodup, hlast, ?_⟩
      intro fuel' hf
      cases fuel' with
      | zero =>
        have : ¬ k ≤ 1001 := by omega
        simp [deriveLoop, this]
      | succ fuel' =>
        unfold deriveLoop
        by_cases hcap : loop > 1000
        · have : ¬ k ≤ 1001 := by omega
          simp [hcap, this]
        · simp only [hcap, if_false, hzero]
          exact hcapped fuel' (by omega)

/-! ## Lemmas: the long chain -/

theorem longDecls_length (k : Nat) : (longDecls k).length = k := by
  induction k with
  | zero => rfl
  | succ k ih => simp [longDecls, ih]

theorem longDecls_getElem? (k j : Nat) (h : j < k) : (longDecls k)[j]? = some (longDecl j) := by
  induction k with
  | zero => exact absurd h (Nat.not_lt_zero j)
  | succ k ih =>
    unfold longDecls
    by_cases hj : j < k
    · rw [List.getElem?_append_left (by rw [longDecls_length]; exact hj)]
      exact ih hj
    · have hjk : j = k := by omega
      subst hjk
      rw [List.getElem?_append_right (by rw [longDecls_length])]
      simp [longDecls_length]

theorem mem_longDecls (k : Nat) (d : PrivateFuncDecl) (h : d ∈ longDecls k) :
    ∃ j, j < k ∧ d = longDecl j := by
  induction k with
  | zero => simp [longDecls] at h
  | succ k ih =>
    unfold longDecls at h
    rcases List.mem_append.1 h with h | h
    · obtain ⟨j, hj, hd⟩ := ih h
      exact ⟨j, Nat.lt_succ_of_lt hj, hd⟩
    · exact ⟨k, Nat.lt_succ_self k, by simpa using h⟩

theorem longIface_injective (i j : Nat) (h : longIface i = longIface j) : i = j := by
  have := congrArg Iface.ptr h
  simpa [longIface] using this

theorem longDerived_any (k i : Nat) :
    (longDerived k).any (fun e => e.1 = longIface i) = decide (i < k) := by
  induction k with
  | zero => simp [longDerived]
  | succ k ih =>
    unfold longDerived
    rw [List.any_append, ih]
    by_cases hik : i = k
    · subst hik
      simp
    · have hne : ¬ longIface k = longIface i := fun h => hik (longIface_injective k i h).symm
      by_cases hlt : i < k
      · have : i < k + 1 := by omega
        simp [hlt, this]
      · have : ¬ i < k + 1 := by omega
        simp [hlt, this, hne]

theorem long_findDerivation_zero (n k : Nat) :
    (longState n k).findDerivation demoOracle 0 = .ok (.field ⟨"cfg", 0⟩) := by
  simp [Resolver.findDerivation, longState, longResolver, findField, demoOracle]

theorem long_findDerivation_succ (n k j : Nat) (h : j < k) :
    (longState n k).findDerivation demoOracle (j + 1) = .ok (.func j) := by
  have hfield : findField demoOracle (j + 1) (longState n k).fields = none := by
    simp [longState, longResolver, findField, demoOracle]
  have hdecl : findDecl demoOracle (j + 1) 0 (longState n k).decls = some j := by
    rw [findDecl_eq_some]
    refine ⟨j, longDecl j, by omega, longDecls_getElem? k j h, ?_, ?_⟩
    · simp [longDecl, longIface, PrivateFuncDecl.ReturnType, demoOracle]
    · intro i hi g hg
      have hik : i < k := by omega
      have hg' : (longDecls k)[i]? = some g := hg
      rw [longDecls_getElem? k i hik] at hg'
      have : longDecl i = g := by simpa using hg'
      subst this
      simp [longDecl, longIface, PrivateFuncDecl.ReturnType, demoOracle]
      omega
  have hempty : demoOracle.isEmpty (j + 1) = false := rfl
  simp [Resolver.findDerivation, hempty, hfield, hdecl]

theorem long_findDerivation_error (n k j : Nat) (h : k ≤ j) :
    ∃ e, (longState n k).findDerivation demoOracle (j + 1) = .error e := by
  have hfield : findField demoOracle (j + 1) (longState n k).fields = none := by
    simp [longState, longResolver, findField, demoOracle]
  have hdecl : findDecl demoOracle (j + 1) 0 (longState n k).decls = none := by
    rw [findDecl_eq_none]
    intro d hd
    obtain ⟨i, hi, hdi⟩ := mem_longDecls k d hd
    subst hdi
    simp [longDecl, longIface, PrivateFuncDecl.ReturnType, demoOracle]
    omega
  have hempty : demoOracle.isEmpty (j + 1) = false := rfl
  exact ⟨_, by simp [Resolver.findDerivation, hempty, hfield, hdecl]; rfl⟩

theorem long_params_ok (n k i : Nat) (h : i ≤ k) :
    (longState n k).findDerivationsForParams demoOracle (longFunc i) =
      .ok [longDerivation i] := by
  have hparams : (longFunc i).Params = [i] := rfl
  rw [findDerivationsForParams_ok, hparams]
  cases i with
  | zero => simp [derivationsLoop, long_findDerivation_zero, longDerivation]
  | succ j =>
    simp [derivationsLoop, long_findDerivation_succ n k j (by omega), longDerivation]

theorem long_params_error (n k i : Nat) (h : k < i) :
    ∃ e, (longState n k).findDerivationsForParams demoOracle (longFunc i) = .error e := by
  have hparams : (longFunc i).Params = [i] := rfl
  rw [findDerivationsForParams_error, hparams]
  cases i with
  | zero => exact absurd h (Nat.not_lt_zero k)
  | succ j =>
    obtain ⟨e, he⟩ := long_findDerivation_error n k j (by omega)
    simp [derivationsLoop, he]

theorem long_deriveBody_skip (n k c i : Nat) (h : i ≠ k) :
    deriveBody demoOracle { r := longState n k, derived := longDerived k, numDerived := c }
      (longIface i, longFunc i) =
      { r := longState n k, derived := longDerived k, numDerived := c } := by
  unfold deriveBody
  by_cases hlt : i < k
  · simp [longDerived_any, hlt]
  · obtain ⟨e, he⟩ := long_params_error n k i (by omega)
    simp [longDerived_any, hlt, he]

theorem long_deriveBody_derive (n k c : Nat) :
    deriveBody demoOracle { r := longState n k, derived := longDerived k, numDerived := c }
      (longIface k, longFunc k) =
      { r := longState n (k + 1), derived := longDerived (k + 1), numDerived := c + 1 } := by
  unfold deriveBody
  simp only [longDerived_any, Nat.lt_irrefl, decide_False, long_params_ok n k k (Nat.le_refl k)]
  rfl

theorem long_foldl_unchanged (n k c m : Nat) (h : m ≤ k) :
    (longBindings m).foldl (deriveBody demoOracle)
      { r := longState n k, derived := longDerived k, numDerived := c } =
      { r := longState n k, derived := longDerived k, numDerived := c } := by
  induction m with
  | zero => rfl
  | succ m ih =>
    unfold longBindings
    rw [List.foldl_cons, long_deriveBody_skip n k c m (by omega)]
    exact ih (by omega)

/-- A round on the chain, when the interfaces `0` to `k - 1` are derived and `k`
is not the last: it derives interface `k` and nothing else. -/
theorem long_foldl_derive (n k c m : Nat) (h : k < m) :
    (longBindings m).foldl (deriveBody demoOracle)
      { r := longState n k, derived := longDerived k, numDerived := c } =
      { r := longState n (k + 1), derived := longDerived (k + 1), numDerived := c + 1 } := by
  induction m with
  | zero => exact absurd h (Nat.not_lt_zero k)
  | succ m ih =>
    unfold longBindings
    rw [List.foldl_cons]
    by_cases hm : m = k
    · subst hm
      rw [long_deriveBody_derive]
      exact long_foldl_unchanged n (m + 1) (c + 1) m (Nat.le_succ m)
    · rw [long_deriveBody_skip n k c m hm]
      exact ih (by omega)

/-- On a chain longer than 1000 the guarded loop panics. -/
theorem long_deriveLoop_panics (n : Nat) (hn : 1000 < n) :
    ∀ (fuel k : Nat), k ≤ n →
      deriveLoop demoOracle (fun _ => longBindings n) fuel k (longState n k) (longDerived k) =
        none := by
  intro fuel
  induction fuel with
  | zero => intro k _; rfl
  | succ fuel ih =>
    intro k hk
    unfold deriveLoop
    by_cases hcap : k > 1000
    · simp [hcap]
    · have hlt : k < n := by omega
      have hround : deriveRound demoOracle (longState n k) (longDerived k) (longBindings n) =
          { r := longState n (k + 1), derived := longDerived (k + 1), numDerived := 1 } :=
        long_foldl_derive n k 0 n hlt
      simp only [hcap, if_false, hround]
      exact ih (k + 1) (by omega)

/-- On a chain of any length the loop without guard derives every interface,
in `n + 1` rounds. -/
theorem long_deriveLoopFree (n : Nat) :
    ∀ (fuel k : Nat), k ≤ n → n - k < fuel →
      deriveLoopFree demoOracle (fun _ => longBindings n) fuel k (longState n k)
        (longDerived k) = some (longState n n, n + 1) := by
  intro fuel
  induction fuel with
  | zero => intro k _ h; exact absurd h (Nat.not_lt_zero _)
  | succ fuel ih =>
    intro k hk hfuel
    unfold deriveLoopFree
    by_cases hlt : k < n
    · have hround : deriveRound demoOracle (longState n k) (longDerived k) (longBindings n) =
          { r := longState n (k + 1), derived := longDerived (k + 1), numDerived := 1 } :=
        long_foldl_derive n k 0 n hlt
      simp only [hround]
      exact ih (k + 1) (by omega) (by omega)
    · have hkn : k = n := by omega
      subst hkn
      have hround : deriveRound demoOracle (longState k k) (longDerived k) (longBindings k) =
          { r := longState k k, derived := longDerived k, numDerived := 0 } :=
        long_foldl_unchanged k k 0 k (Nat.le_refl k)
      simp only [hround]
      rfl

theorem longBindings_length (n : Nat) : (longBindings n).length = n := by
  induction n with
  | zero => rfl
  | succ n ih => simp [longBindings, ih]

theorem longBindings_keys_lt (n : Nat) :
    ∀ x ∈ (longBindings n).map (fun b => b.1), x.ptr < n := by
  induction n with
  | zero => intro x hx; simp [longBindings] at hx
  | succ n ih =>
    intro x hx
    unfold longBindings at hx
    rw [List.map_cons] at hx
    rcases List.mem_cons.1 hx with h | h
    · rw [h]; exact Nat.lt_succ_self n
    · exact Nat.lt_succ_of_lt (ih x h)

theorem longBindings_keys_nodup (n : Nat) : ((longBindings n).map (fun b => b.1)).Nodup := by
  induction n with
  | zero => simp [longBindings]
  | succ n ih =>
    unfold longBindings
    rw [List.map_cons, List.nodup_cons]
    refine ⟨?_, ih⟩
    intro hmem
    have := longBindings_keys_lt n _ hmem
    simp [longIface] at this

theorem longState_zero (n : Nat) : longState n 0 = longResolver n := rfl

/-! ## The claims on the rounds of the derivation loop -/

/-- C17 (the round cap) fails on the chain of 1001 bindings visited from the
last interface to the first: the resolver has no declaration, its bindings
are a map of 1001 keys, each round derives exactly one interface, and the
loop panics at round 1001, whereas without the guard it would return after
1002 rounds with every interface derived. -/
theorem derive_panics_on_long_chain :
    (longResolver 1001).decls = [] ∧
    (longResolver 1001).bindings.length = 1001 ∧
    ((longResolver 1001).bindings.map (fun b => b.1)).Nodup ∧
    (longResolver 1001).deriveConstructorsForEachInterfaces demoOracle
      (fun _ => (longResolver 1001).bindings) = none ∧
    deriveLoopFree demoOracle (fun _ => (longResolver 1001).bindings) 1002 0
      (longResolver 1001) [] = some (longState 1001 1001, 1002) := by
  refine ⟨rfl, longBindings_length 1001, longBindings_keys_nodup 1001, ?_, ?_⟩
  · have h := long_deriveLoop_panics 1001 (by decide) 1002 0 (Nat.zero_le _)
    rw [longState_zero] at h
    exact h
  · have h := long_deriveLoopFree 1001 1002 0 (Nat.zero_le _) (by decide)
    rw [longState_zero] at h
    exact h

/-- C17, amended.  For a resolver without declaration whose bindings map has at
most 1000 bindings, whatever the fields and the visiting order of each
round, the loop reaches a round `n ≤ 1000` that derives nothing and returns
the resolver of that round, without panic. -/
theorem derive_returns_within_cap (O : TypeOracle) (order : Nat → List (Iface × Func))
    (r : Resolver) (hfresh : r.decls = []) (hperm : ∀ n, (order n).Perm r.bindings)
    (hlen : r.bindings.length ≤ 1000) :
    ∃ (r' : Resolver) (derived' : List (Iface × PrivateFuncDecl)) (n : Nat),
      r.deriveConstructorsForEachInterfaces O order = some r' ∧ n ≤ 1000 ∧
      deriveRound O r' derived' (order n) =
        { r := r', derived := derived', numDerived := 0 } := by
  have hvisit : ∀ n, ∀ b ∈ order n, b ∈ r.bindings := fun n b hb => (hperm n).subset hb
  obtain ⟨r', k, _, hk, hcount, hle, _, ⟨derived', hlast⟩, hcapped⟩ :=
    deriveLoopFree_spec O order r hvisit (r.bindings.length + 1) 0 r []
      (deriveInv_fresh O r hfresh) (by simp)
  have hk1001 : k ≤ 1001 := by
    simp only [List.length_nil] at hcount
    omega
  refine ⟨r', derived', k - 1, ?_, by omega, hlast⟩
  have := hcapped 1002 (by omega)
  rw [if_pos hk1001] at this
  exact this

theorem derive_returns_within_cap_witness :
    chainResolver.decls = [] ∧ chainResolver.bindings.length ≤ 1000 ∧
    ∃ (r' : Resolver) (derived' : List (Iface × PrivateFuncDecl)) (n : Nat),
      chainResolver.deriveConstructorsForEachInterfaces demoOracle
        (fun _ => chainResolver.bindings) = some r' ∧ n ≤ 1000 ∧
      deriveRound demoOracle r' derived' (chainResolver.bindings) =
        { r := r', derived := derived', numDerived := 0 } :=
  ⟨by decide, by decide,
    derive_returns_within_cap demoOracle (fun _ => chainResolver.bindings) chainResolver
      (by decide) (fun _ => List.Perm.refl _) (by decide)⟩

/-- C18 (termination bound).  For a resolver without declaration, with each
round visiting the bindings in some order, the loop taken without its guard
and given more fuel than there are bindings stops after `k` rounds with
`1 ≤ k ≤ number of bindings + 1`: the round `k - 1` derives nothing, the
`k - 1` rounds before it derived at least one declaration each, the
declarations are for pairwise distinct interfaces and so are no more than
the bindings.  The guarded loop returns the same resolver when `k ≤ 1001`,
and panics otherwise. -/
theorem derive_round_bound (O : TypeOracle) (order : Nat → List (Iface × Func))
    (r : Resolver) (hfresh : r.decls = []) (hperm : ∀ n, (order n).Perm r.bindings)
    (fuel : Nat) (hfuel : r.bindings.length < fuel) :
    ∃ (r' : Resolver) (k : Nat), deriveLoopFree O order fuel 0 r [] = some (r', k) ∧
      1 ≤ k ∧ k ≤ r.bindings.length + 1 ∧ k - 1 ≤ r'.decls.length ∧
      r'.decls.length ≤ r.bindings.length ∧
      (r'.decls.map (fun d => d.iface)).Nodup ∧
      (∃ derived', deriveRound O r' derived' (order (k - 1)) =
        { r := r', derived := derived', numDerived := 0 }) ∧
      r.deriveConstructorsForEachInterfaces O order = if k ≤ 1001 then some r' else none := by
  have hvisit : ∀ n, ∀ b ∈ order n, b ∈ r.bindings := fun n b hb => (hperm n).subset hb
  obtain ⟨r', k, hret, hk, hcount, hle, hnodup, hlast, hcapped⟩ :=
    deriveLoopFree_spec O order r hvisit fuel 0 r [] (deriveInv_fresh O r hfresh)
      (by simpa using hfuel)
  simp only [List.length_nil] at hcount
  exact ⟨r', k, hret, by omega, by omega, by omega, hle, hnodup, hlast,
    hcapped 1002 (by omega)⟩

theorem derive_round_bound_witness :
    chainResolver.decls = [] ∧ chainResolver.bindings.length < 3 ∧
    deriveLoopFree demoOracle (fun _ => chainResolver.bindings) 3 0 chainResolver [] =
      some (chainDerived, 3) ∧
    ∃ (r' : Resolver) (k : Nat),
      deriveLoopFree demoOracle (fun _ => chainResolver.bindings) 3 0 chainResolver [] =
        some (r', k) ∧
      1 ≤ k ∧ k ≤ chainResolver.bindings.length + 1 ∧ k - 1 ≤ r'.decls.length ∧
      r'.decls.length ≤ chainResolver.bindings.length ∧
      (r'.decls.map (fun d => d.iface)).Nodup ∧
      (∃ derived', deriveRound demoOracle r' derived' chainResolver.bindings =
        { r := r', derived := derived', numDerived := 0 }) ∧
      chainResolver.deriveConstructorsForEachInterfaces demoOracle
        (fun _ => chainResolver.bindings) = if k ≤ 1001 then some r' else none :=
  ⟨by decide, by decide, by decide,
    derive_round_bound demoOracle (fun _ => chainResolver.bindings) chainResolver
      (by decide) (fun _ => List.Perm.refl _) 3 (by decide)⟩

/-! ## Lemmas: the order on strings and the stable sort -/

theorem char_eq_of_toNat_eq (a b : Char) (h : a.toNat = b.toNat) : a = b := by
  rw [← Char.ofNat_toNat a, ← Char.ofNat_toNat b, h]

theorem lessChars_cons_false (x y : Char) (xs ys : List Char) :
    lessChars (x :: xs) (y :: ys) = false ↔
      ¬ x.toNat < y.toNat ∧ (x = y → lessChars xs ys = false) := by
  show (decide (x.toNat < y.toNat) || (decide (x = y) && lessChars xs ys)) = false ↔ _
  by_cases hlt : x.toNat < y.toNat
  · simp [hlt]
  · by_cases heq : x = y
    · simp [hlt, heq]
    · simp [hlt, heq]

theorem lessChars_irrefl (a : List Char) : lessChars a a = false := by
  induction a with
  | nil => rfl
  | cons x xs ih =>
    rw [lessChars_cons_false]
    exact ⟨Nat.lt_irrefl _, fun _ => ih⟩

theorem lessChars_asymm (a b : List Char) (h : lessChars a b = true) :
    lessChars b a = false := by
  induction a generalizing b with
  | nil =>
    cases b with
    | nil => rfl
    | cons y ys => rfl
  | cons x xs ih =>
    cases b with
    | nil => simp [lessChars] at h
    | cons y ys =>
      rw [lessChars_cons_false]
      unfold lessChars at h
      by_cases hlt : x.toNat < y.toNat
      · refine ⟨by omega, ?_⟩
        intro hyx
        rw [hyx] at hlt
        exact absurd hlt (Nat.lt_irrefl _)
      · simp only [hlt, decide_False, Bool.false_or, Bool.and_eq_true, decide_eq_true_eq] at h
        refine ⟨by rw [h.1]; exact Nat.lt_irrefl _, fun _ => ih ys h.2⟩

/-- The relation "not greater" of the order on strings is transitive. -/
theorem lessChars_le_trans (a b c : List Char) (hab : lessChars b a = false)
    (hbc : lessChars c b = false) : lessChars c a = false := by
  induction a generalizing b c with
  | nil =>
    cases c with
    | nil => rfl
    | cons z zs => rfl
  | cons x xs ih =>
    cases b with
    | nil => simp [lessChars] at hab
    | cons y ys =>
      cases c with
      | nil => simp [lessChars] at hbc
      | cons z zs =>
        rw [lessChars_cons_false] at hab hbc ⊢
        refine ⟨by omega, ?_⟩
        intro hzx
        have hyx : y = x := by
          apply char_eq_of_toNat_eq
          have := congrArg Char.toNat hzx
          omega
        have hzy : z = y := by rw [hzx, hyx]
        exact ih ys zs (hab.2 hyx) (hbc.2 hzy)

/-- Two lists of which none is less than the other are equal. -/
theorem lessChars_antisymm (a b : List Char) (hab : lessChars a b = false)
    (hba : lessChars b a = false) : a = b := by
  induction a generalizing b with
  | nil =>
    cases b with
    | nil => rfl
    | cons y ys => simp [lessChars] at hab
  | cons x xs ih =>
    cases b with
    | nil => simp [lessChars] at hba
    | cons y ys =>
      rw [lessChars_cons_false] at hab hba
      have hxy : x = y := char_eq_of_toNat_eq x y (by omega)
      rw [hxy, ih ys (hab.2 hxy) (hba.2 hxy.symm)]

theorem mem_insertStable {α : Type} (less : α → α → Bool) (a x : α) (l : List α) :
    x ∈ insertStable less a l ↔ x = a ∨ x ∈ l := by
  induction l with
  | nil => simp [insertStable]
  | cons b l ih =>
    unfold insertStable
    by_cases h : less b a = true
    · simp only [h, if_true, List.mem_cons, ih]
      constructor
      · rintro (h1 | h1 | h1)
        · exact Or.inr (Or.inl h1)
        · exact Or.inl h1
        · exact Or.inr (Or.inr h1)
      · rintro (h1 | h1 | h1)
        · exact Or.inr (Or.inl h1)
        · exact Or.inl h1
        · exact Or.inr (Or.inr h1)
    · have hba : less b a = false := by simpa using h
      simp [hba]

theorem insertStable_sorted {α : Type} (less : α → α → Bool)
    (hasymm : ∀ a b, less a b = true → less b a = false)
    (htrans : ∀ a b c, less b a = false → less c b = false → less c a = false)
    (a : α) (l : List α) (hl : l.Pairwise (fun x y => less y x = false)) :
    (insertStable less a l).Pairwise (fun x y => less y x = false) := by
  induction l with
  | nil => simp [insertStable]
  | cons b l ih =>
    rw [List.pairwise_cons] at hl
    unfold insertStable
    by_cases h : less b a = true
    · simp only [h, if_true]
      rw [List.pairwise_cons]
      refine ⟨?_, ih hl.2⟩
      intro x hx
      rcases (mem_insertStable less a x l).1 hx with hxa | hxl
      · rw [hxa]; exact hasymm b a h
      · exact hl.1 x hxl
    · have hba : less b a = false := by simpa using h
      rw [hba, if_neg (by decide)]
      rw [List.pairwise_cons, List.pairwise_cons]
      refine ⟨?_, hl.1, hl.2⟩
      intro x hx
      rcases List.mem_cons.1 hx with hxb | hxl
      · rw [hxb]; exact hba
      · exact htrans a b x hba (hl.1 x hxl)

/-- The stable sort returns a list in non-decreasing order. -/
theorem sortStable_sorted {α : Type} (less : α → α → Bool)
    (hasymm : ∀ a b, less a b = true → less b a = false)
    (htrans : ∀ a b c, less b a = false → less c b = false → less c a = false)
    (l : List α) : (sortStable less l).Pairwise (fun x y => less y x = false) := by
  induction l with
  | nil => simp [sortStable]
  | cons a l ih => exact insertStable_sorted less hasymm htrans a _ ih

theorem sortGroups_sorted (m : List (String × List FuncData)) :
    ∀ e ∈ sortGroups m,
      e.2.Pairwise (fun x y => stringLess y.FuncName x.FuncName = false) := by
  intro e he
  obtain ⟨e0, _, he0⟩ := List.mem_map.1 he
  rw [← he0]
  exact sortStable_sorted (fun x y : FuncData => stringLess x.FuncName y.FuncName)
    (fun a b h => lessChars_asymm _ _ h)
    (fun a b c h1 h2 => lessChars_le_trans _ _ _ h1 h2) e0.2

/-- What `Resolve` puts in the `Data` it returns. -/
theorem resolve_data (O : TypeOracle) (order : Nat → List (Iface × Func)) (cache : ObjectCache)
    (target library : String) (D : Data) (e : Option String) (es : Option (List String))
    (h : Resolve O order cache target library = some (some D, e, es)) :
    ∃ (p : Struct) (r' : Resolver) (decls : Option (List FuncDecl)) (last : List Char),
      loadProviderImpl cache library target = .ok p ∧
      (NewResolver p cache library).Resolve O order = some (r', decls, none) ∧
      (splitChars '/' library.data).getLast? = some last ∧
      e = none ∧ es = none ∧
      D = { Package := String.mk last
            Imports := sortStable stringLess (importKeys (sliceElems decls))
            PrivateDecls := sortGroups
              ((sliceElems decls).foldl (groupBody O r'.decls target) ([], [])).1
            PublicDecls := sortGroups
              ((sliceElems decls).foldl (groupBody O r'.decls target) ([], [])).2 } := by
  unfold Resolve at h
  cases hload : loadProviderImpl cache library target with
  | error err => simp [hload] at h
  | ok p =>
    cases hres : (NewResolver p cache library).Resolve O order with
    | none => simp [hload, hres] at h
    | some x =>
      obtain ⟨r', decls, errs⟩ := x
      cases errs with
      | some errs => simp [hload, hres] at h
      | none =>
        cases hlast : (splitChars '/' library.data).getLast? with
        | none => simp [hload, hres, hlast] at h
        | some last =>
          simp only [hload, hres, hlast, Option.some.injEq, Prod.mk.injEq] at h
          obtain ⟨hD, he, hes⟩ := h
          exact ⟨p, r', decls, last, rfl, hres, rfl, he.symm, hes.symm, hD.symm⟩

/-! ## Lemmas: the phases of `Resolve` -/

theorem mapInsert_length_le {α β : Type} [DecidableEq α] (k : α) (v : β) (m : List (α × β)) :
    (mapInsert k v m).length ≤ m.length + 1 := by
  induction m with
  | nil => simp [mapInsert]
  | cons e rest ih =>
    unfold mapInsert
    by_cases h : e.1 = k
    · simp [h]
    · simp only [h, if_false, List.length_cons]
      omega

theorem foldl_setupBody_length (O : TypeOracle) (r : Resolver) (l : List Iface)
    (st : List (Iface × Func) × List String) :
    (l.foldl (r.setupBody O) st).1.length ≤ st.1.length + l.length := by
  induction l generalizing st with
  | nil => simp
  | cons i rest ih =>
    rw [List.foldl_cons]
    have h1 := ih (r.setupBody O st i)
    have h2 : (r.setupBody O st i).1.length ≤ st.1.length + 1 := by
      unfold Resolver.setupBody
      cases r.bindIface O i with
      | skip => exact Nat.le_succ _
      | bind fn => exact mapInsert_length_le i fn st.1
      | fail err => exact Nat.le_succ _
    simp only [List.length_cons]
    omega

theorem ifacesFrom_length_le (objs : List Object) (base : Nat) :
    (ifacesFrom base objs).length ≤ objs.length := by
  induction objs generalizing base with
  | nil => simp [ifacesFrom]
  | cons obj rest ih =>
    unfold ifacesFrom
    have := ih (base + 1)
    cases obj.kind with
    | iface e => simp only [List.length_cons]; omega
    | func ps rs => simp only [List.length_cons]; omega
    | struct fs => simp only [List.length_cons]; omega
    | other => simp only [List.length_cons]; omega

/-- There are no more bindings than objects in the catalogue. -/
theorem setupBindings_bindings_length (O : TypeOracle) (r : Resolver) :
    (r.setupBindings O).1.bindings.length ≤ r.cache.objects.length := by
  have h1 := foldl_setupBody_length O r r.cache.Ifaces ([], [])
  have h2 := ifacesFrom_length_le r.cache.objects 0
  have h3 : (r.setupBindings O).1.bindings =
      (r.cache.Ifaces.foldl (r.setupBody O) ([], [])).1 := rfl
  have h4 : r.cache.Ifaces = ifacesFrom 0 r.cache.objects := rfl
  rw [h3]
  rw [h4] at h1 ⊢
  simp only [List.length_nil, Nat.zero_add] at h1
  omega

theorem setupBindings_errs_ne_nil (O : TypeOracle) (r : Resolver) (errs : List String)
    (h : (r.setupBindings O).2 = some errs) : errs ≠ [] := by
  unfold Resolver.setupBindings at h
  simp only at h
  by_cases hz : (r.cache.Ifaces.foldl (r.setupBody O) ([], [])).2.length = 0
  · simp [hz] at h
  · simp only [hz, if_false, Option.some.injEq] at h
    rw [← h]
    intro hnil
    exact hz (by rw [hnil]; rfl)

theorem resolveEach_errs_ne_nil (O : TypeOracle) (r : Resolver) (errs : List String)
    (h : (r.resolveEachConstructorsPresumingDerivationIsDone O).2 = some errs) :
    errs ≠ [] ∧ (r.resolveEachConstructorsPresumingDerivationIsDone O).1 = none := by
  rw [resolveEach_eq] at h ⊢
  by_cases hz : (r.cache.Funcs.filterMap (fun fn => (r.resolveFunc O fn).error?)).length > 0
  · simp only [hz, if_true, Option.some.injEq] at h ⊢
    rw [← h]
    exact ⟨fun hnil => by rw [hnil] at hz; exact absurd hz (by simp), trivial⟩
  · simp [hz] at h

theorem resolveEach_errs_none (O : TypeOracle) (r : Resolver)
    (h : (r.resolveEachConstructorsPresumingDerivationIsDone O).2 = none) :
    ∃ ds, (r.resolveEachConstructorsPresumingDerivationIsDone O).1 = some ds := by
  rw [resolveEach_eq] at h ⊢
  by_cases hz : (r.cache.Funcs.filterMap (fun fn => (r.resolveFunc O fn).error?)).length > 0
  · simp [hz] at h
  · exact ⟨r.cache.Funcs.filterMap (fun fn => (r.resolveFunc O fn).decl?),
      by simp only [hz, if_false]⟩

theorem sliceLen_pos_of_some {α : Type} (l : List α) (h : l ≠ []) :
    sliceLen (some l) > 0 := by
  cases l with
  | nil => exact absurd rfl h
  | cons a rest => simp [sliceLen]

/-- The method `Resolver.Resolve` stops after `setupBindings` when it returns
errors. -/
theorem resolver_resolve_binding_errors (O : TypeOracle) (order : Nat → List (Iface × Func))
    (r : Resolver) (errs : List String) (h : (r.setupBindings O).2 = some errs) :
    r.Resolve O order = some ((r.setupBindings O).1, none, some errs) := by
  have hpos : sliceLen (r.setupBindings O).2 > 0 := by
    rw [h]
    exact sliceLen_pos_of_some errs (setupBindings_errs_ne_nil O r errs h)
  unfold Resolver.Resolve
  simp only [if_pos hpos]
  rw [h]

/-- The method `Resolver.Resolve` after a derivation that returned. -/
theorem resolver_resolve_derived (O : TypeOracle) (order : Nat → List (Iface × Func))
    (r r2 : Resolver) (h : (r.setupBindings O).2 = none)
    (hderive : (r.setupBindings O).1.deriveConstructorsForEachInterfaces O order = some r2) :
    r.Resolve O order =
      if sliceLen (r2.resolveEachConstructorsPresumingDerivationIsDone O).2 > 0 then
        some (r2, none, (r2.resolveEachConstructorsPresumingDerivationIsDone O).2)
      else
        some (r2, some (r2.decls.map FuncDecl.priv ++
          (sliceElems (r2.resolveEachConstructorsPresumingDerivationIsDone O).1).map
            FuncDecl.pub), none) := by
  have hzero : ¬ sliceLen (r.setupBindings O).2 > 0 := by
    rw [h]
    simp [sliceLen]
  unfold Resolver.Resolve
  simp only [hzero, if_false, hderive]

theorem resolver_resolve_panics (O : TypeOracle) (order : Nat → List (Iface × Func))
    (r : Resolver) (h : (r.setupBindings O).2 = none)
    (hderive : (r.setupBindings O).1.deriveConstructorsForEachInterfaces O order = none) :
    r.Resolve O order = none := by
  have hzero : ¬ sliceLen (r.setupBindings O).2 > 0 := by
    rw [h]
    simp [sliceLen]
  unfold Resolver.Resolve
  simp only [hzero, if_false, hderive]

/-- The two shapes of what `Resolver.Resolve` returns. -/
theorem resolver_resolve_shape (O : TypeOracle) (order : Nat → List (Iface × Func))
    (r r' : Resolver) (decls : Option (List FuncDecl)) (errs : Option (List String))
    (h : r.Resolve O order = some (r', decls, errs)) :
    (errs = none ∧ ∃ ds, decls = some ds) ∨
      (decls = none ∧ ∃ es, errs = some es ∧ es ≠ []) := by
  cases hset : (r.setupBindings O).2 with
  | some es =>
    rw [resolver_resolve_binding_errors O order r es hset] at h
    simp only [Option.some.injEq, Prod.mk.injEq] at h
    exact Or.inr ⟨h.2.1.symm, es, h.2.2.symm, setupBindings_errs_ne_nil O r es hset⟩
  | none =>
    cases hderive : (r.setupBindings O).1.deriveConstructorsForEachInterfaces O order with
    | none =>
      rw [resolver_resolve_panics O order r hset hderive] at h
      exact absurd h (by simp)
    | some r2 =>
      rw [resolver_resolve_derived O order r r2 hset hderive] at h
      cases hpub : (r2.resolveEachConstructorsPresumingDerivationIsDone O).2 with
      | some es =>
        have hne := (resolveEach_errs_ne_nil O r2 es hpub).1
        have hpos : sliceLen (some es) > 0 := sliceLen_pos_of_some es hne
        rw [hpub] at h
        simp only [hpos, if_true, Option.some.injEq, Prod.mk.injEq] at h
        exact Or.inr ⟨h.2.1.symm, es, h.2.2.symm, hne⟩
      | none =>
        rw [hpub] at h
        have hzero : ¬ sliceLen (none : Option (List String)) > 0 := by simp [sliceLen]
        simp only [hzero, if_false, Option.some.injEq, Prod.mk.injEq] at h
        exact Or.inl ⟨h.2.2.symm, _, h.2.1.symm⟩

/-- The method `Resolver.Resolve` returns when the catalogue has at most 1000
objects and each round visits bindings of the map. -/
theorem resolver_resolve_returns (O : TypeOracle) (order : Nat → List (Iface × Func))
    (r : Resolver) (hfresh : r.decls = []) (hlen : r.cache.objects.length ≤ 1000)
    (hvisit : ∀ n, ∀ b ∈ order n, b ∈ (r.setupBindings O).1.bindings) :
    ∃ x, r.Resolve O order = some x := by
  cases hset : (r.setupBindings O).2 with
  | some es => exact ⟨_, resolver_resolve_binding_errors O order r es hset⟩
  | none =>
    have hb := setupBindings_bindings_length O r
    obtain ⟨r2, hr2⟩ := deriveLoop_returns O order (r.setupBindings O).1 hvisit 1002 0
      (r.setupBindings O).1 [] (deriveInv_fresh O _ hfresh) (by simp; omega) (by simp; omega)
    rw [resolver_resolve_derived O order r r2 hset hr2]
    by_cases hp : sliceLen (r2.resolveEachConstructorsPresumingDerivationIsDone O).2 > 0
    · exact ⟨_, if_pos hp⟩
    · exact ⟨_, if_neg hp⟩

theorem splitChars_ne_nil (sep : Char) (s : List Char) : splitChars sep s ≠ [] := by
  cases s with
  | nil => simp [splitChars]
  | cons c cs =>
    unfold splitChars
    by_cases h : c = sep
    · simp [h]
    · simp only [h, if_false]
      cases splitChars sep cs <;> simp

theorem getLast?_splitChars (sep : Char) (s : List Char) :
    ∃ last, (splitChars sep s).getLast? = some last := by
  cases h : (splitChars sep s).getLast? with
  | some last => exact ⟨last, rfl⟩
  | none =>
    rw [List.getLast?_eq_none_iff] at h
    exact absurd h (splitChars_ne_nil sep s)

theorem resolve_of_load_error (O : TypeOracle) (order : Nat → List (Iface × Func))
    (cache : ObjectCache) (target library err : String)
    (h : loadProviderImpl cache library target = .error err) :
    Resolve O order cache target library = some (none, some err, none) := by
  simp [Resolve, h]

theorem resolve_of_errors (O : TypeOracle) (order : Nat → List (Iface × Func))
    (cache : ObjectCache) (target library : String) (p : Struct) (r' : Resolver)
    (decls : Option (List FuncDecl)) (es : List String)
    (h : loadProviderImpl cache library target = .ok p)
    (hres : (NewResolver p cache library).Resolve O order = some (r', decls, some es)) :
    Resolve O order cache target library = some (none, none, some es) := by
  simp [Resolve, h, hres]

theorem resolve_of_panic (O : TypeOracle) (order : Nat → List (Iface × Func))
    (cache : ObjectCache) (target library : String) (p : Struct)
    (h : loadProviderImpl cache library target = .ok p)
    (hres : (NewResolver p cache library).Resolve O order = none) :
    Resolve O order cache target library = none := by
  simp [Resolve, h, hres]

theorem resolve_of_decls (O : TypeOracle) (order : Nat → List (Iface × Func))
    (cache : ObjectCache) (target library : String) (p : Struct) (r' : Resolver)
    (decls : Option (List FuncDecl))
    (h : loadProviderImpl cache library target = .ok p)
    (hres : (NewResolver p cache library).Resolve O order = some (r', decls, none)) :
    ∃ D, Resolve O order cache target library = some (some D, none, none) := by
  obtain ⟨last, hlast⟩ := getLast?_splitChars '/' library.data
  refine ⟨{ Package := String.mk last
            Imports := sortStable stringLess (importKeys (sliceElems decls))
            PrivateDecls := sortGroups
              ((sliceElems decls).foldl (groupBody O r'.decls target) ([], [])).1
            PublicDecls := sortGroups
              ((sliceElems decls).foldl (groupBody O r'.decls target) ([], [])).2 }, ?_⟩
  simp only [Resolve, h, hres, hlast]

/-! ## The claims on `Resolve` -/

/-- C19 (no partial output, phase gating).  Whatever `Resolve` returns is a
`Data` with no error, or the target error alone, or a non-empty list of
errors alone.  It does return when the catalogue has at most 1000 objects and
each round of the derivation visits bindings of the map.  When
`setupBindings` returns errors, `Resolver.Resolve` returns them with no
declaration and with the resolver as `setupBindings` left it, without
declaration, whatever the visiting order, and `Resolve` returns exactly these
errors.  When the public resolution returns errors after the derivation,
`Resolver.Resolve` returns them with no declaration and so does `Resolve`. -/
theorem resolve_no_partial_output (O : TypeOracle) (order : Nat → List (Iface × Func))
    (cache : ObjectCache) (target library : String) :
    (∀ res, Resolve O order cache target library = some res →
      (∃ D, res = (some D, none, none)) ∨ (∃ err, res = (none, some err, none)) ∨
        (∃ errs, errs ≠ [] ∧ res = (none, none, some errs))) ∧
    (cache.objects.length ≤ 1000 →
      (∀ p, loadProviderImpl cache library target = .ok p →
        ∀ n, ∀ b ∈ order n, b ∈ ((NewResolver p cache library).setupBindings O).1.bindings) →
      ∃ res, Resolve O order cache target library = some res) ∧
    (∀ (p : Struct) (errs : List String), loadProviderImpl cache library target = .ok p →
      ((NewResolver p cache library).setupBindings O).2 = some errs →
      (NewResolver p cache library).Resolve O order =
        some (((NewResolver p cache library).setupBindings O).1, none, some errs) ∧
      ((NewResolver p cache library).setupBindings O).1.decls = [] ∧
      Resolve O order cache target library = some (none, none, some errs)) ∧
    (∀ (p : Struct) (r2 : Resolver) (errs : List String),
      loadProviderImpl cache library target = .ok p →
      ((NewResolver p cache library).setupBindings O).2 = none →
      ((NewResolver p cache library).setupBindings O).1.deriveConstructorsForEachInterfaces
        O order = some r2 →
      (r2.resolveEachConstructorsPresumingDerivationIsDone O).2 = some errs →
      (NewResolver p cache library).Resolve O order = some (r2, none, some errs) ∧
      Resolve O order cache target library = some (none, none, some errs)) := by
  refine ⟨?_, ?_, ?_, ?_⟩
  · intro res h
    cases hload : loadProviderImpl cache library target with
    | error err =>
      rw [resolve_of_load_error O order cache target library err hload] at h
      exact Or.inr (Or.inl ⟨err, (Option.some.inj h).symm⟩)
    | ok p =>
      cases hres : (NewResolver p cache library).Resolve O order with
      | none =>
        rw [resolve_of_panic O order cache target library p hload hres] at h
        exact absurd h (by simp)
      | some x =>
        obtain ⟨r', decls, errs⟩ := x
        rcases resolver_resolve_shape O order _ r' decls errs hres with
          ⟨hnone, _⟩ | ⟨_, es, hes, hne⟩
        · subst hnone
          obtain ⟨D, hD⟩ := resolve_of_decls O order cache target library p r' decls hload hres
          rw [hD] at h
          exact Or.inl ⟨D, (Option.some.inj h).symm⟩
        · subst hes
          rw [resolve_of_errors O order cache target library p r' decls es hload hres] at h
          exact Or.inr (Or.inr ⟨es, hne, (Option.some.inj h).symm⟩)
  · intro hlen hvisit
    cases hload : loadProviderImpl cache library target with
    | error err => exact ⟨_, resolve_of_load_error O order cache target library err hload⟩
    | ok p =>
      obtain ⟨x, hx⟩ := resolver_resolve_returns O order (NewResolver p cache library) rfl hlen
        (hvisit p hload)
      obtain ⟨r', decls, errs⟩ := x
      cases errs with
      | some es => exact ⟨_, resolve_of_errors O order cache target library p r' decls es hload hx⟩
      | none =>
        obtain ⟨D, hD⟩ := resolve_of_decls O order cache target library p r' decls hload hx
        exact ⟨_, hD⟩
  · intro p errs hload hset
    have hres := resolver_resolve_binding_errors O order (NewResolver p cache library) errs hset
    exact ⟨hres, rfl, resolve_of_errors O order cache target library p _ none errs hload hres⟩
  · intro p r2 errs hload hset hderive hpub
    have hres := resolver_resolve_derived O order (NewResolver p cache library) r2 hset hderive
    have hpos : sliceLen (r2.resolveEachConstructorsPresumingDerivationIsDone O).2 > 0 := by
      rw [hpub]
      exact sliceLen_pos_of_some errs (resolveEach_errs_ne_nil O r2 errs hpub).1
    rw [if_pos hpos, hpub] at hres
    exact ⟨hres, resolve_of_errors O order cache target library p r2 none errs hload hres⟩

/-- The function `Resolve` on three catalogues: one without the target struct,
one whose first interface is ambiguous, one whose only constructor is marked
`must_resolve` and cannot be resolved. -/
theorem resolve_phases_example :
    Resolve demoOracle demoOrder ⟨[demoA]⟩ "Container" "app/container" =
      some (none, some "app/container.Container does not exist.", none) ∧
    (Resolve ambOracle (fun _ => []) ⟨[demoContainer, demoA, demoS, ambS2, demoNewS]⟩
      "Container" "app/container").map (fun res => (res.1, res.2.1, sliceLen res.2.2)) =
      some (none, none, 1) ∧
    (Resolve demoOracle (fun _ => []) ⟨[demoContainer, demoA, requiredNewService]⟩
      "Container" "app/container").map (fun res => (res.1, res.2.1, sliceLen res.2.2)) =
      some (none, none, 1) :=
  ⟨by decide, by decide, by decide⟩

/-- C20 (sorted groups).  In the `Data` returned by `Resolve`, every slice of
`PublicDecls` and of `PrivateDecls` is in non-decreasing order of `FuncName`:
no element is followed, at any distance, by one whose name is less for the
byte order of strings.  This order is a total order: two names of which none
is less than the other are equal. -/
theorem resolve_groups_sorted (O : TypeOracle) (order : Nat → List (Iface × Func))
    (cache : ObjectCache) (target library : String) (D : Data) (e : Option String)
    (es : Option (List String))
    (h : Resolve O order cache target library = some (some D, e, es)) :
    (∀ g ∈ D.PublicDecls,
      g.2.Pairwise (fun x y => stringLess y.FuncName x.FuncName = false)) ∧
    (∀ g ∈ D.PrivateDecls,
      g.2.Pairwise (fun x y => stringLess y.FuncName x.FuncName = false)) ∧
    (∀ x y : String, stringLess x y = false → stringLess y x = false → x = y) := by
  obtain ⟨p, r', decls, last, _, _, _, _, _, hD⟩ :=
    resolve_data O order cache target library D e es h
  refine ⟨?_, ?_, ?_⟩
  · rw [hD]
    exact sortGroups_sorted _
  · rw [hD]
    exact sortGroups_sorted _
  · intro x y hxy hyx
    exact String.ext (lessChars_antisymm x.data y.data hxy hyx)

theorem resolve_groups_sorted_witness :
    Resolve demoOracle demoOrderRev demoCache "Container" "app/container" =
      some (some demoDataRev, none, none) ∧
    ∀ g ∈ demoDataRev.PrivateDecls,
      g.2.Pairwise (fun x y => stringLess y.FuncName x.FuncName = false) :=
  ⟨by decide,
    (resolve_groups_sorted demoOracle demoOrderRev demoCache "Container" "app/container"
      demoDataRev none none (by decide)).2.1⟩

/-! ## Lemmas: splitting a text -/

theorem splitChars_of_not_mem (sep : Char) (s : List Char) (h : sep ∉ s) :
    splitChars sep s = [s] := by
  induction s with
  | nil => rfl
  | cons c cs ih =>
    have hc : c ≠ sep := fun hc => h (hc ▸ List.mem_cons_self _ _)
    have hcs : sep ∉ cs := fun hm => h (List.mem_cons_of_mem _ hm)
    unfold splitChars
    rw [if_neg hc, ih hcs]

/-- The parts of a text around a separator are the parts of what precedes it
followed by the parts of what follows it. -/
theorem splitChars_append_sep (sep : Char) (a b : List Char) :
    splitChars sep (a ++ sep :: b) = splitChars sep a ++ splitChars sep b := by
  induction a with
  | nil => simp [splitChars]
  | cons c a ih =>
    rw [List.cons_append]
    by_cases hc : c = sep
    · rw [splitChars, if_pos hc, ih, splitChars, if_pos hc]
      rfl
    · rw [splitChars, if_neg hc, ih, splitChars, if_neg hc]
      cases hsplit : splitChars sep a with
      | nil => exact absurd hsplit (splitChars_ne_nil sep a)
      | cons p ps => rfl

theorem exists_last_sep (sep : Char) (s : List Char) (h : sep ∈ s) :
    ∃ pre post, s = pre ++ sep :: post ∧ sep ∉ post := by
  induction s with
  | nil => exact absurd h (List.not_mem_nil sep)
  | cons c cs ih =>
    by_cases hcs : sep ∈ cs
    · obtain ⟨pre, post, hs, hpost⟩ := ih hcs
      exact ⟨c :: pre, post, by rw [hs]; rfl, hpost⟩
    · rcases List.mem_cons.1 h with hc | hc
      · exact ⟨[], cs, by rw [hc]; rfl, hcs⟩
      · exact absurd hc hcs

theorem getLast?_append_singleton {α : Type} (l : List α) (a : α) :
    (l ++ [a]).getLast? = some a := by
  rw [List.getLast?_eq_some_iff]
  exact ⟨l, rfl⟩

/-- The last part of a text split at a separator: the text itself when it has
no separator, and otherwise what follows its last separator. -/
theorem getLast?_splitChars_eq (sep : Char) (s : List Char) :
    (sep ∉ s → (splitChars sep s).getLast? = some s) ∧
    (∀ pre post, s = pre ++ sep :: post → sep ∉ post →
      (splitChars sep s).getLast? = some post) := by
  constructor
  · intro h
    rw [splitChars_of_not_mem sep s h]
    rfl
  · intro pre post hs hpost
    rw [hs, splitChars_append_sep, splitChars_of_not_mem sep post hpost]
    exact getLast?_append_singleton _ post

/-! ## The claims on the target and on the package name -/

/-- C23 (package name).  In the `Data` returned by `Resolve`, `Package` is the
library when the library has no `/`, and is what follows the last `/` of the
library otherwise; it has no `/` and the library ends with it.  The index
`len(path)-1` is in range for every library, the empty one included: the
split of a text always has a last part. -/
theorem resolve_package (O : TypeOracle) (order : Nat → List (Iface × Func))
    (cache : ObjectCache) (target library : String) (D : Data) (e : Option String)
    (es : Option (List String))
    (h : Resolve O order cache target library = some (some D, e, es)) :
    ('/' ∉ library.data → D.Package = library) ∧
    (∀ pre post, library.data = pre ++ '/' :: post → '/' ∉ post → D.Package.data = post) ∧
    '/' ∉ D.Package.data ∧
    (∃ pre, library.data = pre ++ D.Package.data) ∧
    (∀ s : String, ∃ last, (splitChars '/' s.data).getLast? = some last) := by
  obtain ⟨p, r', decls, last, _, _, hlast, _, _, hD⟩ :=
    resolve_data O order cache target library D e es h
  have hpkg : D.Package = String.mk last := by rw [hD]
  have hspec := getLast?_splitChars_eq '/' library.data
  have hno : '/' ∉ library.data → D.Package = library := by
    intro hn
    have := hspec.1 hn
    rw [hlast] at this
    rw [hpkg, Option.some.inj this]
  have hsome : ∀ pre post, library.data = pre ++ '/' :: post → '/' ∉ post →
      D.Package.data = post := by
    intro pre post hs hpost
    have := hspec.2 pre post hs hpost
    rw [hlast] at this
    rw [hpkg, Option.some.inj this]
  refine ⟨hno, hsome, ?_, ?_, fun s => getLast?_splitChars '/' s.data⟩
  · by_cases hmem : '/' ∈ library.data
    · obtain ⟨pre, post, hs, hpost⟩ := exists_last_sep '/' library.data hmem
      rw [hsome pre post hs hpost]
      exact hpost
    · rw [hno hmem]
      exact hmem
  · by_cases hmem : '/' ∈ library.data
    · obtain ⟨pre, post, hs, hpost⟩ := exists_last_sep '/' library.data hmem
      rw [hsome pre post hs hpost]
      exact ⟨pre ++ ['/'], by rw [hs]; simp⟩
    · rw [hno hmem]
      exact ⟨[], rfl⟩

theorem resolve_package_witness :
    Resolve demoOracle demoOrder demoCache "Container" "app/container" =
      some (some demoData, none, none) ∧
    demoData.Package.data = "container".data :=
  ⟨by decide,
    (resolve_package demoOracle demoOrder demoCache "Container" "app/container" demoData
      none none (by decide)).2.1 "app".data "container".data (by decide) (by decide)⟩

/-- C24 (target errors).  `Resolve` returns a single error, with no `Data` and
no error list, exactly when `cache.Get(library, target)` finds no object or
finds an object that is not a struct.  The error is
`<library>.<target> does not exist.` in the first case and
`<library>.<target> is not struct type` in the second, and it is returned
whatever the type oracle and the visiting order are: nothing of the
binding, derivation and public resolution is consulted. -/
theorem resolve_target_errors (O : TypeOracle) (order : Nat → List (Iface × Func))
    (cache : ObjectCache) (target library : String) :
    ((∃ err, Resolve O order cache target library = some (none, some err, none)) ↔
      (cache.Get library target = none ∨
        ∃ obj, cache.Get library target = some obj ∧ obj.Struct = none)) ∧
    (cache.Get library target = none →
      ∀ (O' : TypeOracle) (order' : Nat → List (Iface × Func)),
        Resolve O' order' cache target library =
          some (none, some (library ++ "." ++ target ++ " does not exist."), none)) ∧
    (∀ obj, cache.Get library target = some obj → obj.Struct = none →
      ∀ (O' : TypeOracle) (order' : Nat → List (Iface × Func)),
        Resolve O' order' cache target library =
          some (none, some (library ++ "." ++ target ++ " is not struct type"), none)) := by
  have hmissing : cache.Get library target = none →
      loadProviderImpl cache library target =
        .error (library ++ "." ++ target ++ " does not exist.") := by
    intro hget
    simp [loadProviderImpl, hget]
  have hnotstruct : ∀ obj, cache.Get library target = some obj → obj.Struct = none →
      loadProviderImpl cache library target =
        .error (library ++ "." ++ target ++ " is not struct type") := by
    intro obj hget hs
    simp [loadProviderImpl, hget, hs]
  refine ⟨⟨?_, ?_⟩, ?_, ?_⟩
  · rintro ⟨err, h⟩
    cases hget : cache.Get library target with
    | none => exact Or.inl rfl
    | some obj =>
      right
      refine ⟨obj, rfl, ?_⟩
      cases hs : obj.Struct with
      | none => rfl
      | some st =>
        have hload : loadProviderImpl cache library target = .ok st := by
          simp [loadProviderImpl, hget, hs]
        cases hres : (NewResolver st cache library).Resolve O order with
        | none =>
          rw [resolve_of_panic O order cache target library st hload hres] at h
          exact absurd h (by simp)
        | some x =>
          obtain ⟨r', decls, errs⟩ := x
          cases errs with
          | some es =>
            rw [resolve_of_errors O order cache target library st r' decls es hload hres] at h
            simp at h
          | none =>
            obtain ⟨D, hD⟩ :=
              resolve_of_decls O order cache target library st r' decls hload hres
            rw [hD] at h
            simp at h
  · rintro (hget | ⟨obj, hget, hs⟩)
    · exact ⟨_, resolve_of_load_error O order cache target library _ (hmissing hget)⟩
    · exact ⟨_, resolve_of_load_error O order cache target library _ (hnotstruct obj hget hs)⟩
  · intro hget O' order'
    exact resolve_of_load_error O' order' cache target library _ (hmissing hget)
  · intro obj hget hs O' order'
    exact resolve_of_load_error O' order' cache target library _ (hnotstruct obj hget hs)

/-- The function `Resolve` when the target names the interface `A`. -/
theorem resolve_target_example :
    Resolve demoOracle demoOrder demoCache "A" "app/repo" =
      some (none, some "app/repo.A is not struct type", none) := by
  decide

/-! ## Lemmas: the stable sort is a permutation -/

theorem insertStable_perm {α : Type} (less : α → α → Bool) (a : α) (l : List α) :
    (insertStable less a l).Perm (a :: l) := by
  induction l with
  | nil => exact List.Perm.refl _
  | cons b l ih =>
    unfold insertStable
    by_cases h : less b a = true
    · rw [if_pos h]
      exact (List.Perm.cons b ih).trans (List.Perm.swap a b l)
    · rw [if_neg h]

theorem sortStable_perm {α : Type} (less : α → α → Bool) (l : List α) :
    (sortStable less l).Perm l := by
  induction l with
  | nil => exact List.Perm.refl _
  | cons a l ih =>
    unfold sortStable
    exact (insertStable_perm less a _).trans (List.Perm.cons a ih)

theorem stringLess_sorted (l : List String) :
    (sortStable stringLess l).Pairwise (fun x y => stringLess y x = false) :=
  sortStable_sorted stringLess (fun _ _ h => lessChars_asymm _ _ h)
    (fun _ _ _ h1 h2 => lessChars_le_trans _ _ _ h1 h2) l

theorem stringLess_antisymm (x y : String) (hxy : stringLess x y = false)
    (hyx : stringLess y x = false) : x = y :=
  String.ext (lessChars_antisymm x.data y.data hxy hyx)

/-- Sorting strings without duplicate gives a strictly increasing list. -/
theorem sortStable_strict (l : List String) (hnodup : l.Nodup) :
    (sortStable stringLess l).Pairwise (fun x y => stringLess x y = true) := by
  have hsorted := stringLess_sorted l
  have hnd : (sortStable stringLess l).Nodup :=
    (sortStable_perm stringLess l).nodup_iff.2 hnodup
  have hboth := hsorted.and hnd
  refine hboth.imp ?_
  intro x y hxy
  cases hlt : stringLess x y with
  | true => rfl
  | false => exact absurd (stringLess_antisymm x y hlt hxy.1) hxy.2

/-- The sorted list of strings without duplicate does not depend on the order
in which they are given. -/
theorem sortStable_of_perm (l l' : List String) (hperm : l'.Perm l) :
    sortStable stringLess l' = sortStable stringLess l := by
  haveI : IsAntisymm String (fun x y => stringLess y x = false) :=
    ⟨fun a b hab hba => stringLess_antisymm a b hba hab⟩
  exact List.eq_of_perm_of_sorted
    (((sortStable_perm stringLess l').trans hperm).trans (sortStable_perm stringLess l).symm)
    (stringLess_sorted l') (stringLess_sorted l)

theorem mem_importKeys (decls : List FuncDecl) (x : String) :
    x ∈ importKeys decls ↔ x ≠ "" ∧ ∃ d ∈ decls, x ∈ d.Imports := by
  unfold importKeys
  rw [List.mem_dedup, List.mem_filter, List.mem_flatten]
  constructor
  · rintro ⟨⟨l, hl, hx⟩, hne⟩
    obtain ⟨d, hd, hdl⟩ := List.mem_map.1 hl
    exact ⟨by simpa using hne, d, hd, hdl ▸ hx⟩
  · rintro ⟨hne, d, hd, hx⟩
    exact ⟨⟨d.Imports, List.mem_map.2 ⟨d, hd, rfl⟩, hx⟩, by simpa using hne⟩

/-! ## The claim on the imports -/

/-- C22 (imports).  In the `Data` returned by `Resolve`, `Imports` is strictly
increasing for the byte order of strings, so it is sorted and without
duplicate; a string is in it exactly when it is not empty and is one of the
imports of a declaration returned by `Resolver.Resolve`, where a public
declaration has the import of its function and a private declaration has
those of its interface and of its function; and sorting the keys of
`importMap` taken in any other order gives the same list. -/
theorem resolve_imports (O : TypeOracle) (order : Nat → List (Iface × Func))
    (cache : ObjectCache) (target library : String) (D : Data) (e : Option String)
    (es : Option (List String))
    (h : Resolve O order cache target library = some (some D, e, es)) :
    D.Imports.Pairwise (fun x y => stringLess x y = true) ∧
    (∃ (p : Struct) (r' : Resolver) (decls : Option (List FuncDecl)),
      loadProviderImpl cache library target = .ok p ∧
      (NewResolver p cache library).Resolve O order = some (r', decls, none) ∧
      (∀ x : String, x ∈ D.Imports ↔ x ≠ "" ∧ ∃ d ∈ sliceElems decls, x ∈ d.Imports) ∧
      (∀ keys : List String, keys.Perm (importKeys (sliceElems decls)) →
        sortStable stringLess keys = D.Imports)) ∧
    (∀ d : PublicFuncDecl, (FuncDecl.pub d).Imports = [d.fn.obj.FullImportPath]) ∧
    (∀ d : PrivateFuncDecl,
      (FuncDecl.priv d).Imports = [d.iface.obj.FullImportPath, d.fn.obj.FullImportPath]) := by
  obtain ⟨p, r', decls, last, hload, hres, _, _, _, hD⟩ :=
    resolve_data O order cache target library D e es h
  have himp : D.Imports = sortStable stringLess (importKeys (sliceElems decls)) := by rw [hD]
  refine ⟨?_, ⟨p, r', decls, hload, hres, ?_, ?_⟩, fun d => rfl, fun d => rfl⟩
  · rw [himp]
    exact sortStable_strict _ (List.nodup_dedup _)
  · intro x
    rw [himp, (sortStable_perm stringLess _).mem_iff]
    exact mem_importKeys _ x
  · intro keys hkeys
    rw [himp]
    exact sortStable_of_perm _ keys hkeys

theorem resolve_imports_witness :
    Resolve demoOracle demoOrder demoCache "Container" "app/container" =
      some (some demoData, none, none) ∧
    demoData.Imports = ["app_repo \"app/repo\"", "app_svc \"app/svc\""] ∧
    demoData.Imports.Pairwise (fun x y => stringLess x y = true) :=
  ⟨by decide, by decide,
    (resolve_imports demoOracle demoOrder demoCache "Container" "app/container" demoData
      none none (by decide)).1⟩

/-! ## Lemmas: the grouping of the declarations -/

theorem mem_keys_groupAppend (k : String) (d : FuncData) (m : List (String × List FuncData))
    (x : String) (hx : x ∈ (groupAppend k d m).map (fun g => g.1)) :
    x = k ∨ x ∈ m.map (fun g => g.1) := by
  induction m with
  | nil => left; simpa [groupAppend] using hx
  | cons g rest ih =>
    unfold groupAppend at hx
    by_cases h : g.1 = k
    · rw [if_pos h] at hx
      right
      simpa using hx
    · rw [if_neg h] at hx
      rcases List.mem_cons.1 hx with hx | hx
      · right; rw [hx]; exact List.mem_cons_self _ _
      · rcases ih hx with hk | hm
        · exact Or.inl hk
        · exact Or.inr (List.mem_cons_of_mem _ hm)

theorem groupAppend_ok (k : String) (d : FuncData) (m : List (String × List FuncData))
    (hd : d.Pkg = k) (hm : GroupsOk m) : GroupsOk (groupAppend k d m) := by
  induction m with
  | nil =>
    refine ⟨by simp [groupAppend], ?_⟩
    intro g hg
    have : g = (k, [d]) := by simpa [groupAppend] using hg
    subst this
    exact ⟨by simp, fun x hx => by
      have : x = d := by simpa using hx
      rw [this]; exact hd⟩
  | cons g rest ih =>
    obtain ⟨hnodup, hall⟩ := hm
    rw [List.map_cons, List.nodup_cons] at hnodup
    have hrest : GroupsOk rest :=
      ⟨hnodup.2, fun x hx => hall x (List.mem_cons_of_mem _ hx)⟩
    have hg := hall g (List.mem_cons_self _ _)
    unfold groupAppend
    by_cases h : g.1 = k
    · rw [if_pos h]
      refine ⟨by rw [List.map_cons, List.nodup_cons]; exact hnodup, ?_⟩
      intro x hx
      rcases List.mem_cons.1 hx with hx | hx
      · subst hx
        refine ⟨by simp, ?_⟩
        intro y hy
        rcases List.mem_append.1 hy with hy | hy
        · exact hg.2 y hy
        · have : y = d := by simpa using hy
          rw [this, hd, h]
      · exact hall x (List.mem_cons_of_mem _ hx)
    · rw [if_neg h]
      refine ⟨?_, ?_⟩
      · rw [List.map_cons, List.nodup_cons]
        refine ⟨?_, (ih hrest).1⟩
        intro hmem
        rcases mem_keys_groupAppend k d rest g.1 hmem with hk | hk
        · exact h hk
        · exact hnodup.1 hk
      · intro x hx
        rcases List.mem_cons.1 hx with hx | hx
        · rw [hx]; exact hg
        · exact (ih hrest).2 x hx

theorem groupAppend_flatten (k : String) (d : FuncData) (m : List (String × List FuncData)) :
    ((groupAppend k d m).map (fun g => g.2)).flatten.Perm
      (d :: (m.map (fun g => g.2)).flatten) := by
  induction m with
  | nil => simp [groupAppend]
  | cons g rest ih =>
    unfold groupAppend
    by_cases h : g.1 = k
    · rw [if_pos h]
      simp only [List.map_cons, List.flatten_cons, List.append_assoc]
      have : (g.2 ++ ([d] ++ (rest.map (fun g => g.2)).flatten)).Perm
          ([d] ++ (g.2 ++ (rest.map (fun g => g.2)).flatten)) := by
        rw [← List.append_assoc, ← List.append_assoc]
        exact List.Perm.append_right _ List.perm_append_comm
      exact this
    · rw [if_neg h]
      simp only [List.map_cons, List.flatten_cons]
      exact (List.Perm.append_left g.2 ih).trans List.perm_middle

theorem sortGroups_keys (m : List (String × List FuncData)) :
    (sortGroups m).map (fun g => g.1) = m.map (fun g => g.1) := by
  simp [sortGroups, Function.comp_def]

theorem sortGroups_flatten (m : List (String × List FuncData)) :
    ((sortGroups m).map (fun g => g.2)).flatten.Perm ((m.map (fun g => g.2)).flatten) := by
  induction m with
  | nil => exact List.Perm.refl _
  | cons g rest ih =>
    simp only [sortGroups, List.map_cons, List.flatten_cons]
    exact List.Perm.append (sortStable_perm _ g.2) ih

theorem sortGroups_ok (m : List (String × List FuncData)) (hm : GroupsOk m) :
    GroupsOk (sortGroups m) := by
  refine ⟨by rw [sortGroups_keys]; exact hm.1, ?_⟩
  intro g hg
  obtain ⟨g0, hg0, hgeq⟩ := List.mem_map.1 hg
  have hperm := sortStable_perm (fun x y : FuncData => stringLess x.FuncName y.FuncName) g0.2
  rw [← hgeq]
  refine ⟨?_, ?_⟩
  · intro hnil
    simp only at hnil
    rw [hnil] at hperm
    exact (hm.2 g0 hg0).1 hperm.symm.eq_nil
  · intro x hx
    exact (hm.2 g0 hg0).2 x (hperm.mem_iff.1 hx)

/-- The grouping loop of `Resolve`: what the two maps hold after it. -/
theorem foldl_groupBody (O : TypeOracle) (store : List PrivateFuncDecl) (target : String)
    (decls : List FuncDecl)
    (st : List (String × List FuncData) × List (String × List FuncData))
    (h1 : GroupsOk st.1) (h2 : GroupsOk st.2) :
    GroupsOk (decls.foldl (groupBody O store target) st).1 ∧
    GroupsOk (decls.foldl (groupBody O store target) st).2 ∧
    (((decls.foldl (groupBody O store target) st).1.map (fun g => g.2)).flatten.Perm
      ((st.1.map (fun g => g.2)).flatten ++
        (decls.filter (fun d => !d.isPublic)).map (mkFuncData O store target))) ∧
    (((decls.foldl (groupBody O store target) st).2.map (fun g => g.2)).flatten.Perm
      ((st.2.map (fun g => g.2)).flatten ++
        (decls.filter (fun d => d.isPublic)).map (mkFuncData O store target))) := by
  induction decls generalizing st with
  | nil => simp [h1, h2]
  | cons d rest ih =>
    rw [List.foldl_cons]
    cases d with
    | pub pd =>
      have hstep : groupBody O store target st (.pub pd) =
          (st.1, groupAppend (FuncDecl.pub pd).Pkg
            (mkFuncData O store target (.pub pd)) st.2) := rfl
      rw [hstep]
      obtain ⟨a, b, c, e⟩ := ih (st.1, groupAppend (FuncDecl.pub pd).Pkg
        (mkFuncData O store target (.pub pd)) st.2) h1 (groupAppend_ok _ _ _ rfl h2)
      refine ⟨a, b, ?_, ?_⟩
      · simpa [FuncDecl.isPublic] using c
      · refine e.trans ?_
        simp only [FuncDecl.isPublic, List.filter_cons_of_pos, List.map_cons]
        exact (List.Perm.append_right _ (groupAppend_flatten _ _ _)).trans
          (by simpa using List.perm_middle.symm)
    | priv pd =>
      have hstep : groupBody O store target st (.priv pd) =
          (groupAppend (FuncDecl.priv pd).Pkg
            (mkFuncData O store target (.priv pd)) st.1, st.2) := rfl
      rw [hstep]
      obtain ⟨a, b, c, e⟩ := ih (groupAppend (FuncDecl.priv pd).Pkg
        (mkFuncData O store target (.priv pd)) st.1, st.2) (groupAppend_ok _ _ _ rfl h1) h2
      refine ⟨a, b, ?_, ?_⟩
      · refine c.trans ?_
        simp only [FuncDecl.isPublic, Bool.not_false, List.filter_cons_of_pos, List.map_cons]
        exact (List.Perm.append_right _ (groupAppend_flatten _ _ _)).trans
          (by simpa using List.perm_middle.symm)
      · simpa [FuncDecl.isPublic] using e

theorem length_filter_isPublic (decls : List FuncDecl) :
    (decls.filter (fun d => d.isPublic)).length +
      (decls.filter (fun d => !d.isPublic)).length = decls.length := by
  induction decls with
  | nil => rfl
  | cons d rest ih =>
    cases hd : d.isPublic with
    | true => simp [List.filter_cons, hd]; omega
    | false => simp [List.filter_cons, hd]; omega

/-! ## The claim on the grouping -/

/-- C21 (grouping is a partition).  In the `Data` returned by `Resolve`, the
`FuncData` of all the groups of `PublicDecls` are, up to their order, those of
the public declarations returned by `Resolver.Resolve`, one for each, and
the `FuncData` of all the groups of `PrivateDecls` are those of the private
declarations, one for each; in both maps the keys are pairwise distinct, no
group is empty and every `FuncData` has the key of its group as `Pkg`, which
is the import path of the function for a public declaration and of the
interface for a private one; and the `FuncData` are as many as the
declarations. -/
theorem resolve_grouping (O : TypeOracle) (order : Nat → List (Iface × Func))
    (cache : ObjectCache) (target library : String) (D : Data) (e : Option String)
    (es : Option (List String))
    (h : Resolve O order cache target library = some (some D, e, es)) :
    ∃ (p : Struct) (r' : Resolver) (decls : Option (List FuncDecl)),
      loadProviderImpl cache library target = .ok p ∧
      (NewResolver p cache library).Resolve O order = some (r', decls, none) ∧
      (D.PublicDecls.map (fun g => g.2)).flatten.Perm
        (((sliceElems decls).filter (fun d => d.isPublic)).map
          (mkFuncData O r'.decls target)) ∧
      (D.PrivateDecls.map (fun g => g.2)).flatten.Perm
        (((sliceElems decls).filter (fun d => !d.isPublic)).map
          (mkFuncData O r'.decls target)) ∧
      (D.PublicDecls.map (fun g => g.1)).Nodup ∧
      (D.PrivateDecls.map (fun g => g.1)).Nodup ∧
      (∀ g ∈ D.PublicDecls ++ D.PrivateDecls, g.2 ≠ [] ∧ ∀ x ∈ g.2, x.Pkg = g.1) ∧
      (D.PublicDecls.map (fun g => g.2)).flatten.length +
        (D.PrivateDecls.map (fun g => g.2)).flatten.length = (sliceElems decls).length ∧
      (∀ d : PublicFuncDecl,
        (mkFuncData O r'.decls target (.pub d)).Pkg = d.fn.obj.importPath) ∧
      (∀ d : PrivateFuncDecl,
        (mkFuncData O r'.decls target (.priv d)).Pkg = d.iface.obj.importPath) := by
  obtain ⟨p, r', decls, last, hload, hres, _, _, _, hD⟩ :=
    resolve_data O order cache target library D e es h
  have hempty : GroupsOk ([] : List (String × List FuncData)) := ⟨by simp, by simp⟩
  obtain ⟨hok1, hok2, hflat1, hflat2⟩ :=
    foldl_groupBody O r'.decls target (sliceElems decls) ([], []) hempty hempty
  simp only [List.map_nil, List.flatten_nil, List.nil_append] at hflat1 hflat2
  have hpub : D.PublicDecls = sortGroups
      ((sliceElems decls).foldl (groupBody O r'.decls target) ([], [])).2 := by rw [hD]
  have hpriv : D.PrivateDecls = sortGroups
      ((sliceElems decls).foldl (groupBody O r'.decls target) ([], [])).1 := by rw [hD]
  have hpubflat := (sortGroups_flatten _).trans hflat2
  have hprivflat := (sortGroups_flatten _).trans hflat1
  rw [← hpub] at hpubflat
  rw [← hpriv] at hprivflat
  have hpubok := sortGroups_ok _ hok2
  have hprivok := sortGroups_ok _ hok1
  rw [← hpub] at hpubok
  rw [← hpriv] at hprivok
  refine ⟨p, r', decls, hload, hres, hpubflat, hprivflat, hpubok.1, hprivok.1, ?_, ?_,
    fun d => rfl, fun d => rfl⟩
  · intro g hg
    rcases List.mem_append.1 hg with hg | hg
    · exact hpubok.2 g hg
    · exact hprivok.2 g hg
  · rw [hpubflat.length_eq, hprivflat.length_eq, List.length_map, List.length_map]
    exact length_filter_isPublic _

theorem resolve_grouping_witness :
    Resolve demoOracle demoOrder demoCache "Container" "app/container" =
      some (some demoData, none, none) ∧
    ∃ (p : Struct) (r' : Resolver) (decls : Option (List FuncDecl)),
      loadProviderImpl demoCache "app/container" "Container" = .ok p ∧
      (NewResolver p demoCache "app/container").Resolve demoOracle demoOrder =
        some (r', decls, none) ∧
      (demoData.PublicDecls.map (fun g => g.2)).flatten.Perm
        (((sliceElems decls).filter (fun d => d.isPublic)).map
          (mkFuncData demoOracle r'.decls "Container")) ∧
      (demoData.PrivateDecls.map (fun g => g.2)).flatten.Perm
        (((sliceElems decls).filter (fun d => !d.isPublic)).map
          (mkFuncData demoOracle r'.decls "Container")) ∧
      (demoData.PublicDecls.map (fun g => g.1)).Nodup ∧
      (demoData.PrivateDecls.map (fun g => g.1)).Nodup ∧
      (∀ g ∈ demoData.PublicDecls ++ demoData.PrivateDecls,
        g.2 ≠ [] ∧ ∀ x ∈ g.2, x.Pkg = g.1) ∧
      (demoData.PublicDecls.map (fun g => g.2)).flatten.length +
        (demoData.PrivateDecls.map (fun g => g.2)).flatten.length =
          (sliceElems decls).length ∧
      (∀ d : PublicFuncDecl,
        (mkFuncData demoOracle r'.decls "Container" (.pub d)).Pkg = d.fn.obj.importPath) ∧
      (∀ d : PrivateFuncDecl,
        (mkFuncData demoOracle r'.decls "Container" (.priv d)).Pkg =
          d.iface.obj.importPath) :=
  ⟨by decide,
    resolve_grouping demoOracle demoOrder demoCache "Container" "app/container" demoData
      none none (by decide)⟩

/-! ## Lemmas: the text of a resolve comment -/

theorem trimLeading_append (p rest : List Char) : trimLeading p (p ++ rest) = rest := by
  unfold trimLeading
  have hpre : p.isPrefixOf (p ++ rest) = true := by
    rw [List.isPrefixOf_iff_prefix]
    exact List.prefix_append p rest
  rw [if_pos hpre, List.drop_left]

theorem dropWhile_append_of_all {α : Type} (p : α → Bool) (ws l : List α)
    (h : ∀ c ∈ ws, p c = true) : (ws ++ l).dropWhile p = l.dropWhile p := by
  induction ws with
  | nil => rfl
  | cons c ws ih =>
    rw [List.cons_append, List.dropWhile_cons_of_pos (h c (List.mem_cons_self _ _))]
    exact ih (fun x hx => h x (List.mem_cons_of_mem _ hx))

theorem dropWhile_of_all {α : Type} (p : α → Bool) (ws : List α)
    (h : ∀ c ∈ ws, p c = true) : ws.dropWhile p = [] := by
  have := dropWhile_append_of_all p ws [] h
  simpa using this

/-- White space around a text that neither starts nor ends with white space
is trimmed away. -/
theorem trimSpace_sandwich (ws1 ws2 init : List Char) (first last : Char) (body : List Char)
    (h1 : ∀ c ∈ ws1, isSpace c = true) (h2 : ∀ c ∈ ws2, isSpace c = true)
    (hfirst : ∃ rest, body = first :: rest) (hlast : body = init ++ [last])
    (hf : isSpace first = false) (hl : isSpace last = false) :
    trimSpace (ws1 ++ body ++ ws2) = body := by
  obtain ⟨rest, hrest⟩ := hfirst
  unfold trimSpace
  rw [List.append_assoc, dropWhile_append_of_all isSpace ws1 _ h1]
  have hstep1 : (body ++ ws2).dropWhile isSpace = body ++ ws2 := by
    rw [hrest, List.cons_append]
    exact List.dropWhile_cons_of_neg (by simp [hf])
  rw [hstep1, List.reverse_append,
    dropWhile_append_of_all isSpace ws2.reverse _
      (fun c hc => h2 c (List.mem_reverse.1 hc))]
  have hstep2 : body.reverse.dropWhile isSpace = body.reverse := by
    rw [hlast, List.reverse_append]
    exact List.dropWhile_cons_of_neg (by simp [hl])
  rw [hstep2, List.reverse_reverse]

theorem exists_first_of_ne_nil {α : Type} (l : List α) (h : l ≠ []) :
    ∃ first rest, l = first :: rest := by
  cases l with
  | nil => exact absurd rfl h
  | cons a rest => exact ⟨a, rest, rfl⟩

theorem exists_last_of_ne_nil {α : Type} (l : List α) (h : l ≠ []) :
    ∃ init last, l = init ++ [last] :=
  ⟨l.dropLast, l.getLast h, (List.dropLast_append_getLast h).symm⟩

theorem splitChars_length (sep : Char) (s : List Char) :
    (splitChars sep s).length = s.count sep + 1 := by
  induction s with
  | nil => rfl
  | cons c cs ih =>
    unfold splitChars
    by_cases hc : c = sep
    · rw [if_pos hc, hc, List.count_cons_self, List.length_cons, ih]
    · rw [if_neg hc, List.count_cons_of_ne (fun h => hc h.symm)]
      cases hsplit : splitChars sep cs with
      | nil => exact absurd hsplit (splitChars_ne_nil sep cs)
      | cons p ps =>
        rw [hsplit] at ih
        simpa using ih

/-- The result of `ResolvedPkgAndFuncName` from the parts of the trimmed text
of the first comment that matches. -/
theorem resolvedPkgAndFuncName_eq (o : Object) (list : List String) (text : String)
    (rest : List Char) (hcomment : o.comment = some list)
    (hfirst : list.find? (fun t => matchLiteral "provider:resolve" t) = some text)
    (htext : text.data = "// provider:resolve".data ++ rest) :
    o.ResolvedPkgAndFuncName =
      match splitChars ' ' (trimSpace rest) with
      | [p] => .ok (o.importPath, String.mk p)
      | [p, q] => .ok (String.mk p, String.mk q)
      | _ => .error ("resolver comment format must be " ++
          "\x60provider:resolve path/to/package FuncName\x60 or " ++
          "\x60provider:resolve FuncName\x60, but: " ++ text) := by
  unfold Object.ResolvedPkgAndFuncName
  rw [hcomment]
  simp only [hfirst]
  unfold resolvedOfComment
  simp only [htext, trimLeading_append]

theorem space_not_mem_of_no_space (l : List Char) (h : ∀ c ∈ l, isSpace c = false) :
    ' ' ∉ l := by
  intro hmem
  have := h ' ' hmem
  exact absurd this (by decide)

/-! ## The claims on the resolve comment -/

/-- C25 (resolve annotation parsing), evaluated on the interface `A` of the
package `app/repo` with the comment line `//provider:resolve NewS`, which has
no space after the comment marker: `IsResolve` accepts the line, and
`ResolvedPkgAndFuncName` returns the marker and the directive as the package,
where the form `provider:resolve FuncName` stands for the import path of the
object.  On the line `// provider:resolve app/repo  NewS`, with two spaces
between the package and the function, it returns the error of the format. -/
theorem resolve_comment_marker_returned_as_package :
    tightA.comment = some ["//provider:resolve NewS"] ∧ tightA.importPath = "app/repo" ∧
    tightA.IsResolve = true ∧
    tightA.ResolvedPkgAndFuncName = .ok ("//provider:resolve", "NewS") ∧
    spacedA.comment = some ["// provider:resolve app/repo  NewS"] ∧
    spacedA.IsResolve = true ∧ spacedA.ResolvedPkgAndFuncName.toOption = none :=
  ⟨rfl, rfl, by decide, rfl, rfl, by decide, by decide⟩

/-- The two forms of the comment, on a line that starts with
`// provider:resolve`: when white space, a function name without white space
and white space follow, `ResolvedPkgAndFuncName` returns the import path of
the object and the name; when the line holds a package and a name, both
without white space and separated by one space, it returns the package and
the name. -/
theorem resolvedPkgAndFuncName_forms (o : Object) (list : List String) (text : String)
    (ws1 ws2 name : List Char) (hcomment : o.comment = some list)
    (hfirst : list.find? (fun t => matchLiteral "provider:resolve" t) = some text)
    (hws1 : ∀ c ∈ ws1, isSpace c = true) (hws2 : ∀ c ∈ ws2, isSpace c = true)
    (hne : name ≠ []) (hname : ∀ c ∈ name, isSpace c = false) :
    (text.data = "// provider:resolve".data ++ (ws1 ++ name ++ ws2) →
      o.ResolvedPkgAndFuncName = .ok (o.importPath, String.mk name)) ∧
    (∀ pkg : List Char, pkg ≠ [] → (∀ c ∈ pkg, isSpace c = false) →
      text.data = "// provider:resolve".data ++ (ws1 ++ (pkg ++ ' ' :: name) ++ ws2) →
      o.ResolvedPkgAndFuncName = .ok (String.mk pkg, String.mk name)) := by
  obtain ⟨nfirst, nrest, hnfirst⟩ := exists_first_of_ne_nil name hne
  obtain ⟨ninit, nlast, hnlast⟩ := exists_last_of_ne_nil name hne
  have hnl : isSpace nlast = false := hname nlast (by rw [hnlast]; simp)
  constructor
  · intro htext
    have hnf : isSpace nfirst = false := hname nfirst (by rw [hnfirst]; simp)
    rw [resolvedPkgAndFuncName_eq o list text _ hcomment hfirst htext,
      trimSpace_sandwich ws1 ws2 ninit nfirst nlast name hws1 hws2 ⟨nrest, hnfirst⟩ hnlast
        hnf hnl,
      splitChars_of_not_mem ' ' name (space_not_mem_of_no_space name hname)]
  · intro pkg hpne hpkg htext
    obtain ⟨pfirst, prest, hpfirst⟩ := exists_first_of_ne_nil pkg hpne
    have hpf : isSpace pfirst = false := hpkg pfirst (by rw [hpfirst]; simp)
    rw [resolvedPkgAndFuncName_eq o list text _ hcomment hfirst htext,
      trimSpace_sandwich ws1 ws2 (pkg ++ ' ' :: ninit) pfirst nlast (pkg ++ ' ' :: name)
        hws1 hws2 ⟨prest ++ ' ' :: name, by rw [hpfirst]; rfl⟩
        (by rw [hnlast]; simp) hpf hnl,
      splitChars_append_sep,
      splitChars_of_not_mem ' ' pkg (space_not_mem_of_no_space pkg hpkg),
      splitChars_of_not_mem ' ' name (space_not_mem_of_no_space name hname)]
    rfl

theorem resolvedPkgAndFuncName_forms_example :
    qualifiedA.comment = some ["// provider:resolve  app/repo NewS "] ∧
    qualifiedA.ResolvedPkgAndFuncName = .ok ("app/repo", "NewS") :=
  ⟨rfl,
    (resolvedPkgAndFuncName_forms qualifiedA ["// provider:resolve  app/repo NewS "]
      "// provider:resolve  app/repo NewS " "  ".data " ".data "NewS".data rfl (by decide)
      (by decide) (by decide) (by decide) (by decide)).2 "app/repo".data (by decide)
      (by decide) (by decide)⟩

/-- C26 (malformed override annotation), evaluated on the interface `A` of the
package `app/repo` with the comment line `// provider:resolve`, which has no
token after the directive: `ResolvedPkgAndFuncName` returns no error, with
the import path of the object and the empty function name.  On the line
`// provider:resolve app/repo  NewS`, which has two tokens, separated by two
spaces, it returns the error of the format. -/
theorem resolve_comment_without_token_accepted :
    bareA.comment = some ["// provider:resolve"] ∧ bareA.IsResolve = true ∧
    bareA.ResolvedPkgAndFuncName = .ok ("app/repo", "") ∧
    spacedA.comment = some ["// provider:resolve app/repo  NewS"] ∧
    spacedA.IsResolve = true ∧ spacedA.ResolvedPkgAndFuncName.toOption = none :=
  ⟨rfl, by decide, rfl, rfl, by decide, by decide⟩

/-- When the error is returned, on a line that starts with
`// provider:resolve`: exactly when the text after the directive, with the
white space around it trimmed, has two space characters or more, that is
three parts or more when split at every space. -/
theorem resolvedPkgAndFuncName_error_iff (o : Object) (list : List String) (text : String)
    (rest : List Char) (hcomment : o.comment = some list)
    (hfirst : list.find? (fun t => matchLiteral "provider:resolve" t) = some text)
    (htext : text.data = "// provider:resolve".data ++ rest) :
    ((∃ err, o.ResolvedPkgAndFuncName = .error err) ↔ 2 ≤ (trimSpace rest).count ' ') ∧
    (splitChars ' ' (trimSpace rest)).length = (trimSpace rest).count ' ' + 1 := by
  have hlen := splitChars_length ' ' (trimSpace rest)
  refine ⟨?_, hlen⟩
  rw [resolvedPkgAndFuncName_eq o list text rest hcomment hfirst htext]
  cases hsplit : splitChars ' ' (trimSpace rest) with
  | nil => exact absurd hsplit (splitChars_ne_nil _ _)
  | cons a l1 =>
    cases l1 with
    | nil =>
      rw [hsplit] at hlen
      have : ¬ 2 ≤ (trimSpace rest).count ' ' := by
        simp only [List.length_singleton] at hlen
        omega
      simp [this]
    | cons b l2 =>
      cases l2 with
      | nil =>
        rw [hsplit] at hlen
        have : ¬ 2 ≤ (trimSpace rest).count ' ' := by
          simp only [List.length_cons, List.length_nil] at hlen
          omega
        simp [this]
      | cons c l3 =>
        rw [hsplit] at hlen
        have : 2 ≤ (trimSpace rest).count ' ' := by
          simp only [List.length_cons] at hlen
          omega
        simp [this]

theorem resolvedPkgAndFuncName_error_iff_example :
    (trimSpace "  app/repo NewS ".data).count ' ' = 1 ∧
    ((∃ err, qualifiedA.ResolvedPkgAndFuncName = .error err) ↔
      2 ≤ (trimSpace "  app/repo NewS ".data).count ' ') :=
  ⟨by decide,
    (resolvedPkgAndFuncName_error_iff qualifiedA ["// provider:resolve  app/repo NewS "]
      "// provider:resolve  app/repo NewS " "  app/repo NewS ".data rfl (by decide)
      (by decide)).1⟩

/-! ## Lemmas: a round at the fixpoint -/

theorem foldl_deriveBody_of_all (O : TypeOracle) (visit : List (Iface × Func))
    (st : DeriveState)
    (h : ∀ b ∈ visit, st.derived.any (fun e => e.1 = b.1) = true ∨
      ∃ e, st.r.findDerivationsForParams O b.2 = .error e) :
    visit.foldl (deriveBody O) st = st := by
  induction visit with
  | nil => rfl
  | cons b rest ih =>
    rw [List.foldl_cons]
    have hb : deriveBody O st b = st := by
      rcases deriveBody_cases O st b with ⟨_, hb⟩ | ⟨_, _, hb⟩ | ⟨hany, params, hok, _⟩
      · exact hb
      · exact hb
      · rcases h b (List.mem_cons_self _ _) with h1 | ⟨e, h1⟩
        · rw [hany] at h1
          exact absurd h1 (by decide)
        · rw [hok] at h1
          exact absurd h1 (by simp)
    rw [hb]
    exact ih (fun x hx => h x (List.mem_cons_of_mem _ hx))

theorem resolver_eq_of_inv (O : TypeOracle) (r0 r : Resolver)
    (derived : List (Iface × PrivateFuncDecl)) (inv : DeriveInv O r0 r derived)
    (hdecls : r.decls = r0.decls) : r = r0 := by
  cases r with
  | mk p f d b c l =>
    cases r0 with
    | mk p0 f0 d0 b0 c0 l0 =>
      have h1 := inv.provider_eq
      have h2 := inv.fields_eq
      have h3 := inv.bindings_eq
      have h4 := inv.cache_eq
      have h5 := inv.library_eq
      simp only at h1 h2 h3 h4 h5 hdecls
      rw [h1, h2, h3, h4, h5, hdecls]

/-! ## The claim on the second derivation -/

/-- C27 (idempotent re-derivation) fails for a second call: on the chain of two
bindings the first call returns two declarations and a second call on its
result returns four, and a second call of `Resolver.Resolve` returns three
declarations where the first returned two. -/
theorem rederive_appends_duplicates :
    chainResolver.deriveConstructorsForEachInterfaces demoOracle
      (fun _ => chainResolver.bindings) = some chainDerived ∧
    chainDerived.decls.length = 2 ∧
    (chainDerived.deriveConstructorsForEachInterfaces demoOracle
      (fun _ => chainResolver.bindings)).map (fun r => r.decls.length) = some 4 ∧
    ((catalogueResolver [demoA, demoS, demoNewS]).Resolve demoOracle
      (fun _ => [(⟨0, demoA⟩, ⟨demoNewS⟩)])).map (fun x => (sliceElems x.2.1).length) =
      some 2 ∧
    (((catalogueResolver [demoA, demoS, demoNewS]).Resolve demoOracle
      (fun _ => [(⟨0, demoA⟩, ⟨demoNewS⟩)])).bind
        (fun x => x.1.Resolve demoOracle (fun _ => [(⟨0, demoA⟩, ⟨demoNewS⟩)]))).map
      (fun x => (sliceElems x.2.1).length) = some 3 :=
  ⟨by decide, by decide, by decide, by decide, by decide⟩

/-- C27, amended.  When the derivation loop returns on a resolver that had no
declaration, a further round of the loop with the map `derived` of the call,
visiting bindings of the map in any order, is a no-op: the resolver and its
declarations are unchanged and the round counts no new derivation.  A second
call is a no-op when the first call derived nothing. -/
theorem derive_fixpoint_round_noop (O : TypeOracle) (order : Nat → List (Iface × Func))
    (r : Resolver) (hfresh : r.decls = []) (hperm : ∀ n, (order n).Perm r.bindings)
    (r' : Resolver) (hret : r.deriveConstructorsForEachInterfaces O order = some r') :
    (∃ derived' : List (Iface × PrivateFuncDecl),
      derived'.map (fun e => e.1) = r'.decls.map (fun d => d.iface) ∧
      ∀ visit : List (Iface × Func), (∀ b ∈ visit, b ∈ r.bindings) →
        deriveRound O r' derived' visit =
          { r := r', derived := derived', numDerived := 0 }) ∧
    (r'.decls = [] → r'.deriveConstructorsForEachInterfaces O order = some r') := by
  have hvisit : ∀ n, ∀ b ∈ order n, b ∈ r.bindings := fun n b hb => (hperm n).subset hb
  obtain ⟨derived', n, inv, hlast⟩ :=
    deriveLoop_some O order r hvisit 1002 0 r [] r' (deriveInv_fresh O r hfresh) hret
  constructor
  · refine ⟨derived', inv.keys.symm, ?_⟩
    intro visit hsub
    exact foldl_deriveBody_of_all O visit { r := r', derived := derived', numDerived := 0 }
      (fun b hb => hlast b ((hperm n).symm.subset (hsub b hb)))
  · intro hnil
    have heq : r' = r := resolver_eq_of_inv O r r' derived' inv (by rw [hnil, hfresh])
    rw [heq]
    rw [heq] at hret
    exact hret

theorem derive_fixpoint_round_noop_witness :
    chainResolver.deriveConstructorsForEachInterfaces demoOracle
      (fun _ => chainResolver.bindings) = some chainDerived ∧
    ∃ derived' : List (Iface × PrivateFuncDecl),
      derived'.map (fun e => e.1) = chainDerived.decls.map (fun d => d.iface) ∧
      ∀ visit : List (Iface × Func), (∀ b ∈ visit, b ∈ chainResolver.bindings) →
        deriveRound demoOracle chainDerived derived' visit =
          { r := chainDerived, derived := derived', numDerived := 0 } :=
  ⟨by decide,
    (derive_fixpoint_round_noop demoOracle (fun _ => chainResolver.bindings) chainResolver
      (by decide) (fun _ => List.Perm.refl _) chainDerived (by decide)).1⟩

/-! ## Lemmas: the set of the derived interfaces -/

theorem findDerivation_ok_of (O : TypeOracle) (w : Resolver) (t : GoType)
    (he : O.isEmpty t = false)
    (h : (∃ f ∈ w.fields, O.assignableTo f.typ t = true) ∨
      ∃ d ∈ w.decls, O.identical d.ReturnType t = true) :
    ∃ p, w.findDerivation O t = .ok p := by
  unfold Resolver.findDerivation
  cases hf : findField O t w.fields with
  | some g => exact ⟨.field g, by simp [he]⟩
  | none =>
    cases hd : findDecl O t 0 w.decls with
    | some j => exact ⟨.func j, by simp [he]⟩
    | none =>
      exfalso
      rcases h with ⟨f, hmem, hass⟩ | ⟨d, hmem, hid⟩
      · have := (findField_eq_none O t w.fields).1 hf f hmem
        rw [hass] at this
        exact absurd this (by decide)
      · have := (findDecl_eq_none O t 0 w.decls).1 hd d hmem
        rw [hid] at this
        exact absurd this (by decide)

theorem findDerivation_ok_not_empty (O : TypeOracle) (w : Resolver) (t : GoType)
    (p : Derivation) (h : w.findDerivation O t = .ok p) : O.isEmpty t = false := by
  unfold Resolver.findDerivation at h
  cases he : O.isEmpty t with
  | true => simp [he] at h
  | false => rfl

theorem foldl_deriveBody_preserves (O : TypeOracle) (P : Resolver → Prop)
    (hstep : ∀ st b, P st.r → P (deriveBody O st b).r) (visit : List (Iface × Func)) :
    ∀ st : DeriveState, P st.r → P (visit.foldl (deriveBody O) st).r := by
  induction visit with
  | nil => intro st h; exact h
  | cons b rest ih =>
    intro st h
    rw [List.foldl_cons]
    exact ih _ (hstep st b h)

theorem deriveLoop_preserves (O : TypeOracle) (order : Nat → List (Iface × Func))
    (P : Resolver → Prop) (hstep : ∀ st b, P st.r → P (deriveBody O st b).r) :
    ∀ (fuel loop : Nat) (r : Resolver) (derived : List (Iface × PrivateFuncDecl))
      (r' : Resolver), P r → deriveLoop O order fuel loop r derived = some r' → P r' := by
  intro fuel
  induction fuel with
  | zero => intro loop r derived r' _ h; simp [deriveLoop] at h
  | succ fuel ih =>
    intro loop r derived r' hP h
    unfold deriveLoop at h
    by_cases hcap : loop > 1000
    · simp [hcap] at h
    · rw [if_neg hcap] at h
      have hround : P (deriveRound O r derived (order loop)).r :=
        foldl_deriveBody_preserves O P hstep (order loop)
          { r := r, derived := derived, numDerived := 0 } hP
      by_cases hz : (deriveRound O r derived (order loop)).numDerived = 0
      · simp only [hz, if_true] at h
        have : (deriveRound O r derived (order loop)).r = r' := by simpa using h
        rw [← this]
        exact hround
      · simp only [hz, if_false] at h
        exact ih _ _ _ _ hround h

/-- No declaration of the loop is for a constructor with a parameter of the
empty interface type. -/
theorem deriveBody_params_not_empty (O : TypeOracle) (st : DeriveState) (b : Iface × Func)
    (h : ∀ d ∈ st.r.decls, ∀ t ∈ d.fn.Params, O.isEmpty t = false) :
    ∀ d ∈ (deriveBody O st b).r.decls, ∀ t ∈ d.fn.Params, O.isEmpty t = false := by
  rcases deriveBody_cases O st b with ⟨_, hb⟩ | ⟨_, _, hb⟩ | ⟨_, params, hok, hb⟩
  · rw [hb]; exact h
  · rw [hb]; exact h
  · rw [hb]
    intro d hd t ht
    simp only [Resolver.AddFunc, List.mem_append, List.mem_singleton] at hd
    rcases hd with hd | hd
    · exact h d hd t ht
    · subst hd
      obtain ⟨p, hp⟩ := (findDerivationsForParams_ok_iff O st.r b.2).1 ⟨params, hok⟩ t ht
      exact findDerivation_ok_not_empty O st.r t p hp

theorem derive_params_not_empty (O : TypeOracle) (order : Nat → List (Iface × Func))
    (r : Resolver) (hfresh : r.decls = []) (r' : Resolver)
    (hret : r.deriveConstructorsForEachInterfaces O order = some r') :
    ∀ d ∈ r'.decls, ∀ t ∈ d.fn.Params, O.isEmpty t = false :=
  deriveLoop_preserves O order
    (fun w => ∀ d ∈ w.decls, ∀ t ∈ d.fn.Params, O.isEmpty t = false)
    (fun st b h => deriveBody_params_not_empty O st b h) 1002 0 r [] r'
    (by intro d hd; rw [hfresh] at hd; exact absurd hd (List.not_mem_nil d)) hret

theorem forall₂_exists_right {α β : Type} {R : α → β → Prop} {l₁ : List α} {l₂ : List β}
    (h : List.Forall₂ R l₁ l₂) {a : α} (ha : a ∈ l₁) : ∃ b, b ∈ l₂ ∧ R a b := by
  induction h with
  | nil => exact absurd ha (List.not_mem_nil a)
  | cons hab _ ih =>
    rcases List.mem_cons.1 ha with ha | ha
    · exact ⟨_, List.mem_cons_self _ _, ha ▸ hab⟩
    · obtain ⟨b, hb, hR⟩ := ih ha
      exact ⟨b, List.mem_cons_of_mem _ hb, hR⟩

/-- The interfaces with a declaration are closed under derivation. -/
theorem derive_closed (O : TypeOracle) (order : Nat → List (Iface × Func))
    (r : Resolver) (hfresh : r.decls = []) (hperm : ∀ n, (order n).Perm r.bindings)
    (r' : Resolver) (hret : r.deriveConstructorsForEachInterfaces O order = some r') :
    ClosedUnderDerivation O r.fields r.bindings r'.derivedIfaces := by
  have hvisit : ∀ n, ∀ b ∈ order n, b ∈ r.bindings := fun n b hb => (hperm n).subset hb
  obtain ⟨derived', n, inv, hlast⟩ :=
    deriveLoop_some O order r hvisit 1002 0 r [] r' (deriveInv_fresh O r hfresh) hret
  intro b hb hparams
  rcases hlast b ((hperm n).symm.subset hb) with hany | ⟨e, herr⟩
  · obtain ⟨e, he, hkey⟩ := List.any_eq_true.1 hany
    have hkey : e.1 = b.1 := by simpa using hkey
    have hmem : b.1 ∈ r'.decls.map (fun d => d.iface) := by
      rw [inv.keys, ← hkey]
      exact List.mem_map_of_mem _ he
    obtain ⟨d, hd, hdi⟩ := List.mem_map.1 hmem
    exact ⟨d, hd, hdi⟩
  · exfalso
    have hall : ∀ t ∈ b.2.Params, ∃ p, r'.findDerivation O t = .ok p := by
      intro t ht
      obtain ⟨hne, hsrc⟩ := hparams t ht
      apply findDerivation_ok_of O r' t hne
      rcases hsrc with ⟨f, hf, hass⟩ | ⟨j, ⟨d, hd, hdi⟩, hid⟩
      · left
        exact ⟨f, by rw [inv.fields_eq]; exact hf, hass⟩
      · right
        refine ⟨d, hd, ?_⟩
        unfold PrivateFuncDecl.ReturnType
        rw [hdi]
        exact hid
    obtain ⟨ps, hps⟩ := (findDerivationsForParams_ok_iff O r' b.2).2 hall
    rw [hps] at herr
    exact absurd herr (by simp)

/-- The interfaces with a declaration lie in every set closed under derivation. -/
theorem derive_least (O : TypeOracle) (order : Nat → List (Iface × Func))
    (r : Resolver) (hfresh : r.decls = []) (hperm : ∀ n, (order n).Perm r.bindings)
    (r' : Resolver) (hret : r.deriveConstructorsForEachInterfaces O order = some r')
    (S : Iface → Prop) (hS : ClosedUnderDerivation O r.fields r.bindings S) :
    ∀ i, r'.derivedIfaces i → S i := by
  have hvisit : ∀ n, ∀ b ∈ order n, b ∈ r.bindings := fun n b hb => (hperm n).subset hb
  obtain ⟨derived', n, inv, _⟩ :=
    deriveLoop_some O order r hvisit 1002 0 r [] r' (deriveInv_fresh O r hfresh) hret
  have hne := derive_params_not_empty O order r hfresh r' hret
  have hpos : ∀ (k : Nat) (d : PrivateFuncDecl), r'.decls[k]? = some d → S d.iface := by
    intro k
    induction k using Nat.strong_induction_on with
    | _ k ih =>
      intro d hk
      have hd : d ∈ r'.decls := List.getElem?_mem hk
      apply hS (d.iface, d.fn) (inv.bound d hd).1
      intro t ht
      refine ⟨hne d hd t ht, ?_⟩
      obtain ⟨p, _, hfrom⟩ := forall₂_exists_right (inv.params k d hk) ht
      rcases hfrom with ⟨f, _, hf, hass⟩ | ⟨j, g, _, hj, hg, hid⟩
      · left
        exact ⟨f, by rw [← inv.fields_eq]; exact hf, hass⟩
      · right
        exact ⟨g.iface, ih j hj g hg, hid⟩
  rintro i ⟨d, hd, rfl⟩
  obtain ⟨k, hk⟩ := List.getElem?_of_mem hd
  exact hpos k d hk

/-! ## The claim on the derived set -/

/-- C28 (the final set of the derived interfaces is the least set closed under
the rule of the claim) fails on a constructor with a parameter of the empty
interface type: the field is assignable to the parameter, so every set closed
under the rule holds the interface `A`, and the loop derives nothing. -/
theorem derive_skips_empty_interface_parameter :
    anyResolver.deriveConstructorsForEachInterfaces anyOracle
      (fun _ => anyResolver.bindings) = some anyResolver ∧
    anyResolver.decls = [] ∧
    ∀ S : Iface → Prop,
      ClosedUnderAssignability anyOracle anyResolver.fields anyResolver.bindings S →
        S ⟨0, demoA⟩ := by
  refine ⟨by decide, rfl, ?_⟩
  intro S hS
  apply hS (⟨0, demoA⟩, ⟨anyNewS⟩) (List.mem_singleton.2 rfl)
  intro t ht
  have ht : t = 50 := by simpa [Func.Params, anyNewS] using ht
  subst ht
  left
  exact ⟨⟨"cfg", 10⟩, List.mem_singleton.2 rfl, by decide⟩

/-- C28, amended.  When the derivation loop returns on a resolver that had no
declaration, the set of the interfaces with a declaration is the least set
closed under: a binding whose constructor has only parameters of a type that
is not the empty interface and that a field is assignable to or that is
identical to the type of an interface of the set puts its interface in the
set.  The set is the same for every visiting order of the bindings. -/
theorem derive_least_closed_set (O : TypeOracle) (order : Nat → List (Iface × Func))
    (r : Resolver) (hfresh : r.decls = []) (hperm : ∀ n, (order n).Perm r.bindings)
    (r' : Resolver) (hret : r.deriveConstructorsForEachInterfaces O order = some r') :
    ClosedUnderDerivation O r.fields r.bindings r'.derivedIfaces ∧
    (∀ S : Iface → Prop, ClosedUnderDerivation O r.fields r.bindings S →
      ∀ i, r'.derivedIfaces i → S i) ∧
    (∀ (order2 : Nat → List (Iface × Func)) (r2 : Resolver),
      (∀ n, (order2 n).Perm r.bindings) →
      r.deriveConstructorsForEachInterfaces O order2 = some r2 →
      ∀ i, r'.derivedIfaces i ↔ r2.derivedIfaces i) := by
  refine ⟨derive_closed O order r hfresh hperm r' hret,
    fun S hS => derive_least O order r hfresh hperm r' hret S hS, ?_⟩
  intro order2 r2 hperm2 hret2 i
  constructor
  · exact derive_least O order r hfresh hperm r' hret _
      (derive_closed O order2 r hfresh hperm2 r2 hret2) i
  · exact derive_least O order2 r hfresh hperm2 r2 hret2 _
      (derive_closed O order r hfresh hperm r' hret) i

theorem derive_least_closed_set_witness :
    chainResolver.decls = [] ∧
    chainResolver.deriveConstructorsForEachInterfaces demoOracle
      (fun _ => chainResolver.bindings) = some chainDerived ∧
    ClosedUnderDerivation demoOracle chainResolver.fields chainResolver.bindings
      chainDerived.derivedIfaces ∧
    (∀ S : Iface → Prop,
      ClosedUnderDerivation demoOracle chainResolver.fields chainResolver.bindings S →
      ∀ i, chainDerived.derivedIfaces i → S i) ∧
    (∀ (order2 : Nat → List (Iface × Func)) (r2 : Resolver),
      (∀ n, (order2 n).Perm chainResolver.bindings) →
      chainResolver.deriveConstructorsForEachInterfaces demoOracle order2 = some r2 →
      ∀ i, chainDerived.derivedIfaces i ↔ r2.derivedIfaces i) :=
  ⟨by decide, by decide,
    derive_least_closed_set demoOracle (fun _ => chainResolver.bindings) chainResolver
      (by decide) (fun _ => List.Perm.refl _) chainDerived (by decide)⟩

/-! ## Lemmas: the names of the declarations -/

theorem string_append_left_cancel (a b c : String) (h : a ++ b = a ++ c) : b = c := by
  have hd := congrArg String.data h
  simp only [String.data_append] at hd
  exact String.ext (List.append_cancel_left hd)

theorem ifacesFrom_map_obj_sublist (objs : List Object) :
    ∀ base : Nat, ((ifacesFrom base objs).map (fun i => i.obj)).Sublist objs := by
  induction objs with
  | nil => intro base; simp [ifacesFrom]
  | cons o rest ih =>
    intro base
    unfold ifacesFrom
    cases hk : o.kind with
    | iface e =>
      simp only [List.map_cons]
      exact (ih (base + 1)).cons₂ o
    | func ps rs => exact (ih (base + 1)).cons o
    | struct fs => exact (ih (base + 1)).cons o
    | other => exact (ih (base + 1)).cons o

theorem funcs_map_obj_sublist (objs : List Object) :
    ((objs.filterMap Object.Func).map (fun f => f.obj)).Sublist objs := by
  induction objs with
  | nil => simp
  | cons o rest ih =>
    cases hk : o.kind with
    | func ps rs =>
      have : Object.Func o = some ⟨o⟩ := by simp [Object.Func, hk]
      rw [List.filterMap_cons_some this, List.map_cons]
      exact ih.cons₂ o
    | iface e =>
      have : Object.Func o = none := by simp [Object.Func, hk]
      rw [List.filterMap_cons_none this]
      exact ih.cons o
    | struct fs =>
      have : Object.Func o = none := by simp [Object.Func, hk]
      rw [List.filterMap_cons_none this]
      exact ih.cons o
    | other =>
      have : Object.Func o = none := by simp [Object.Func, hk]
      rw [List.filterMap_cons_none this]
      exact ih.cons o

theorem resolveFunc_decl_fn (O : TypeOracle) (r : Resolver) (fn : Func) (d : PublicFuncDecl)
    (h : (r.resolveFunc O fn).decl? = some d) : d.fn = fn := by
  unfold Resolver.resolveFunc at h
  by_cases hlib : fn.obj.importPath = r.library
  · simp [hlib, ResolveOutcome.decl?] at h
  · by_cases htry : fn.ShouldTryToResolve = true
    · cases hp : r.findDerivationsForParams O fn with
      | error err =>
        by_cases hm : fn.MustBeResolved = true
        · simp [hlib, htry, hp, hm, ResolveOutcome.decl?] at h
        · simp [hlib, htry, hp, hm, ResolveOutcome.decl?] at h
      | ok params =>
        simp [hlib, htry, hp, ResolveOutcome.decl?] at h
        rw [← h]
    · simp [hlib, htry, ResolveOutcome.decl?] at h

theorem public_decls_fn_sublist (O : TypeOracle) (r : Resolver) (l : List Func) :
    ((l.filterMap (fun fn => (r.resolveFunc O fn).decl?)).map (fun d => d.fn)).Sublist l := by
  induction l with
  | nil => simp
  | cons fn rest ih =>
    cases hd : (r.resolveFunc O fn).decl? with
    | none =>
      simp only [List.filterMap_cons, hd]
      exact ih.cons fn
    | some d =>
      simp only [List.filterMap_cons, hd, List.map_cons]
      rw [resolveFunc_decl_fn O r fn d hd]
      exact ih.cons₂ fn

/-- Two public declarations of one list have different keys when the objects
of the catalogue do. -/
theorem public_decls_keys (O : TypeOracle) (r : Resolver)
    (hkeys : (r.cache.objects.map Object.key).Nodup) :
    (r.cache.Funcs.filterMap (fun fn => (r.resolveFunc O fn).decl?)).Pairwise
      (fun a b => a.fn.obj.key ≠ b.fn.obj.key) := by
  have h1 := (public_decls_fn_sublist O r r.cache.Funcs).map (fun f => f.obj)
  have h2 := (h1.trans (funcs_map_obj_sublist r.cache.objects)).map Object.key
  have h3 : List.Nodup _ := hkeys.sublist h2
  simp only [List.map_map] at h3
  exact List.pairwise_map.1 h3

theorem ifaces_keys_inj (c : ObjectCache) (hkeys : (c.objects.map Object.key).Nodup) :
    ∀ x ∈ c.Ifaces, ∀ y ∈ c.Ifaces, x.obj.key = y.obj.key → x = y := by
  have h1 := (ifacesFrom_map_obj_sublist c.objects 0).map Object.key
  have h2 : List.Nodup _ := hkeys.sublist h1
  simp only [List.map_map] at h2
  intro x hx y hy hxy
  exact List.inj_on_of_nodup_map h2 hx hy hxy

theorem setupBindings_key_mem (O : TypeOracle) (r : Resolver) (k : Iface) (fn : Func)
    (h : (k, fn) ∈ (r.setupBindings O).1.bindings) : k ∈ r.cache.Ifaces := by
  by_contra hk
  have hget := setupBindings_get O r k
  rw [if_neg hk] at hget
  exact (mapGet_eq_none k _).1 hget fn h

theorem private_name_ne (a b : PrivateFuncDecl) (hkey : a.iface.obj.key ≠ b.iface.obj.key)
    (hpkg : a.Pkg = b.Pkg) : a.FuncName ≠ b.FuncName := by
  intro hname
  unfold PrivateFuncDecl.Pkg at hpkg
  unfold PrivateFuncDecl.FuncName Object.FullPkg at hname
  rw [hpkg, String.append_assoc, String.append_assoc] at hname
  have h1 := string_append_left_cancel _ _ _ hname
  have h2 := string_append_left_cancel _ _ _ h1
  exact hkey (by unfold Object.key; rw [hpkg, h2])

theorem public_name_ne (a b : PublicFuncDecl) (hkey : a.fn.obj.key ≠ b.fn.obj.key)
    (hpkg : a.Pkg = b.Pkg) : a.FuncName ≠ b.FuncName := by
  intro hname
  unfold PublicFuncDecl.Pkg at hpkg
  unfold PublicFuncDecl.FuncName at hname
  have h1 := string_append_left_cancel _ _ _ hname
  exact hkey (by unfold Object.key; rw [hpkg, h1])

/-! ## The claim on the generated names -/

/-- C29 (generated names are unique), evaluated on a catalogue with the
constructor `NewClient` of the package `app/svc` and the constructor
`NewClient` of the package `app/other`: no two objects of the catalogue have
the same import path and name, `Resolver.Resolve` returns a public declaration
for each constructor, and both have the name `ResolveNewClient`; the output of
`Resolve` holds two functions with the same receiver and the same name. -/
theorem public_names_collide :
    (sameNameCache.objects.map (fun o => (o.importPath, o.name))).Nodup ∧
    ((NewResolver ⟨demoContainer⟩ sameNameCache "app/container").Resolve demoOracle
        (fun _ => [])).map
      (fun x => (sliceElems x.2.1).map (fun d => (d.isPublic, d.Pkg, d.FuncName))) =
      some [(true, "app/svc", "ResolveNewClient"), (true, "app/other", "ResolveNewClient")] ∧
    (Resolve demoOracle (fun _ => []) sameNameCache "Container" "app/container").map
      (fun x => x.1.map (fun d => d.PublicDecls.map
        (fun g => (g.1, g.2.map (fun f => (f.Receiver, f.FuncName)))))) =
      some (some [("app/svc", [("f *Container", "ResolveNewClient")]),
        ("app/other", [("f *Container", "ResolveNewClient")])]) :=
  ⟨by decide, by decide, by decide⟩

/-- What the names do tell apart: for a catalogue in which no two objects share
both import path and name, two distinct declarations returned by
`Resolver.Resolve` that are of the same kind (both private or both public) and
of the same package (`Pkg`: the import path of the interface, or of the
function) have different `FuncName`. -/
theorem resolve_names_unique_in_package (O : TypeOracle)
    (order : Nat → List (Iface × Func)) (r : Resolver) (hfresh : r.decls = [])
    (hkeys : (r.cache.objects.map (fun o => (o.importPath, o.name))).Nodup)
    (hperm : ∀ n, (order n).Perm (r.setupBindings O).1.bindings)
    (r' : Resolver) (ds : List FuncDecl)
    (hres : r.Resolve O order = some (r', some ds, none)) :
    ds.Pairwise (fun a b => a.isPublic = b.isPublic → a.Pkg = b.Pkg →
      a.FuncName ≠ b.FuncName) := by
  have hkeys : (r.cache.objects.map Object.key).Nodup := hkeys
  cases hset : (r.setupBindings O).2 with
  | some es =>
    rw [resolver_resolve_binding_errors O order r es hset] at hres
    simp at hres
  | none =>
    cases hderive : (r.setupBindings O).1.deriveConstructorsForEachInterfaces O order with
    | none =>
      rw [resolver_resolve_panics O order r hset hderive] at hres
      exact absurd hres (by simp)
    | some r2 =>
      have hvisit : ∀ n, ∀ b ∈ order n, b ∈ (r.setupBindings O).1.bindings :=
        fun n b hb => (hperm n).subset hb
      obtain ⟨derived', _, inv, _⟩ :=
        deriveLoop_some O order (r.setupBindings O).1 hvisit 1002 0 (r.setupBindings O).1 []
          r2 (deriveInv_fresh O _ hfresh) hderive
      have hcache : r2.cache = r.cache := inv.cache_eq
      have hpriv : r2.decls.Pairwise (fun a b => a.iface.obj.key ≠ b.iface.obj.key) := by
        have hnd : (r2.decls.map (fun d => d.iface)).Nodup := by
          rw [inv.keys]
          exact inv.nodup
        have hpw : r2.decls.Pairwise (fun a b => a.iface ≠ b.iface) := List.pairwise_map.1 hnd
        refine hpw.imp_of_mem ?_
        intro a b ha hb hne hk
        exact hne (ifaces_keys_inj r.cache hkeys a.iface
          (setupBindings_key_mem O r a.iface a.fn (inv.bound a ha).1) b.iface
          (setupBindings_key_mem O r b.iface b.fn (inv.bound b hb).1) hk)
      have hpub := public_decls_keys O r2 (by rw [hcache]; exact hkeys)
      rw [resolver_resolve_derived O order r r2 hset hderive, resolveEach_eq] at hres
      by_cases hlen :
          (r2.cache.Funcs.filterMap (fun fn => (r2.resolveFunc O fn).error?)).length > 0
      · simp only [if_pos hlen, sliceLen] at hres
        simp at hres
      · simp only [if_neg hlen, sliceLen, sliceElems] at hres
        simp only [Nat.lt_irrefl, gt_iff_lt, if_false, Option.some.injEq, Prod.mk.injEq,
          and_true] at hres
        rw [← hres.2]
        rw [List.pairwise_append]
        refine ⟨?_, ?_, ?_⟩
        · rw [List.pairwise_map]
          refine List.Pairwise.imp ?_ hpriv
          intro a b hk _ hpkg
          exact private_name_ne a b hk hpkg
        · rw [List.pairwise_map]
          refine List.Pairwise.imp ?_ hpub
          intro a b hk _ hpkg
          exact public_name_ne a b hk hpkg
        · intro a ha b hb hkind
          obtain ⟨a', _, rfl⟩ := List.mem_map.1 ha
          obtain ⟨b', _, rfl⟩ := List.mem_map.1 hb
          simp [FuncDecl.isPublic] at hkind

theorem resolve_names_unique_in_package_example :
    (catalogueResolver [demoS, demoNewS, altNewS]).Resolve demoOracle (fun _ => []) =
      some (catalogueResolver [demoS, demoNewS, altNewS],
        some [.pub ⟨⟨demoNewS⟩, "app/container", [.field ⟨"cfg", 10⟩]⟩,
          .pub ⟨⟨altNewS⟩, "app/container", [.field ⟨"cfg", 10⟩]⟩], none) ∧
    ([.pub ⟨⟨demoNewS⟩, "app/container", [.field ⟨"cfg", 10⟩]⟩,
        .pub ⟨⟨altNewS⟩, "app/container", [.field ⟨"cfg", 10⟩]⟩] : List FuncDecl).Pairwise
      (fun a b => a.isPublic = b.isPublic → a.Pkg = b.Pkg → a.FuncName ≠ b.FuncName) :=
  ⟨by decide,
    resolve_names_unique_in_package demoOracle _ (catalogueResolver [demoS, demoNewS, altNewS])
      (by decide) (by decide) (fun _ => List.Perm.refl _)
      (catalogueResolver [demoS, demoNewS, altNewS]) _ (by decide)⟩

end Blueprinter
